import Mathlib

/-!
# Set-associative cache simulator (`src/main.c`)

A shallow embedding of the cache model of `main.c` and the properties of its
specification.

Conventions of the embedding.

* `int` values are integers (`Int`); an arithmetic result that may leave the
  range of `int` is reduced with `wrapInt` (two's complement, 32 bits).
  `uint8_t` and `uint64_t` values are naturals.
* A set is the list of its ways, the cache the list of its sets.  Reading or
  writing outside an array, dividing by zero and converting the logarithm of a
  non-positive number to `int` have no defined result in C: the embedded
  functions return `none` there.
* `for` loops are recursive functions on the number of iterations that remain,
  carrying the loop index and the variables the loop assigns.
* The accesses that `main` draws from `rand()` are a parameter (a list of
  address and type pairs).  The one `float` expression of the program, the hit
  rate in the last `printf` of `main`, is not part of the embedding.
-/

namespace CacheSim

/-! ## Machine integers -/

/-- Largest value of the C type `int`. -/
def INT_MAX : Int := 2147483647

/-- Smallest value of the C type `int`. -/
def INT_MIN : Int := -2147483648

/-- Reduction of an integer to the range of a 32-bit two's complement `int`. -/
def wrapInt (x : Int) : Int := (x + 2147483648) % 4294967296 - 2147483648

/-- Conversion of an `int` to `uint64_t`. -/
def toU64 (x : Int) : Nat := (x % 18446744073709551616).toNat

/-- Integer part of the base-2 logarithm of a positive natural, by repeated halving. -/
def floorLog2Aux : Nat → Nat → Nat
  | 0, _ => 0
  | fuel + 1, n => if n < 2 then 0 else floorLog2Aux fuel (n / 2) + 1

/-- Integer part of the base-2 logarithm of a positive natural number. -/
def floorLog2 (n : Nat) : Nat := floorLog2Aux n n

/-- The C expression `(int)log2(x)` for an `int` x.  For `1 ≤ x` the double
logarithm truncated toward zero is the integer part of the base-2 logarithm;
for `x ≤ 0` the logarithm is minus infinity or a NaN, whose conversion to `int`
is undefined. -/
def ilog2 (x : Int) : Option Nat :=
  if 1 ≤ x then some (floorLog2 x.toNat) else none

/-! ## Data model -/

/-- The struct `CacheBlock`: one way of a set. -/
structure CacheBlock where
  valid : Nat
  dirty : Nat
  tag : Nat
  lru : Int
deriving DecidableEq

/-- The struct `Cache`; `sets` is the array of `num_sets` arrays of
`associativity` blocks. -/
structure Cache where
  cache_size : Int
  block_size : Int
  associativity : Int
  num_sets : Int
  sets : List (List CacheBlock)
  misses : Int
  hits : Int
  accesses : Int
deriving DecidableEq

/-! ## Operations -/

/-- The inner loop of `init_cache`: way `j` starts invalid, clean, with tag 0 and
`lru = j`. -/
def init_set (associativity : Int) : List CacheBlock :=
  (List.range associativity.toNat).map fun (j : Nat) =>
    { valid := 0, dirty := 0, tag := 0, lru := (j : Int) }

/-- The function `init_cache`.  The division has no result when the divisor is
zero or the quotient is not an `int`. -/
def init_cache (cache_size block_size associativity : Int) : Option Cache :=
  let divisor := wrapInt (block_size * associativity)
  if divisor = 0 then none
  else if cache_size = INT_MIN ∧ divisor = -1 then none
  else
    let num_sets := Int.tdiv cache_size divisor
    some { cache_size := cache_size
           block_size := block_size
           associativity := associativity
           num_sets := num_sets
           sets := List.replicate num_sets.toNat (init_set associativity)
           misses := 0
           hits := 0
           accesses := 0 }

/-- The function `get_set`: the mask is computed as an `int`, converted to
`uint64_t` for the conjunction, and the result converted back to `int`. -/
def get_set (addr : Nat) (cache : Cache) : Option Int := do
  let block_bits ← ilog2 cache.block_size
  let set_bits ← ilog2 cache.num_sets
  let mask : Int := wrapInt (wrapInt (1 * 2 ^ set_bits) - 1)
  some (wrapInt (((addr >>> block_bits) &&& toU64 mask : Nat) : Int))

/-- The function `get_tag`. -/
def get_tag (addr : Nat) (cache : Cache) : Option Nat := do
  let block_bits ← ilog2 cache.block_size
  let set_bits ← ilog2 cache.num_sets
  some (addr >>> (block_bits + set_bits))

/-- The loop of `find_lru`, with `n` iterations left at index `j`. -/
def find_lru_loop (set : List CacheBlock) : Nat → Nat → Int → Int → Option Int
  | 0, _, _, victim => some victim
  | n + 1, j, max_lru, victim =>
    match set[j]? with
    | none => none
    | some b =>
      if b.lru > max_lru then find_lru_loop set n (j + 1) b.lru (j : Int)
      else find_lru_loop set n (j + 1) max_lru victim

/-- The function `find_lru`. -/
def find_lru (set : List CacheBlock) (assoc : Int) : Option Int :=
  find_lru_loop set assoc.toNat 0 (-1) (-1)

/-- The loop of `update_lru`, with `n` iterations left at index `j`.  The
increment cannot leave the range of `int`: it is guarded by `lru < old_lru`. -/
def update_lru_loop (old_lru : Int) : Nat → Nat → List CacheBlock → Option (List CacheBlock)
  | 0, _, set => some set
  | n + 1, j, set =>
    match set[j]? with
    | none => none
    | some b =>
      if b.lru < old_lru then
        update_lru_loop old_lru n (j + 1) (set.set j { b with lru := b.lru + 1 })
      else update_lru_loop old_lru n (j + 1) set

/-- The function `update_lru`. -/
def update_lru (set : List CacheBlock) (assoc : Int) (way : Int) : Option (List CacheBlock) :=
  if way < 0 then none
  else
    match set[way.toNat]? with
    | none => none
    | some w =>
      match update_lru_loop w.lru assoc.toNat 0 set with
      | none => none
      | some set1 =>
        match set1[way.toNat]? with
        | none => none
        | some w1 => some (set1.set way.toNat { w1 with lru := 0 })

/-- The hit loop of `access_cache` up to its `return`: the first way `j` with
`set[j].valid && set[j].tag == tag`, or `none` when the loop runs to its end. -/
def hit_loop (set : List CacheBlock) (tag : Nat) : Nat → Nat → Option (Option Nat)
  | 0, _ => some none
  | n + 1, j =>
    match set[j]? with
    | none => none
    | some b => if b.valid ≠ 0 ∧ b.tag = tag then some (some j) else hit_loop set tag n (j + 1)

/-- The victim loop of `access_cache`: the first way with `!set[j].valid`, or
`-1` when the loop runs to its end. -/
def victim_loop (set : List CacheBlock) : Nat → Nat → Option Int
  | 0, _ => some (-1)
  | n + 1, j =>
    match set[j]? with
    | none => none
    | some b => if b.valid = 0 then some (j : Int) else victim_loop set n (j + 1)

/-- The victim selection of `access_cache` (the block under the comment
"Find victim"): the first invalid way, and the result of `find_lru` when the
victim loop leaves `victim == -1`. -/
def select_victim (set : List CacheBlock) (assoc : Int) : Option Int :=
  match victim_loop set assoc.toNat 0 with
  | none => none
  | some victim => if victim = -1 then find_lru set assoc else some victim

/-- The function `access_cache`: the cache after the call and the value returned
(1 for a hit, 0 for a miss). -/
def access_cache (cache : Cache) (addr : Nat) (type : Char) : Option (Cache × Int) :=
  let accesses := wrapInt (cache.accesses + 1)
  match get_set addr cache, get_tag addr cache with
  | some set_index, some tag =>
    if set_index < 0 then none
    else
      match cache.sets[set_index.toNat]? with
      | none => none
      | some set =>
        let assoc := cache.associativity
        match hit_loop set tag assoc.toNat 0 with
        | none => none
        | some (some j) =>
          match update_lru set assoc (j : Int) with
          | none => none
          | some set1 =>
            match set1[j]? with
            | none => none
            | some b =>
              let set2 := if type = 'w' then set1.set j { b with dirty := 1 } else set1
              some ({ cache with
                        accesses := accesses
                        hits := wrapInt (cache.hits + 1)
                        sets := cache.sets.set set_index.toNat set2 }, 1)
        | some none =>
          match select_victim set assoc with
          | none => none
          | some victim =>
            if victim < 0 then none
            else
              match set[victim.toNat]? with
              | none => none
              | some b =>
                let set1 := set.set victim.toNat
                  { b with valid := 1, tag := tag, dirty := if type = 'w' then 1 else 0 }
                match update_lru set1 assoc victim with
                | none => none
                | some set2 =>
                  some ({ cache with
                            accesses := accesses
                            misses := wrapInt (cache.misses + 1)
                            sets := cache.sets.set set_index.toNat set2 }, 0)
  | _, _ => none

/-- A sequence of `access_cache` calls: the final cache and the values returned,
in order. -/
def run_accesses : Cache → List (Nat × Char) → Option (Cache × List Int)
  | c, [] => some (c, [])
  | c, (addr, type) :: rest =>
    match access_cache c addr type with
    | none => none
    | some (c1, r) =>
      match run_accesses c1 rest with
      | none => none
      | some (c2, rs) => some (c2, r :: rs)

/-! ## Well-formedness predicates -/

/-- A positive power of two (decidable form). -/
def IsPow2 (x : Int) : Prop := 1 ≤ x ∧ x = 2 ^ floorLog2 x.toNat

instance (x : Int) : Decidable (IsPow2 x) := by
  unfold IsPow2; infer_instance

/-- The geometry invariant of the specification: block size, associativity and
number of sets are positive powers of two, and the capacity is exactly their
product (and, being an `int`, at most `INT_MAX`). -/
def ValidGeometry (c : Cache) : Prop :=
  IsPow2 c.block_size ∧ IsPow2 c.associativity ∧ IsPow2 c.num_sets ∧
    c.cache_size = c.block_size * c.associativity * c.num_sets ∧ c.cache_size ≤ INT_MAX

instance (c : Cache) : Decidable (ValidGeometry c) := by
  unfold ValidGeometry; infer_instance

/-- The geometry fields are positive values of type `int`. -/
def PositiveGeometry (c : Cache) : Prop :=
  (1 ≤ c.block_size ∧ c.block_size ≤ INT_MAX) ∧
    (1 ≤ c.associativity ∧ c.associativity ≤ INT_MAX) ∧
    (1 ≤ c.num_sets ∧ c.num_sets ≤ INT_MAX)

instance (c : Cache) : Decidable (PositiveGeometry c) := by
  unfold PositiveGeometry; infer_instance

/-- The lru values of the ways of a set form a permutation of
`0 .. assoc - 1`. -/
def LruPerm (set : List CacheBlock) (assoc : Int) : Prop :=
  List.Perm (set.map (fun b => b.lru)) ((List.range assoc.toNat).map (fun j : Nat => (j : Int)))

instance (set : List CacheBlock) (assoc : Int) : Decidable (LruPerm set assoc) := by
  unfold LruPerm; infer_instance

/-- The storage invariant: there are `num_sets` sets, and in each of them the lru
values of the ways form a permutation of `0 .. associativity - 1` (so each has
`associativity` ways). -/
def StorageInv (c : Cache) : Prop :=
  c.sets.length = c.num_sets.toNat ∧ ∀ s ∈ c.sets, LruPerm s c.associativity

instance (c : Cache) : Decidable (StorageInv c) := by
  unfold StorageInv; infer_instance

/-- A cache state of the data model: valid geometry and storage invariant. -/
def ValidState (c : Cache) : Prop := ValidGeometry c ∧ StorageInv c

instance (c : Cache) : Decidable (ValidState c) := by
  unfold ValidState; infer_instance

/-- The lookup condition of `access_cache`: way `b` is valid and carries `tag`. -/
def Matches (tag : Nat) (b : CacheBlock) : Prop := b.valid ≠ 0 ∧ b.tag = tag

instance (tag : Nat) (b : CacheBlock) : Decidable (Matches tag b) := by
  unfold Matches; infer_instance

/-- The body of the loop of `update_lru` on one block: a block more recent than
the promoted one moves down by one rank. -/
def bump (old_lru : Int) (b : CacheBlock) : CacheBlock :=
  if b.lru < old_lru then { b with lru := b.lru + 1 } else b

/-- The effect of `update_lru` on way `i`, where `old_lru` is the lru value the
promoted way had. -/
def promoteBlock (old_lru : Int) (way i : Nat) (b : CacheBlock) : CacheBlock :=
  if i = way then { b with lru := 0 } else bump old_lru b

/-- The set after `update_lru(set, assoc, way)`, as a list function. -/
def promote (set : List CacheBlock) (way : Nat) : List CacheBlock :=
  match set[way]? with
  | none => set
  | some w => set.mapIdx (promoteBlock w.lru way)

/-- The set index `get_set` computes for a positive geometry. -/
def setIndex (addr : Nat) (c : Cache) : Nat :=
  (addr >>> floorLog2 c.block_size.toNat) % 2 ^ floorLog2 c.num_sets.toNat

/-- The tag `get_tag` computes for a positive geometry. -/
def tagOf (addr : Nat) (c : Cache) : Nat :=
  addr >>> (floorLog2 c.block_size.toNat + floorLog2 c.num_sets.toNat)

/-- The set `access_cache` selects for an address: `cache->sets[get_set(addr)]`. -/
def selected_set (c : Cache) (addr : Nat) : Option (List CacheBlock) :=
  match get_set addr c with
  | none => none
  | some si => if si < 0 then none else c.sets[si.toNat]?

/-- Some way of the set selected by `get_set(addr)` is valid and carries the tag
`get_tag(addr)`. -/
def HitCondition (c : Cache) (addr : Nat) : Prop :=
  match selected_set c addr, get_tag addr c with
  | some set, some tag => ∃ b ∈ set, Matches tag b
  | _, _ => False

instance (c : Cache) (addr : Nat) : Decidable (HitCondition c addr) := by
  unfold HitCondition
  split <;> infer_instance

/-- Way `w` is the first way of the set that matches the tag. -/
def FirstMatch (set : List CacheBlock) (tag : Nat) (w : Nat) : Prop :=
  (∃ b, set[w]? = some b ∧ Matches tag b) ∧
    ∀ (i : Nat) (b : CacheBlock), i < w → set[i]? = some b → ¬ Matches tag b

/-- Way `v` is the victim of a miss: the first invalid way, or, when all ways are
valid, a way whose lru value is `assoc - 1`. -/
def IsVictim (set : List CacheBlock) (assoc : Int) (v : Nat) : Prop :=
  ((∃ b, set[v]? = some b ∧ b.valid = 0) ∧
      ∀ (i : Nat) (b : CacheBlock), i < v → set[i]? = some b → b.valid ≠ 0) ∨
  ((∀ b ∈ set, b.valid ≠ 0) ∧ ∃ b, set[v]? = some b ∧ b.lru = assoc - 1)

/-- The set after a hit on way `w`: promotion, then the dirty bit for a write. -/
def hit_update (set : List CacheBlock) (w : Nat) (type : Char) : List CacheBlock :=
  match (promote set w)[w]? with
  | none => promote set w
  | some b => if type = 'w' then (promote set w).set w { b with dirty := 1 } else promote set w

/-- The victim way overwritten with the new block. -/
def fill (set : List CacheBlock) (v : Nat) (tag : Nat) (type : Char) : List CacheBlock :=
  match set[v]? with
  | none => set
  | some b => set.set v { b with valid := 1, tag := tag, dirty := if type = 'w' then 1 else 0 }

/-- The cache after a hit on way `w` of set `si`. -/
def hit_result (c : Cache) (si w : Nat) (type : Char) (set : List CacheBlock) : Cache :=
  { c with
      accesses := wrapInt (c.accesses + 1)
      hits := wrapInt (c.hits + 1)
      sets := c.sets.set si (hit_update set w type) }

/-- The cache after a miss that fills way `v` of set `si`. -/
def miss_result (c : Cache) (si v : Nat) (tag : Nat) (type : Char) (set : List CacheBlock) :
    Cache :=
  { c with
      accesses := wrapInt (c.accesses + 1)
      misses := wrapInt (c.misses + 1)
      sets := c.sets.set si (promote (fill set v tag type) v) }

/-- The effect of a hit on way `w` on the block of way `i`: promotion, and the
dirty bit of way `w` for a write. -/
def hitBlock (old_lru : Int) (w : Nat) (type : Char) (i : Nat) (b : CacheBlock) : CacheBlock :=
  if i = w ∧ type = 'w' then { promoteBlock old_lru w i b with dirty := 1 }
  else promoteBlock old_lru w i b

/-- The block written into the victim way by a miss. -/
def fillBlock (tag : Nat) (type : Char) (b : CacheBlock) : CacheBlock :=
  { b with valid := 1, tag := tag, dirty := if type = 'w' then 1 else 0 }

/-- The effect of a miss with victim `v` on the block of way `i`: the fill of way
`v`, then promotion. -/
def missBlock (old_lru : Int) (v : Nat) (tag : Nat) (type : Char) (i : Nat) (b : CacheBlock) :
    CacheBlock :=
  promoteBlock old_lru v i (if i = v then fillBlock tag type b else b)

/-- The set selected for the address holds a block matching the address's tag
whose dirty bit is set, and the first matching way (the one the lookup of
`access_cache` finds) is such a block. -/
def DirtyLine (c : Cache) (addr : Nat) : Prop :=
  match selected_set c addr, get_tag addr c with
  | some set, some tag =>
    ∃ (w : Nat) (b : CacheBlock), FirstMatch set tag w ∧ set[w]? = some b ∧ b.dirty = 1
  | _, _ => False

/-- The shape of a set of a cold cache after misses on pairwise distinct tags
`tags` (in this order): way `j < tags.length` is valid with tag `tags[j]` and rank
`tags.length - 1 - j`; the later ways are invalid with their initial rank. -/
def Filled (S : List CacheBlock) (tags : List Nat) : Prop :=
  ∀ (j : Nat) (b : CacheBlock), S[j]? = some b →
    (j < tags.length →
      b.valid ≠ 0 ∧ tags[j]? = some b.tag ∧ b.lru = (tags.length : Int) - 1 - (j : Int)) ∧
    (tags.length ≤ j → b.valid = 0 ∧ b.lru = (j : Int))

/-- A small cache used in examples: the result of `init_cache(256, 64, 2)`, two
sets of two ways. -/
def smallCache : Cache :=
  { cache_size := 256
    block_size := 64
    associativity := 2
    num_sets := 2
    sets := [init_set 2, init_set 2]
    misses := 0
    hits := 0
    accesses := 0 }

/-- The cache returned by `init_cache(8192, 100, 4)`: the block size is not a
power of two and `num_sets` is the truncated quotient 20. -/
def oddCache : Cache :=
  { cache_size := 8192
    block_size := 100
    associativity := 4
    num_sets := 20
    sets := List.replicate 20 (init_set 4)
    misses := 0
    hits := 0
    accesses := 0 }

/-- The cache of `init_cache(256, 64, 2)` after the write accesses to addresses 0
and 128: set 0 is full, way 0 holds tag 0 with rank 1 and way 1 holds tag 1 with
rank 0, both dirty. -/
def warmCache : Cache :=
  { cache_size := 256
    block_size := 64
    associativity := 2
    num_sets := 2
    sets := [[{ valid := 1, dirty := 1, tag := 0, lru := 1 },
              { valid := 1, dirty := 1, tag := 1, lru := 0 }], init_set 2]
    misses := 2
    hits := 0
    accesses := 2 }

/-- No two distinct valid ways of the set carry the same tag. -/
def NoDupTags (S : List CacheBlock) : Prop :=
  ∀ (i j : Nat) (bi bj : CacheBlock), S[i]? = some bi → S[j]? = some bj →
    bi.valid ≠ 0 → bj.valid ≠ 0 → bi.tag = bj.tag → i = j

/-- The valid ways of the set form a prefix of the way order. -/
def ValidPrefix (S : List CacheBlock) : Prop :=
  ∀ (i j : Nat) (bi bj : CacheBlock), i < j → S[i]? = some bi → S[j]? = some bj →
    bj.valid ≠ 0 → bi.valid ≠ 0

/-- Every way of the set whose dirty bit is set is valid. -/
def DirtyValid (S : List CacheBlock) : Prop :=
  ∀ b ∈ S, b.dirty ≠ 0 → b.valid ≠ 0

/-- One access to an ideal LRU list of capacity `k` (most recently used tag
first): the accessed tag moves, or is inserted, at the front and the list is cut
to its `k` most recent tags. -/
def lruTouch (k : Nat) (L : List Nat) (t : Nat) : List Nat :=
  (t :: L.erase t).take k

/-- The ideal LRU list of capacity `k` after a sequence of accessed tags. -/
def lruList (k : Nat) (seq : List Nat) : List Nat :=
  seq.foldl (lruTouch k) []

/-- The distinct tags of a sequence of accesses, most recently accessed first. -/
def recency (seq : List Nat) : List Nat :=
  seq.foldl (fun L t => t :: L.erase t) []

/-- The set `S` holds the ideal LRU list `L` (most recent first): the first
`L.length` ways are the valid ones, the way of rank `r` carries the tag `L[r]`,
and the other ways are invalid with their initial rank. -/
def Represents (S : List CacheBlock) (L : List Nat) : Prop :=
  L.Nodup ∧ L.length ≤ S.length ∧
  ∀ (j : Nat) (b : CacheBlock), S[j]? = some b →
    (j < L.length → b.valid ≠ 0 ∧ 0 ≤ b.lru ∧ L[b.lru.toNat]? = some b.tag) ∧
    (L.length ≤ j → b.valid = 0 ∧ b.lru = (j : Int))

/-- The tags, in order, of the accesses of a trace that fall into set `s`. -/
def tagsOfSet (c : Cache) (s : Nat) (trace : List (Nat × Char)) : List Nat :=
  (trace.filter fun x => decide (setIndex x.1 c = s)).map fun x => tagOf x.1 c

/-- Every set of the cache holds the ideal LRU list of the accesses of `hist`
that fell into it. -/
def CacheRep (c : Cache) (hist : List (Nat × Char)) : Prop :=
  ∀ (s : Nat) (S : List CacheBlock), c.sets[s]? = some S →
    Represents S (lruList S.length (tagsOfSet c s hist))

/-- The reference condition of the specification for an access to `addr` after
the accesses `pre`: the (set index, tag) pair of `addr` was accessed earlier, and
strictly fewer than `associativity` distinct tags of the same set have been
accessed since the most recent earlier access to that pair. -/
def RecentlyUsed (c : Cache) (pre : List (Nat × Char)) (addr : Nat) : Prop :=
  ∃ (p q : List (Nat × Char)) (y : Nat × Char), pre = p ++ y :: q ∧
    (get_set y.1 c = get_set addr c ∧ get_tag y.1 c = get_tag addr c) ∧
    (∀ z ∈ q, ¬ (get_set z.1 c = get_set addr c ∧ get_tag z.1 c = get_tag addr c)) ∧
    ((q.filter fun z => decide (get_set z.1 c = get_set addr c)).map
      fun z => get_tag z.1 c).toFinset.card < c.associativity.toNat

/-- The integer statistics `main` prints after its loop: accesses, hits and
misses of the cache of `init_cache(8192, 64, 4)`; `trace` stands for the
(address, type) pairs the loop draws from `rand()`, one per iteration. -/
def main_counters (trace : List (Nat × Char)) : Option (Int × Int × Int) :=
  match init_cache 8192 64 4 with
  | none => none
  | some cache =>
    match run_accesses cache trace with
    | none => none
    | some (cache1, _) => some (cache1.accesses, cache1.hits, cache1.misses)

/-! ## Arithmetic lemmas -/

theorem floorLog2Aux_eq_log (fuel : Nat) : ∀ n, n ≤ fuel → floorLog2Aux fuel n = Nat.log 2 n := by
  induction fuel with
  | zero =>
    intro n hn
    have : n = 0 := by omega
    subst this
    simp [floorLog2Aux]
  | succ f ih =>
    intro n hn
    unfold floorLog2Aux
    by_cases h : n < 2
    · simp [h, Nat.log_of_lt h]
    · have h2 : 2 ≤ n := by omega
      have hd : n / 2 ≤ f := by omega
      simp only [h, if_false, ih _ hd]
      exact (Nat.log_of_one_lt_of_le (by decide) h2).symm

theorem floorLog2_eq_log (n : Nat) : floorLog2 n = Nat.log 2 n :=
  floorLog2Aux_eq_log n n (Nat.le_refl n)

theorem two_pow_floorLog2_le {n : Nat} (hn : 1 ≤ n) : 2 ^ floorLog2 n ≤ n := by
  rw [floorLog2_eq_log]
  exact Nat.pow_log_le_self 2 (by omega)

theorem floorLog2_two_pow (k : Nat) : floorLog2 (2 ^ k) = k := by
  rw [floorLog2_eq_log]
  exact Nat.log_pow (by decide) k

theorem floorLog2_lt_31 {x : Int} (h1 : 1 ≤ x) (h2 : x ≤ INT_MAX) : floorLog2 x.toNat < 31 := by
  have hx : 1 ≤ x.toNat := by omega
  have hle := two_pow_floorLog2_le hx
  have hlt : x.toNat < 2 ^ 31 := by
    unfold INT_MAX at h2
    have : (2 : Nat) ^ 31 = 2147483648 := by norm_num
    omega
  by_contra hcon
  have h31 : 31 ≤ floorLog2 x.toNat := by omega
  have : (2 : Nat) ^ 31 ≤ 2 ^ floorLog2 x.toNat := Nat.pow_le_pow_right (by decide) h31
  omega

theorem wrapInt_of_range {x : Int} (h1 : -2147483648 ≤ x) (h2 : x ≤ 2147483647) : wrapInt x = x := by
  unfold wrapInt
  omega

theorem two_pow_le_of_lt_31 {k : Nat} (hk : k < 31) : (2 : Nat) ^ k ≤ 1073741824 := by
  have h : (2 : Nat) ^ k ≤ 2 ^ 30 := Nat.pow_le_pow_right (by decide) (by omega)
  have : (2 : Nat) ^ 30 = 1073741824 := by norm_num
  omega

theorem toU64_mask {k : Nat} (hk : k < 31) :
    toU64 (wrapInt (wrapInt (1 * 2 ^ k) - 1)) = 2 ^ k - 1 := by
  have hP := two_pow_le_of_lt_31 hk
  have hpos : 1 ≤ (2 : Nat) ^ k := Nat.one_le_two_pow
  have hcast : ((2 : Int) ^ k) = (((2 : Nat) ^ k : Nat) : Int) := by push_cast; rfl
  rw [one_mul, hcast]
  generalize (2 : Nat) ^ k = P at hP hpos
  rw [wrapInt_of_range (x := (P : Int)) (by omega) (by omega),
    wrapInt_of_range (x := (P : Int) - 1) (by omega) (by omega)]
  unfold toU64
  omega

theorem get_set_eq {c : Cache} (h : PositiveGeometry c) (addr : Nat) :
    get_set addr c =
      some (((addr >>> floorLog2 c.block_size.toNat) % 2 ^ floorLog2 c.num_sets.toNat : Nat) : Int) := by
  obtain ⟨⟨hb1, _⟩, _, hn1, hn2⟩ := h
  have hk := floorLog2_lt_31 hn1 hn2
  have hP := two_pow_le_of_lt_31 hk
  have hpos : 0 < (2 : Nat) ^ floorLog2 c.num_sets.toNat := Nat.two_pow_pos _
  have hmod := Nat.mod_lt (addr >>> floorLog2 c.block_size.toNat) hpos
  simp only [get_set, ilog2, hb1, hn1, if_true, Option.bind_eq_bind, Option.some_bind,
    toU64_mask hk, Nat.and_pow_two_sub_one_eq_mod]
  rw [wrapInt_of_range (by omega) (by omega)]

theorem get_tag_eq {c : Cache} (h : PositiveGeometry c) (addr : Nat) :
    get_tag addr c =
      some (addr >>> (floorLog2 c.block_size.toNat + floorLog2 c.num_sets.toNat)) := by
  obtain ⟨⟨hb1, _⟩, _, hn1, _⟩ := h
  simp only [get_tag, ilog2, hb1, hn1, if_true, Option.bind_eq_bind, Option.some_bind]

theorem validGeometry_positive {c : Cache} (h : ValidGeometry c) : PositiveGeometry c := by
  obtain ⟨⟨hb, hb2⟩, ⟨ha, ha2⟩, ⟨hn, hn2⟩, hcs, hmax⟩ := h
  have hbn : c.block_size ≤ c.block_size * c.associativity := le_mul_of_one_le_right (by omega) ha
  have hba : c.associativity ≤ c.block_size * c.associativity := le_mul_of_one_le_left (by omega) hb
  have hp : 1 ≤ c.block_size * c.associativity := by omega
  have h1 : c.block_size * c.associativity ≤ c.block_size * c.associativity * c.num_sets :=
    le_mul_of_one_le_right (by omega) hn
  have h2 : c.num_sets ≤ c.block_size * c.associativity * c.num_sets :=
    le_mul_of_one_le_left (by omega) hp
  exact ⟨⟨hb, by omega⟩, ⟨ha, by omega⟩, hn, by omega⟩

/-! ## The loops -/

theorem hit_loop_spec (set : List CacheBlock) (tag : Nat) :
    ∀ n j, j + n ≤ set.length →
      (∃ w, hit_loop set tag n j = some (some w) ∧ j ≤ w ∧ w < j + n ∧
          (∃ b, set[w]? = some b ∧ Matches tag b) ∧
          ∀ i b, j ≤ i → i < w → set[i]? = some b → ¬ Matches tag b) ∨
      (hit_loop set tag n j = some none ∧
          ∀ i b, j ≤ i → i < j + n → set[i]? = some b → ¬ Matches tag b) := by
  intro n
  induction n with
  | zero =>
    intro j _
    right
    refine ⟨rfl, ?_⟩
    intro i b h1 h2
    omega
  | succ n ih =>
    intro j hj
    have hlt : j < set.length := by omega
    unfold hit_loop
    rw [List.getElem?_eq_getElem hlt]
    by_cases hm : Matches tag set[j]
    · left
      refine ⟨j, ?_, Nat.le_refl j, by omega, ⟨set[j], List.getElem?_eq_getElem hlt, hm⟩, ?_⟩
      · have hm2 : set[j].valid ≠ 0 ∧ set[j].tag = tag := hm
        simp only [hm2, if_true, ne_eq, not_false_eq_true, and_self]
      · intro i b h1 h2
        omega
    · have hm2 : ¬ (set[j].valid ≠ 0 ∧ set[j].tag = tag) := hm
      simp only [hm2, if_false]
      have hfirst : ∀ i b, j ≤ i → i < j + 1 → set[i]? = some b → ¬ Matches tag b := by
        intro i b h1 h2 hb
        have : i = j := by omega
        subst this
        rw [List.getElem?_eq_getElem hlt] at hb
        cases hb
        exact hm
      rcases ih (j + 1) (by omega) with ⟨w, hw, h1, h2, h3, h4⟩ | ⟨hw, h1⟩
      · left
        refine ⟨w, hw, by omega, by omega, h3, ?_⟩
        intro i b hi1 hi2 hb
        by_cases hij : i = j
        · exact hfirst i b hi1 (by omega) hb
        · exact h4 i b (by omega) hi2 hb
      · right
        refine ⟨hw, ?_⟩
        intro i b hi1 hi2 hb
        by_cases hij : i = j
        · exact hfirst i b hi1 (by omega) hb
        · exact h1 i b (by omega) (by omega) hb

theorem victim_loop_spec (set : List CacheBlock) :
    ∀ n j, j + n ≤ set.length →
      (∃ w : Nat, victim_loop set n j = some (w : Int) ∧ j ≤ w ∧ w < j + n ∧
          (∃ b, set[w]? = some b ∧ b.valid = 0) ∧
          ∀ i b, j ≤ i → i < w → set[i]? = some b → b.valid ≠ 0) ∨
      (victim_loop set n j = some (-1) ∧
          ∀ i b, j ≤ i → i < j + n → set[i]? = some b → b.valid ≠ 0) := by
  intro n
  induction n with
  | zero =>
    intro j _
    right
    refine ⟨rfl, ?_⟩
    intro i b h1 h2
    omega
  | succ n ih =>
    intro j hj
    have hlt : j < set.length := by omega
    unfold victim_loop
    rw [List.getElem?_eq_getElem hlt]
    by_cases hm : set[j].valid = 0
    · left
      refine ⟨j, ?_, Nat.le_refl j, by omega, ⟨set[j], List.getElem?_eq_getElem hlt, hm⟩, ?_⟩
      · simp only [hm, if_true]
      · intro i b h1 h2
        omega
    · simp only [hm, if_false]
      have hfirst : ∀ i b, j ≤ i → i < j + 1 → set[i]? = some b → b.valid ≠ 0 := by
        intro i b h1 h2 hb
        have : i = j := by omega
        subst this
        rw [List.getElem?_eq_getElem hlt] at hb
        cases hb
        exact hm
      rcases ih (j + 1) (by omega) with ⟨w, hw, h1, h2, h3, h4⟩ | ⟨hw, h1⟩
      · left
        refine ⟨w, hw, by omega, by omega, h3, ?_⟩
        intro i b hi1 hi2 hb
        by_cases hij : i = j
        · exact hfirst i b hi1 (by omega) hb
        · exact h4 i b (by omega) hi2 hb
      · right
        refine ⟨hw, ?_⟩
        intro i b hi1 hi2 hb
        by_cases hij : i = j
        · exact hfirst i b hi1 (by omega) hb
        · exact h1 i b (by omega) (by omega) hb

theorem update_lru_loop_spec (old_lru : Int) :
    ∀ n j (set : List CacheBlock), j + n ≤ set.length →
      ∃ r, update_lru_loop old_lru n j set = some r ∧ r.length = set.length ∧
        ∀ i, r[i]? = if j ≤ i ∧ i < j + n then (set[i]?).map (bump old_lru) else set[i]? := by
  intro n
  induction n with
  | zero =>
    intro j set _
    refine ⟨set, rfl, rfl, ?_⟩
    intro i
    have : ¬ (j ≤ i ∧ i < j + 0) := by omega
    simp only [this, if_false]
  | succ n ih =>
    intro j set hj
    have hlt : j < set.length := by omega
    unfold update_lru_loop
    rw [List.getElem?_eq_getElem hlt]
    have key : ∀ set1 : List CacheBlock, set1.length = set.length →
        (∀ i, set1[i]? = if i = j then some (bump old_lru set[j]) else set[i]?) →
        ∃ r, update_lru_loop old_lru n (j + 1) set1 = some r ∧ r.length = set.length ∧
          ∀ i, r[i]? = if j ≤ i ∧ i < j + (n + 1) then (set[i]?).map (bump old_lru)
            else set[i]? := by
      intro set1 hlen hget
      obtain ⟨r, hr, hrl, hri⟩ := ih (j + 1) set1 (by omega)
      refine ⟨r, hr, by omega, ?_⟩
      intro i
      rw [hri i, hget i]
      by_cases hij : i = j
      · subst hij
        have h1 : ¬ (i + 1 ≤ i ∧ i < i + 1 + n) := by omega
        have h2 : i ≤ i ∧ i < i + (n + 1) := by omega
        simp only [h1, h2, if_false, if_true, and_self, List.getElem?_eq_getElem hlt,
          Option.map_some']
      · by_cases hr1 : j + 1 ≤ i ∧ i < j + 1 + n
        · have h2 : j ≤ i ∧ i < j + (n + 1) := by omega
          simp only [hr1, h2, hij, if_false, if_true, and_self]
        · have h2 : ¬ (j ≤ i ∧ i < j + (n + 1)) := by omega
          simp only [hr1, h2, hij, if_false]
    by_cases hb : set[j].lru < old_lru
    · simp only [hb, if_true]
      apply key
      · simp
      · intro i
        rw [List.getElem?_set]
        by_cases hij : i = j
        · subst hij
          simp [hlt, bump, hb]
        · have : ¬ j = i := fun h => hij h.symm
          simp only [this, hij, if_false]
    · simp only [hb, if_false]
      apply key set rfl
      intro i
      by_cases hij : i = j
      · subst hij
        simp [List.getElem?_eq_getElem hlt, bump, hb]
      · simp only [hij, if_false]

theorem bump_lru_self (b : CacheBlock) : bump b.lru b = b := by
  simp [bump]

theorem promoteBlock_ne {way i : Nat} (h : i ≠ way) (old_lru : Int) :
    promoteBlock old_lru way i = bump old_lru := by
  funext b
  simp [promoteBlock, h]

theorem getElem?_promote {set : List CacheBlock} {way : Nat} {w : CacheBlock}
    (hw : set[way]? = some w) (i : Nat) :
    (promote set way)[i]? = (set[i]?).map (promoteBlock w.lru way i) := by
  simp only [promote, hw, List.getElem?_mapIdx]

theorem length_promote (set : List CacheBlock) (way : Nat) :
    (promote set way).length = set.length := by
  unfold promote
  cases set[way]? with
  | none => rfl
  | some w => simp only [List.length_mapIdx]

theorem update_lru_eq {set : List CacheBlock} {assoc : Int} {way : Nat}
    (hlen : assoc.toNat = set.length) (hw : way < set.length) :
    update_lru set assoc (way : Int) = some (promote set way) := by
  have hget : set[way]? = some set[way] := List.getElem?_eq_getElem hw
  obtain ⟨r, hr, hrl, hri⟩ := update_lru_loop_spec set[way].lru set.length 0 set (by omega)
  have hneg : ¬ ((way : Int) < 0) := by omega
  have hrw : r[way]? = some set[way] := by
    rw [hri way]
    have : 0 ≤ way ∧ way < 0 + set.length := by omega
    simp only [this, and_self, if_true, hget, Option.map_some', bump_lru_self]
  simp only [update_lru, hneg, if_false, Int.toNat_ofNat, hget, hlen, hr, hrw]
  congr 1
  apply List.ext_getElem?
  intro i
  rw [getElem?_promote hget, List.getElem?_set, hri i]
  by_cases hiw : way = i
  · subst hiw
    simp [hrl, hw, hget, promoteBlock]
  · have hiw2 : ¬ i = way := fun h => hiw h.symm
    by_cases hil : i < set.length
    · have : 0 ≤ i ∧ i < 0 + set.length := by omega
      simp only [hiw, if_false, this, and_self, if_true, promoteBlock_ne hiw2]
    · have : ¬ (0 ≤ i ∧ i < 0 + set.length) := by omega
      simp only [hiw, if_false, this, List.getElem?_eq_none (Nat.le_of_not_lt hil),
        Option.map_none', and_false]

theorem find_lru_loop_spec (set : List CacheBlock) :
    ∀ n j (m v : Int), j + n ≤ set.length →
      (find_lru_loop set n j m v = some v ∧
          ∀ i b, j ≤ i → i < j + n → set[i]? = some b → b.lru ≤ m) ∨
      (∃ w : Nat, ∃ bw, find_lru_loop set n j m v = some (w : Int) ∧ j ≤ w ∧ w < j + n ∧
          set[w]? = some bw ∧ m < bw.lru ∧
          (∀ i b, j ≤ i → i < j + n → set[i]? = some b → b.lru ≤ bw.lru) ∧
          ∀ i b, j ≤ i → i < w → set[i]? = some b → b.lru < bw.lru) := by
  intro n
  induction n with
  | zero =>
    intro j m v _
    left
    refine ⟨rfl, ?_⟩
    intro i b h1 h2
    omega
  | succ n ih =>
    intro j m v hj
    have hlt : j < set.length := by omega
    have hget : set[j]? = some set[j] := List.getElem?_eq_getElem hlt
    have hat : ∀ i b, j ≤ i → i < j + 1 → set[i]? = some b → b = set[j] := by
      intro i b h1 h2 hb
      have : i = j := by omega
      subst this
      rw [hget] at hb
      cases hb
      rfl
    unfold find_lru_loop
    rw [hget]
    by_cases hgt : set[j].lru > m
    · simp only [hgt, if_true]
      right
      rcases ih (j + 1) set[j].lru (j : Int) (by omega) with ⟨hres, hall⟩ |
        ⟨w, bw, hres, h1, h2, hbw, hm, hall, hfirst⟩
      · refine ⟨j, set[j], hres, Nat.le_refl j, by omega, hget, hgt, ?_, ?_⟩
        · intro i b hi1 hi2 hb
          by_cases hij : i = j
          · rw [hat i b hi1 (by omega) hb]
          · exact hall i b (by omega) (by omega) hb
        · intro i b hi1 hi2
          omega
      · refine ⟨w, bw, hres, by omega, by omega, hbw, by omega, ?_, ?_⟩
        · intro i b hi1 hi2 hb
          by_cases hij : i = j
          · rw [hat i b hi1 (by omega) hb]
            omega
          · exact hall i b (by omega) (by omega) hb
        · intro i b hi1 hi2 hb
          by_cases hij : i = j
          · rw [hat i b hi1 (by omega) hb]
            exact hm
          · exact hfirst i b (by omega) hi2 hb
    · simp only [hgt, if_false]
      have hle : set[j].lru ≤ m := by omega
      rcases ih (j + 1) m v (by omega) with ⟨hres, hall⟩ |
        ⟨w, bw, hres, h1, h2, hbw, hm, hall, hfirst⟩
      · left
        refine ⟨hres, ?_⟩
        intro i b hi1 hi2 hb
        by_cases hij : i = j
        · rw [hat i b hi1 (by omega) hb]
          exact hle
        · exact hall i b (by omega) (by omega) hb
      · right
        refine ⟨w, bw, hres, by omega, by omega, hbw, hm, ?_, ?_⟩
        · intro i b hi1 hi2 hb
          by_cases hij : i = j
          · rw [hat i b hi1 (by omega) hb]
            omega
          · exact hall i b (by omega) (by omega) hb
        · intro i b hi1 hi2 hb
          by_cases hij : i = j
          · rw [hat i b hi1 (by omega) hb]
            omega
          · exact hfirst i b (by omega) hi2 hb

/-! ## The recency permutation -/

theorem promoteBlock_lru (old_lru : Int) (way i : Nat) (b : CacheBlock) :
    (promoteBlock old_lru way i b).lru =
      if i = way then 0 else if b.lru < old_lru then b.lru + 1 else b.lru := by
  unfold promoteBlock bump
  split_ifs <;> rfl

theorem promoteBlock_valid (old_lru : Int) (way i : Nat) (b : CacheBlock) :
    (promoteBlock old_lru way i b).valid = b.valid := by
  unfold promoteBlock bump
  split_ifs <;> rfl

theorem promoteBlock_tag (old_lru : Int) (way i : Nat) (b : CacheBlock) :
    (promoteBlock old_lru way i b).tag = b.tag := by
  unfold promoteBlock bump
  split_ifs <;> rfl

theorem promoteBlock_dirty (old_lru : Int) (way i : Nat) (b : CacheBlock) :
    (promoteBlock old_lru way i b).dirty = b.dirty := by
  unfold promoteBlock bump
  split_ifs <;> rfl

theorem lruPerm_iff (set : List CacheBlock) (assoc : Int) :
    LruPerm set assoc ↔
      set.length = assoc.toNat ∧
      (∀ (i : Nat) (b : CacheBlock), set[i]? = some b → 0 ≤ b.lru ∧ b.lru < (assoc.toNat : Int)) ∧
      (∀ (i j : Nat) (bi bj : CacheBlock),
        set[i]? = some bi → set[j]? = some bj → bi.lru = bj.lru → i = j) := by
  unfold LruPerm
  constructor
  · intro h
    have hlen : set.length = assoc.toNat := by
      have := h.length_eq
      simpa using this
    have hnd : (set.map (fun b => b.lru)).Nodup := by
      rw [h.nodup_iff]
      exact (List.nodup_range _).map (fun a b hab => by exact_mod_cast hab)
    refine ⟨hlen, ?_, ?_⟩
    · intro i b hb
      have hmem : b.lru ∈ set.map (fun b => b.lru) :=
        List.mem_map.mpr ⟨b, List.getElem?_mem hb, rfl⟩
      rw [h.mem_iff] at hmem
      obtain ⟨j, hj, hjb⟩ := List.mem_map.mp hmem
      rw [List.mem_range] at hj
      omega
    · intro i j bi bj hi hj hij
      rw [List.nodup_iff_getElem?_ne_getElem?] at hnd
      have hil : i < set.length := by
        by_contra hc
        rw [List.getElem?_eq_none (Nat.le_of_not_lt hc)] at hi
        cases hi
      have hjl : j < set.length := by
        by_contra hc
        rw [List.getElem?_eq_none (Nat.le_of_not_lt hc)] at hj
        cases hj
      by_contra hne
      rcases Nat.lt_or_gt_of_ne hne with hlt | hlt
      · apply hnd i j hlt (by simpa using hjl)
        simp only [List.getElem?_map, hi, hj, Option.map_some', hij]
      · apply hnd j i hlt (by simpa using hil)
        simp only [List.getElem?_map, hi, hj, Option.map_some', hij]
  · rintro ⟨hlen, hrange, hinj⟩
    have hnd : (set.map (fun b => b.lru)).Nodup := by
      rw [List.nodup_iff_getElem?_ne_getElem?]
      intro i j hij hj heq
      have hjl : j < set.length := by simpa using hj
      have hil : i < set.length := by omega
      simp only [List.getElem?_map, List.getElem?_eq_getElem hil, List.getElem?_eq_getElem hjl,
        Option.map_some', Option.some.injEq] at heq
      have := hinj i j _ _ (List.getElem?_eq_getElem hil) (List.getElem?_eq_getElem hjl) heq
      omega
    have hsub : set.map (fun b => b.lru) ⊆
        (List.range assoc.toNat).map (fun j : Nat => (j : Int)) := by
      intro x hx
      obtain ⟨b, hb, rfl⟩ := List.mem_map.mp hx
      obtain ⟨i, hi⟩ := List.getElem?_of_mem hb
      obtain ⟨h0, h1⟩ := hrange i b hi
      refine List.mem_map.mpr ⟨b.lru.toNat, ?_, ?_⟩
      · rw [List.mem_range]
        omega
      · omega
    apply (List.subperm_of_subset hnd hsub).perm_of_length_le
    simp [hlen]

theorem lruPerm_length_eq {set : List CacheBlock} {assoc : Int} (h : LruPerm set assoc) :
    assoc.toNat = set.length :=
  ((lruPerm_iff set assoc).mp h).1.symm

theorem lruPerm_promote {set : List CacheBlock} {assoc : Int} (h : LruPerm set assoc)
    {way : Nat} (hw : way < set.length) : LruPerm (promote set way) assoc := by
  obtain ⟨hlen, hrange, hinj⟩ := (lruPerm_iff set assoc).mp h
  have hget : set[way]? = some set[way] := List.getElem?_eq_getElem hw
  obtain ⟨hw0, hw1⟩ := hrange way _ hget
  rw [lruPerm_iff]
  refine ⟨by rw [length_promote, hlen], ?_, ?_⟩
  · intro i b hb
    rw [getElem?_promote hget] at hb
    obtain ⟨b0, hb0, rfl⟩ := Option.map_eq_some'.mp hb
    obtain ⟨h0, h1⟩ := hrange i b0 hb0
    rw [promoteBlock_lru]
    split_ifs <;> omega
  · intro i j bi bj hi hj hij
    rw [getElem?_promote hget] at hi hj
    obtain ⟨b0, hb0, rfl⟩ := Option.map_eq_some'.mp hi
    obtain ⟨b1, hb1, rfl⟩ := Option.map_eq_some'.mp hj
    obtain ⟨h0, _⟩ := hrange i b0 hb0
    obtain ⟨h1, _⟩ := hrange j b1 hb1
    have hi_way : b0.lru = set[way].lru → i = way := hinj i way b0 _ hb0 hget
    have hj_way : b1.lru = set[way].lru → j = way := hinj j way b1 _ hb1 hget
    have hinj2 : b0.lru = b1.lru → i = j := hinj i j b0 b1 hb0 hb1
    rw [promoteBlock_lru, promoteBlock_lru] at hij
    by_contra hne
    split_ifs at hij <;> omega

theorem lruPerm_set_fields {set : List CacheBlock} {assoc : Int} (h : LruPerm set assoc)
    {way : Nat} {b b1 : CacheBlock} (hb : set[way]? = some b) (hl : b1.lru = b.lru) :
    LruPerm (set.set way b1) assoc := by
  unfold LruPerm at *
  have : (set.set way b1).map (fun b => b.lru) = set.map (fun b => b.lru) := by
    apply List.ext_getElem?
    intro i
    simp only [List.getElem?_map, List.getElem?_set]
    by_cases hiw : way = i
    · subst hiw
      have hlt : way < set.length := by
        by_contra hc
        rw [List.getElem?_eq_none (Nat.le_of_not_lt hc)] at hb
        cases hb
      simp [hlt, hb, hl]
    · simp only [hiw, if_false]
  rw [this]
  exact h

/-! ## The selected set -/

theorem setIndex_lt {c : Cache} (h : PositiveGeometry c) (addr : Nat) :
    setIndex addr c < c.num_sets.toNat := by
  obtain ⟨_, _, hn1, _⟩ := h
  have hle := two_pow_floorLog2_le (n := c.num_sets.toNat) (by omega)
  have hpos : 0 < (2 : Nat) ^ floorLog2 c.num_sets.toNat := Nat.two_pow_pos _
  have := Nat.mod_lt (addr >>> floorLog2 c.block_size.toNat) hpos
  unfold setIndex
  omega

theorem get_set_eq_setIndex {c : Cache} (h : PositiveGeometry c) (addr : Nat) :
    get_set addr c = some (setIndex addr c : Int) :=
  get_set_eq h addr

theorem get_tag_eq_tagOf {c : Cache} (h : PositiveGeometry c) (addr : Nat) :
    get_tag addr c = some (tagOf addr c) :=
  get_tag_eq h addr

theorem selected_set_eq {c : Cache} (h : PositiveGeometry c) (addr : Nat) :
    selected_set c addr = c.sets[setIndex addr c]? := by
  have hneg : ¬ ((setIndex addr c : Int) < 0) := by omega
  simp only [selected_set, get_set_eq_setIndex h, hneg, if_false, Int.toNat_ofNat]

theorem selected_set_exists {c : Cache} (h : PositiveGeometry c) (hs : StorageInv c) (addr : Nat) :
    ∃ set, c.sets[setIndex addr c]? = some set ∧ LruPerm set c.associativity := by
  have hlt : setIndex addr c < c.sets.length := by
    rw [hs.1]
    exact setIndex_lt h addr
  exact ⟨c.sets[setIndex addr c], List.getElem?_eq_getElem hlt, hs.2 _ (List.getElem_mem _)⟩

theorem firstMatch_or_none (set : List CacheBlock) (tag : Nat) :
    (∃ w, FirstMatch set tag w) ∨ ∀ b ∈ set, ¬ Matches tag b := by
  rcases hit_loop_spec set tag set.length 0 (by omega) with ⟨w, _, _, _, h3, h4⟩ | ⟨_, h1⟩
  · left
    exact ⟨w, h3, fun i b hi hb => h4 i b (Nat.zero_le i) hi hb⟩
  · right
    intro b hb
    obtain ⟨i, hi⟩ := List.getElem?_of_mem hb
    have hil : i < set.length := by
      by_contra hc
      rw [List.getElem?_eq_none (Nat.le_of_not_lt hc)] at hi
      cases hi
    exact h1 i b (Nat.zero_le i) (by omega) hi

theorem hit_loop_of_firstMatch {set : List CacheBlock} {tag w : Nat}
    (h : FirstMatch set tag w) : hit_loop set tag set.length 0 = some (some w) := by
  obtain ⟨⟨b, hb, hm⟩, hfirst⟩ := h
  have hwl : w < set.length := by
    by_contra hc
    rw [List.getElem?_eq_none (Nat.le_of_not_lt hc)] at hb
    cases hb
  rcases hit_loop_spec set tag set.length 0 (by omega) with
    ⟨w1, hres, _, _, ⟨b1, hb1, hm1⟩, h4⟩ | ⟨_, h1⟩
  · have : w1 = w := by
      by_contra hne
      rcases Nat.lt_or_gt_of_ne hne with hlt | hlt
      · exact hfirst w1 b1 hlt hb1 hm1
      · exact h4 w b (Nat.zero_le w) hlt hb hm
    rw [hres, this]
  · exact absurd hm (h1 w b (Nat.zero_le w) (by omega) hb)

theorem hit_loop_of_noMatch {set : List CacheBlock} {tag : Nat}
    (h : ∀ b ∈ set, ¬ Matches tag b) : hit_loop set tag set.length 0 = some none := by
  rcases hit_loop_spec set tag set.length 0 (by omega) with
    ⟨w1, _, _, _, ⟨b1, hb1, hm1⟩, _⟩ | ⟨hres, _⟩
  · exact absurd hm1 (h b1 (List.getElem?_mem hb1))
  · exact hres

theorem access_cache_hit {c : Cache} (hg : PositiveGeometry c) {addr : Nat} (type : Char)
    {set : List CacheBlock} (hset : c.sets[setIndex addr c]? = some set)
    (hlen : c.associativity.toNat = set.length) {w : Nat}
    (hw : FirstMatch set (tagOf addr c) w) :
    access_cache c addr type = some (hit_result c (setIndex addr c) w type set, 1) := by
  have hneg : ¬ ((setIndex addr c : Int) < 0) := by omega
  have hwl : w < set.length := by
    obtain ⟨⟨b, hb, _⟩, _⟩ := hw
    by_contra hc
    rw [List.getElem?_eq_none (Nat.le_of_not_lt hc)] at hb
    cases hb
  have hpl : w < (promote set w).length := by rw [length_promote]; exact hwl
  simp only [access_cache, get_set_eq_setIndex hg, get_tag_eq_tagOf hg, hneg, if_false,
    Int.toNat_ofNat, hset, hlen, hit_loop_of_firstMatch hw,
    update_lru_eq hlen hwl, List.getElem?_eq_getElem hpl, hit_result, hit_update]

theorem lt_length_of_getElem? {α : Type} {l : List α} {i : Nat} {a : α} (h : l[i]? = some a) :
    i < l.length := by
  by_contra hc
  rw [List.getElem?_eq_none (Nat.le_of_not_lt hc)] at h
  cases h

theorem lruPerm_exists_max {set : List CacheBlock} {assoc : Int} (hp : LruPerm set assoc)
    (ha : 1 ≤ assoc) : ∃ (i : Nat) (b : CacheBlock), set[i]? = some b ∧ b.lru = assoc - 1 := by
  have hmem : (assoc - 1) ∈ (List.range assoc.toNat).map (fun j : Nat => (j : Int)) := by
    refine List.mem_map.mpr ⟨assoc.toNat - 1, ?_, ?_⟩
    · rw [List.mem_range]
      omega
    · omega
  unfold LruPerm at hp
  rw [← hp.mem_iff] at hmem
  obtain ⟨b, hb, hbl⟩ := List.mem_map.mp hmem
  obtain ⟨i, hi⟩ := List.getElem?_of_mem hb
  exact ⟨i, b, hi, hbl⟩

theorem find_lru_of_lruPerm {set : List CacheBlock} {assoc : Int} (hp : LruPerm set assoc)
    (ha : 1 ≤ assoc) :
    ∃ (v : Nat) (b : CacheBlock), find_lru set assoc = some (v : Int) ∧ set[v]? = some b ∧
      b.lru = assoc - 1 := by
  obtain ⟨hlen, hrange, _⟩ := (lruPerm_iff set assoc).mp hp
  obtain ⟨i, bi, hi, hil⟩ := lruPerm_exists_max hp ha
  have hilt := lt_length_of_getElem? hi
  unfold find_lru
  rw [← hlen]
  rcases find_lru_loop_spec set set.length 0 (-1) (-1) (by omega) with ⟨_, hall⟩ |
    ⟨w, bw, hres, _, _, hbw, _, hall, _⟩
  · have := hall i bi (Nat.zero_le i) (by omega) hi
    omega
  · refine ⟨w, bw, hres, hbw, ?_⟩
    have h1 := hall i bi (Nat.zero_le i) (by omega) hi
    have h2 := (hrange w bw hbw).2
    omega

theorem victim_select {set : List CacheBlock} {assoc : Int} (hp : LruPerm set assoc)
    (ha : 1 ≤ assoc) :
    ∃ v : Nat, IsVictim set assoc v ∧
      select_victim set assoc = some (v : Int) := by
  unfold select_victim
  rw [(lruPerm_length_eq hp)]
  rcases victim_loop_spec set set.length 0 (by omega) with ⟨w, hres, _, _, h3, h4⟩ | ⟨hres, h1⟩
  · refine ⟨w, Or.inl ⟨h3, fun i b hi hb => h4 i b (Nat.zero_le i) hi hb⟩, ?_⟩
    have hne : ¬ ((w : Int) = -1) := by omega
    simp only [hres, hne, if_false]
  · obtain ⟨v, b, hfind, hb, hbl⟩ := find_lru_of_lruPerm hp ha
    refine ⟨v, Or.inr ⟨?_, b, hb, hbl⟩, ?_⟩
    · intro b1 hb1
      obtain ⟨i, hi⟩ := List.getElem?_of_mem hb1
      exact h1 i b1 (Nat.zero_le i) (by have := lt_length_of_getElem? hi; omega) hi
    · simp only [hres, if_true, hfind]

theorem isVictim_lt_length {set : List CacheBlock} {assoc : Int} {v : Nat}
    (h : IsVictim set assoc v) : v < set.length := by
  rcases h with ⟨⟨b, hb, _⟩, _⟩ | ⟨_, b, hb, _⟩ <;> exact lt_length_of_getElem? hb

theorem length_fill (set : List CacheBlock) (v tag : Nat) (type : Char) :
    (fill set v tag type).length = set.length := by
  unfold fill
  cases set[v]? with
  | none => rfl
  | some b => simp only [List.length_set]

theorem access_cache_miss {c : Cache} (hg : PositiveGeometry c) {addr : Nat} (type : Char)
    {set : List CacheBlock} (hset : c.sets[setIndex addr c]? = some set)
    (hp : LruPerm set c.associativity)
    (hno : ∀ b ∈ set, ¬ Matches (tagOf addr c) b) :
    ∃ v, IsVictim set c.associativity v ∧
      access_cache c addr type =
        some (miss_result c (setIndex addr c) v (tagOf addr c) type set, 0) := by
  have hneg : ¬ ((setIndex addr c : Int) < 0) := by omega
  have hlen := (lruPerm_length_eq hp)
  obtain ⟨v, hv, hsel⟩ := victim_select hp hg.2.1.1
  have hvl := (isVictim_lt_length hv)
  have hvneg : ¬ ((v : Int) < 0) := by omega
  have hfl : c.associativity.toNat = (fill set v (tagOf addr c) type).length := by
    rw [length_fill]; exact hlen
  have hvl2 : v < (fill set v (tagOf addr c) type).length := by rw [length_fill]; exact hvl
  have hupd := update_lru_eq hfl hvl2
  refine ⟨v, hv, ?_⟩
  simp only [fill, List.getElem?_eq_getElem hvl] at hupd
  simp only [access_cache, get_set_eq_setIndex hg, get_tag_eq_tagOf hg, hneg, if_false,
    Int.toNat_ofNat, hset, hlen, hit_loop_of_noMatch hno, hsel, hvneg,
    List.getElem?_eq_getElem hvl, hupd, miss_result, fill]

/-! ## Inversion of `access_cache` -/

theorem access_cache_inv {c : Cache} {addr : Nat} {type : Char} {c1 : Cache} {r : Int}
    (h : access_cache c addr type = some (c1, r)) :
    ∃ (si : Int) (tag : Nat) (set : List CacheBlock),
      get_set addr c = some si ∧ get_tag addr c = some tag ∧ 0 ≤ si ∧
      c.sets[si.toNat]? = some set ∧
      ((∃ (j : Nat) (set1 : List CacheBlock) (b : CacheBlock),
          hit_loop set tag c.associativity.toNat 0 = some (some j) ∧
          update_lru set c.associativity (j : Int) = some set1 ∧ set1[j]? = some b ∧
          c1 = { c with
                  accesses := wrapInt (c.accesses + 1)
                  hits := wrapInt (c.hits + 1)
                  sets := c.sets.set si.toNat
                    (if type = 'w' then set1.set j { b with dirty := 1 } else set1) } ∧
          r = 1) ∨
       (∃ (victim : Int) (b : CacheBlock) (set2 : List CacheBlock),
          hit_loop set tag c.associativity.toNat 0 = some none ∧
          select_victim set c.associativity = some victim ∧ 0 ≤ victim ∧
          set[victim.toNat]? = some b ∧
          update_lru (set.set victim.toNat
            { b with valid := 1, tag := tag, dirty := if type = 'w' then 1 else 0 })
            c.associativity victim = some set2 ∧
          c1 = { c with
                  accesses := wrapInt (c.accesses + 1)
                  misses := wrapInt (c.misses + 1)
                  sets := c.sets.set si.toNat set2 } ∧
          r = 0)) := by
  unfold access_cache at h
  simp only at h
  split at h
  · rename_i si tag hsi htag
    split at h
    · cases h
    · rename_i hneg
      split at h
      · cases h
      · rename_i set hset
        refine ⟨si, tag, set, hsi, htag, by omega, hset, ?_⟩
        split at h
        · cases h
        · rename_i j hj
          left
          split at h
          · cases h
          · rename_i set1 hset1
            split at h
            · cases h
            · rename_i b hb
              simp only [Option.some.injEq, Prod.mk.injEq] at h
              exact ⟨j, set1, b, hj, hset1, hb, h.1.symm, h.2.symm⟩
        · rename_i hloop
          right
          split at h
          · cases h
          · rename_i victim hvictim
            split at h
            · cases h
            · rename_i hvneg
              split at h
              · cases h
              · rename_i b hb
                split at h
                · cases h
                · rename_i set2 hset2
                  simp only [Option.some.injEq, Prod.mk.injEq] at h
                  exact ⟨victim, b, set2, hloop, hvictim, by omega, hb, hset2, h.1.symm,
                    h.2.symm⟩
  · cases h

theorem firstMatch_of_hit_loop {set : List CacheBlock} {tag j : Nat}
    (h : hit_loop set tag set.length 0 = some (some j)) : FirstMatch set tag j := by
  rcases hit_loop_spec set tag set.length 0 (by omega) with ⟨w, hres, _, _, h3, h4⟩ | ⟨hres, _⟩
  · rw [hres] at h
    simp only [Option.some.injEq] at h
    subst h
    exact ⟨h3, fun i b hi hb => h4 i b (Nat.zero_le i) hi hb⟩
  · rw [hres] at h
    simp at h

theorem noMatch_of_hit_loop {set : List CacheBlock} {tag : Nat}
    (h : hit_loop set tag set.length 0 = some none) : ∀ b ∈ set, ¬ Matches tag b := by
  rcases hit_loop_spec set tag set.length 0 (by omega) with ⟨w, hres, _, _, _, _⟩ | ⟨_, h1⟩
  · rw [hres] at h
    simp at h
  · intro b hb
    obtain ⟨i, hi⟩ := List.getElem?_of_mem hb
    exact h1 i b (Nat.zero_le i) (by have := lt_length_of_getElem? hi; omega) hi

theorem firstMatch_lt_length {set : List CacheBlock} {tag w : Nat} (h : FirstMatch set tag w) :
    w < set.length := by
  obtain ⟨⟨b, hb, _⟩, _⟩ := h
  exact lt_length_of_getElem? hb

theorem access_cache_spec {c : Cache} (hs : StorageInv c) {addr : Nat} {type : Char}
    {c1 : Cache} {r : Int} (h : access_cache c addr type = some (c1, r)) :
    ∃ (si tag : Nat) (set : List CacheBlock),
      get_set addr c = some (si : Int) ∧ get_tag addr c = some tag ∧
      c.sets[si]? = some set ∧ LruPerm set c.associativity ∧
      ((∃ w, FirstMatch set tag w ∧ c1 = hit_result c si w type set ∧ r = 1) ∨
       ((∀ b ∈ set, ¬ Matches tag b) ∧
          ∃ v, IsVictim set c.associativity v ∧ c1 = miss_result c si v tag type set ∧ r = 0)) := by
  obtain ⟨si, tag, set, hsi, htag, hsi0, hset, hcase⟩ := access_cache_inv h
  have hp : LruPerm set c.associativity := hs.2 set (List.getElem?_mem hset)
  have hlen := (lruPerm_length_eq hp)
  have hsi' : si = (si.toNat : Int) := by omega
  refine ⟨si.toNat, tag, set, by rw [← hsi']; exact hsi, htag, hset, hp, ?_⟩
  rcases hcase with ⟨j, set1, b, hloop, hupd, hb, hc1, hr⟩ |
    ⟨victim, b, set2, hloop, hsel, hv0, hb, hupd, hc1, hr⟩
  · left
    rw [hlen] at hloop
    have hfm := firstMatch_of_hit_loop hloop
    rw [update_lru_eq hlen (firstMatch_lt_length hfm)] at hupd
    simp only [Option.some.injEq] at hupd
    subst hupd
    refine ⟨j, hfm, ?_, hr⟩
    rw [hc1]
    simp only [hit_result, hit_update, hb]
  · right
    rw [hlen] at hloop
    refine ⟨noMatch_of_hit_loop hloop, ?_⟩
    have hvl := lt_length_of_getElem? hb
    obtain ⟨v, hv, hsel2⟩ := victim_select hp (by omega)
    rw [hsel] at hsel2
    simp only [Option.some.injEq] at hsel2
    subst hsel2
    simp only [Int.toNat_ofNat] at hb hupd hvl
    have hfill : fill set v tag type = set.set v
        { b with valid := 1, tag := tag, dirty := if type = 'w' then 1 else 0 } := by
      simp only [fill, hb]
    rw [← hfill, update_lru_eq (by rw [length_fill]; exact hlen)
      (by rw [length_fill]; exact hvl)] at hupd
    simp only [Option.some.injEq] at hupd
    subst hupd
    exact ⟨v, hv, by rw [hc1]; rfl, hr⟩

theorem access_cache_total {c : Cache} (hg : PositiveGeometry c) (hs : StorageInv c)
    (addr : Nat) (type : Char) : ∃ c1 r, access_cache c addr type = some (c1, r) := by
  obtain ⟨set, hset, hp⟩ := selected_set_exists hg hs addr
  rcases firstMatch_or_none set (tagOf addr c) with ⟨w, hw⟩ | hno
  · exact ⟨_, _, access_cache_hit hg type hset (lruPerm_length_eq hp) hw⟩
  · obtain ⟨v, _, hv⟩ := access_cache_miss hg type hset hp hno
    exact ⟨_, _, hv⟩

theorem lruPerm_hit_update {set : List CacheBlock} {assoc : Int} (h : LruPerm set assoc)
    {w : Nat} (hw : w < set.length) (type : Char) : LruPerm (hit_update set w type) assoc := by
  have hp := lruPerm_promote h hw
  unfold hit_update
  cases hb : (promote set w)[w]? with
  | none => exact hp
  | some b =>
    simp only
    split_ifs
    · exact lruPerm_set_fields hp hb rfl
    · exact hp

theorem lruPerm_fill_promote {set : List CacheBlock} {assoc : Int} (h : LruPerm set assoc)
    {v : Nat} (hv : v < set.length) (tag : Nat) (type : Char) :
    LruPerm (promote (fill set v tag type) v) assoc := by
  have hf : LruPerm (fill set v tag type) assoc := by
    unfold fill
    rw [List.getElem?_eq_getElem hv]
    exact lruPerm_set_fields h (List.getElem?_eq_getElem hv) rfl
  exact lruPerm_promote hf (by rw [length_fill]; exact hv)

theorem storageInv_set {c : Cache} (hs : StorageInv c) (si : Nat) {set1 : List CacheBlock}
    (h1 : LruPerm set1 c.associativity) (c1 : Cache) (hsets : c1.sets = c.sets.set si set1)
    (hn : c1.num_sets = c.num_sets) (ha : c1.associativity = c.associativity) :
    StorageInv c1 := by
  refine ⟨by rw [hsets, hn, List.length_set]; exact hs.1, ?_⟩
  intro s hmem
  rw [hsets] at hmem
  rw [ha]
  rcases List.mem_or_eq_of_mem_set hmem with hm | hm
  · exact hs.2 s hm
  · rw [hm]; exact h1

theorem access_cache_storageInv {c : Cache} (hs : StorageInv c) {addr : Nat} {type : Char}
    {c1 : Cache} {r : Int} (h : access_cache c addr type = some (c1, r)) :
    StorageInv c1 ∧ c1.cache_size = c.cache_size ∧ c1.block_size = c.block_size ∧
      c1.associativity = c.associativity ∧ c1.num_sets = c.num_sets := by
  obtain ⟨si, tag, set, _, _, hset, hp, hcase⟩ := access_cache_spec hs h
  rcases hcase with ⟨w, hw, hc1, _⟩ | ⟨_, v, hv, hc1, _⟩
  · subst hc1
    exact ⟨storageInv_set hs si (lruPerm_hit_update hp (firstMatch_lt_length hw) type) _
      rfl rfl rfl, rfl, rfl, rfl, rfl⟩
  · subst hc1
    exact ⟨storageInv_set hs si (lruPerm_fill_promote hp (isVictim_lt_length hv) tag type) _
      rfl rfl rfl, rfl, rfl, rfl, rfl⟩

theorem positiveGeometry_congr {c c1 : Cache} (hg : PositiveGeometry c)
    (hb : c1.block_size = c.block_size) (ha : c1.associativity = c.associativity)
    (hn : c1.num_sets = c.num_sets) : PositiveGeometry c1 := by
  unfold PositiveGeometry at *
  rw [hb, ha, hn]
  exact hg

/-! ## Sequences of accesses -/

theorem run_accesses_cons_inv {c : Cache} {addr : Nat} {type : Char} {rest : List (Nat × Char)}
    {c2 : Cache} {rs : List Int} (h : run_accesses c ((addr, type) :: rest) = some (c2, rs)) :
    ∃ c1 r rs1, access_cache c addr type = some (c1, r) ∧
      run_accesses c1 rest = some (c2, rs1) ∧ rs = r :: rs1 := by
  unfold run_accesses at h
  split at h
  · cases h
  · rename_i c1 r hacc
    split at h
    · cases h
    · rename_i c3 rs1 hrun
      simp only [Option.some.injEq, Prod.mk.injEq] at h
      exact ⟨c1, r, rs1, hacc, by rw [hrun, h.1], h.2.symm⟩

theorem run_accesses_storageInv :
    ∀ (trace : List (Nat × Char)) {c c2 : Cache} {rs : List Int}, StorageInv c →
      run_accesses c trace = some (c2, rs) →
      StorageInv c2 ∧ c2.cache_size = c.cache_size ∧ c2.block_size = c.block_size ∧
        c2.associativity = c.associativity ∧ c2.num_sets = c.num_sets := by
  intro trace
  induction trace with
  | nil =>
    intro c c2 rs hs h
    simp only [run_accesses, Option.some.injEq, Prod.mk.injEq] at h
    rw [← h.1]
    exact ⟨hs, rfl, rfl, rfl, rfl⟩
  | cons x rest ih =>
    intro c c2 rs hs h
    obtain ⟨addr, type⟩ := x
    obtain ⟨c1, r, rs1, hacc, hrun, _⟩ := run_accesses_cons_inv h
    obtain ⟨hs1, e1, e2, e3, e4⟩ := access_cache_storageInv hs hacc
    obtain ⟨hs2, f1, f2, f3, f4⟩ := ih hs1 hrun
    exact ⟨hs2, by rw [f1, e1], by rw [f2, e2], by rw [f3, e3], by rw [f4, e4]⟩

theorem run_accesses_total :
    ∀ (trace : List (Nat × Char)) {c : Cache}, PositiveGeometry c → StorageInv c →
      ∃ c2 rs, run_accesses c trace = some (c2, rs) := by
  intro trace
  induction trace with
  | nil =>
    intro c _ _
    exact ⟨c, [], rfl⟩
  | cons x rest ih =>
    intro c hg hs
    obtain ⟨addr, type⟩ := x
    obtain ⟨c1, r, hacc⟩ := access_cache_total hg hs addr type
    obtain ⟨hs1, _, e2, e3, e4⟩ := access_cache_storageInv hs hacc
    obtain ⟨c2, rs, hrun⟩ := ih (positiveGeometry_congr hg e2 e3 e4) hs1
    exact ⟨c2, r :: rs, by simp only [run_accesses, hacc, hrun]⟩

theorem init_set_lruPerm (assoc : Int) : LruPerm (init_set assoc) assoc := by
  unfold LruPerm init_set
  rw [List.map_map]
  exact List.Perm.of_eq rfl

theorem init_cache_inv {cs bs assoc : Int} {c0 : Cache} (h : init_cache cs bs assoc = some c0) :
    c0.cache_size = cs ∧ c0.block_size = bs ∧ c0.associativity = assoc ∧
      c0.num_sets = Int.tdiv cs (wrapInt (bs * assoc)) ∧
      c0.sets = List.replicate c0.num_sets.toNat (init_set assoc) ∧
      c0.misses = 0 ∧ c0.hits = 0 ∧ c0.accesses = 0 := by
  unfold init_cache at h
  simp only at h
  split at h
  · cases h
  · split at h
    · cases h
    · simp only [Option.some.injEq] at h
      subst h
      exact ⟨rfl, rfl, rfl, rfl, rfl, rfl, rfl, rfl⟩

theorem init_cache_storageInv {cs bs assoc : Int} {c0 : Cache}
    (h : init_cache cs bs assoc = some c0) : StorageInv c0 := by
  obtain ⟨_, _, ha, _, hsets, _⟩ := init_cache_inv h
  refine ⟨by rw [hsets, List.length_replicate], ?_⟩
  intro s hmem
  rw [hsets] at hmem
  rw [List.eq_of_mem_replicate hmem, ha]
  exact init_set_lruPerm assoc

/-! ## Counters -/

theorem access_cache_counters {c : Cache} {addr : Nat} {type : Char} {c1 : Cache} {r : Int}
    (h : access_cache c addr type = some (c1, r)) :
    c1.accesses = wrapInt (c.accesses + 1) ∧
      ((r = 1 ∧ c1.hits = wrapInt (c.hits + 1) ∧ c1.misses = c.misses) ∨
       (r = 0 ∧ c1.hits = c.hits ∧ c1.misses = wrapInt (c.misses + 1))) := by
  obtain ⟨si, tag, set, _, _, _, _, hcase⟩ := access_cache_inv h
  rcases hcase with ⟨j, set1, b, _, _, _, hc1, hr⟩ | ⟨victim, b, set2, _, _, _, _, _, hc1, hr⟩
  · subst hc1
    exact ⟨rfl, Or.inl ⟨hr, rfl, rfl⟩⟩
  · subst hc1
    exact ⟨rfl, Or.inr ⟨hr, rfl, rfl⟩⟩

/-- The counters after a run: in the absence of overflow, `accesses` is the
number of calls, `hits` and `misses` the numbers of calls that returned 1 and 0. -/
theorem run_accesses_counters :
    ∀ (trace : List (Nat × Char)) {c c2 : Cache} {rs : List Int},
      run_accesses c trace = some (c2, rs) →
      0 ≤ c.hits → 0 ≤ c.misses → c.accesses = c.hits + c.misses →
      c.accesses + trace.length ≤ INT_MAX →
      c2.accesses = c.accesses + trace.length ∧ c2.accesses = c2.hits + c2.misses ∧
        c2.hits = c.hits + rs.count 1 ∧ c2.misses = c.misses + rs.count 0 := by
  intro trace
  induction trace with
  | nil =>
    intro c c2 rs h _ _ hsum _
    simp only [run_accesses, Option.some.injEq, Prod.mk.injEq] at h
    obtain ⟨h1, h2⟩ := h
    subst h1
    subst h2
    simp [hsum]
  | cons x rest ih =>
    intro c c2 rs h hh hm hsum hmax
    obtain ⟨addr, type⟩ := x
    obtain ⟨c1, r, rs1, hacc, hrun, hrs⟩ := run_accesses_cons_inv h
    obtain ⟨ha, hcase⟩ := access_cache_counters hacc
    simp only [List.length_cons, Nat.cast_add, Nat.cast_one] at hmax
    unfold INT_MAX at hmax ih
    have hlen0 : (0 : Int) ≤ (rest.length : Int) := Int.ofNat_nonneg _
    rw [wrapInt_of_range (by omega) (by omega)] at ha
    subst hrs
    rcases hcase with ⟨hr, h1, h2⟩ | ⟨hr, h1, h2⟩
    · rw [wrapInt_of_range (by omega) (by omega)] at h1
      obtain ⟨i3, i4, i5, i6⟩ := ih hrun (by omega) (by omega) (by omega) (by omega)
      subst hr
      refine ⟨?_, i4, ?_, ?_⟩
      · simp only [List.length_cons, Nat.cast_add, Nat.cast_one]; omega
      · simp only [List.count_cons_self, Nat.cast_add, Nat.cast_one]; omega
      · rw [List.count_cons_of_ne (by decide)]; omega
    · rw [wrapInt_of_range (by omega) (by omega)] at h2
      obtain ⟨i3, i4, i5, i6⟩ := ih hrun (by omega) (by omega) (by omega) (by omega)
      subst hr
      refine ⟨?_, i4, ?_, ?_⟩
      · simp only [List.length_cons, Nat.cast_add, Nat.cast_one]; omega
      · rw [List.count_cons_of_ne (by decide)]; omega
      · simp only [List.count_cons_self, Nat.cast_add, Nat.cast_one]; omega

/-! ## Pointwise effect of an access on the selected set -/

theorem hitBlock_eq_promoteBlock {w : Nat} {type : Char} {i : Nat}
    (h : ¬ (i = w ∧ type = 'w')) (old_lru : Int) :
    hitBlock old_lru w type i = promoteBlock old_lru w i := by
  funext b
  simp only [hitBlock, h, if_false]

theorem missBlock_ne {v i : Nat} (h : i ≠ v) (old_lru : Int) (tag : Nat) (type : Char) :
    missBlock old_lru v tag type i = promoteBlock old_lru v i := by
  funext b
  simp only [missBlock, h, if_false]

theorem getElem?_hit_update {set : List CacheBlock} {w : Nat} {bw : CacheBlock}
    (hw : set[w]? = some bw) (type : Char) (i : Nat) :
    (hit_update set w type)[i]? = (set[i]?).map (hitBlock bw.lru w type i) := by
  have hwl := lt_length_of_getElem? hw
  have hpw : (promote set w)[w]? = some (promoteBlock bw.lru w w bw) := by
    rw [getElem?_promote hw, hw]
    rfl
  unfold hit_update
  rw [hpw]
  simp only
  by_cases ht : type = 'w'
  · simp only [ht, if_true, List.getElem?_set, length_promote, hwl]
    by_cases hiw : w = i
    · subst hiw
      simp only [if_true, hw, Option.map_some', hitBlock, and_self]
    · have hiw2 : ¬ i = w := fun h => hiw h.symm
      rw [hitBlock_eq_promoteBlock (by simp [hiw2])]
      simp only [hiw, if_false, getElem?_promote hw]
  · rw [hitBlock_eq_promoteBlock (by simp [ht])]
    simp only [ht, if_false, getElem?_promote hw]

theorem getElem?_fill_promote {set : List CacheBlock} {v : Nat} {bv : CacheBlock}
    (hv : set[v]? = some bv) (tag : Nat) (type : Char) (i : Nat) :
    (promote (fill set v tag type) v)[i]? = (set[i]?).map (missBlock bv.lru v tag type i) := by
  have hvl := lt_length_of_getElem? hv
  have hfv : (fill set v tag type)[v]? = some (fillBlock tag type bv) := by
    simp only [fill, hv, List.getElem?_set, if_true, hvl]
    rfl
  rw [getElem?_promote hfv]
  simp only [fill, hv, List.getElem?_set, hvl, if_true]
  by_cases hiv : v = i
  · subst hiv
    simp only [if_true, hv, Option.map_some', missBlock]
    rfl
  · have hiv2 : ¬ i = v := fun h => hiv h.symm
    rw [missBlock_ne hiv2]
    simp only [hiv, if_false]
    rfl

theorem get_set_congr {c c1 : Cache} (hb : c1.block_size = c.block_size)
    (hn : c1.num_sets = c.num_sets) (addr : Nat) : get_set addr c1 = get_set addr c := by
  unfold get_set
  rw [hb, hn]

theorem get_tag_congr {c c1 : Cache} (hb : c1.block_size = c.block_size)
    (hn : c1.num_sets = c.num_sets) (addr : Nat) : get_tag addr c1 = get_tag addr c := by
  unfold get_tag
  rw [hb, hn]

theorem selected_set_of_get_set {c : Cache} {addr si : Nat}
    (h : get_set addr c = some (si : Int)) : selected_set c addr = c.sets[si]? := by
  have hneg : ¬ ((si : Int) < 0) := by omega
  simp only [selected_set, h, hneg, if_false, Int.toNat_ofNat]

theorem hitCondition_iff {c : Cache} {addr si tag : Nat} {set : List CacheBlock}
    (hsi : get_set addr c = some (si : Int)) (htag : get_tag addr c = some tag)
    (hset : c.sets[si]? = some set) :
    HitCondition c addr ↔ ∃ b ∈ set, Matches tag b := by
  unfold HitCondition
  rw [selected_set_of_get_set hsi, hset, htag]

theorem dirtyLine_iff {c : Cache} {addr si tag : Nat} {set : List CacheBlock}
    (hsi : get_set addr c = some (si : Int)) (htag : get_tag addr c = some tag)
    (hset : c.sets[si]? = some set) :
    DirtyLine c addr ↔
      ∃ (w : Nat) (b : CacheBlock), FirstMatch set tag w ∧ set[w]? = some b ∧ b.dirty = 1 := by
  unfold DirtyLine
  rw [selected_set_of_get_set hsi, hset, htag]

theorem hitBlock_matches {old_lru : Int} {w : Nat} {type : Char} {i tag : Nat} {b : CacheBlock} :
    Matches tag (hitBlock old_lru w type i b) ↔ Matches tag b := by
  unfold Matches hitBlock
  split_ifs <;> simp only [promoteBlock_valid, promoteBlock_tag]

theorem missBlock_matches_self {old_lru : Int} {v : Nat} {type : Char} {tag : Nat}
    {b : CacheBlock} : Matches tag (missBlock old_lru v tag type v b) := by
  unfold Matches missBlock
  simp [promoteBlock_valid, promoteBlock_tag, fillBlock]

theorem missBlock_matches_ne {old_lru : Int} {v i : Nat} {type : Char} {tag tag1 : Nat}
    {b : CacheBlock} (h : i ≠ v) :
    Matches tag1 (missBlock old_lru v tag type i b) ↔ Matches tag1 b := by
  unfold Matches missBlock
  simp only [promoteBlock_valid, promoteBlock_tag, h, if_false]

/-- After an access to an address, the selected set holds the address's tag. -/
theorem hitCondition_after_access {c : Cache} (hs : StorageInv c) {addr : Nat} {type : Char}
    {c1 : Cache} {r : Int} (h : access_cache c addr type = some (c1, r)) :
    HitCondition c1 addr := by
  obtain ⟨si, tag, set, hsi, htag, hset, hp, hcase⟩ := access_cache_spec hs h
  have hsl := lt_length_of_getElem? hset
  rcases hcase with ⟨w, hw, hc1, _⟩ | ⟨_, v, hv, hc1, _⟩
  · obtain ⟨⟨bw, hbw, hm⟩, _⟩ := hw
    have h1 : get_set addr c1 = some (si : Int) := by
      rw [get_set_congr (c := c) (by rw [hc1]; rfl) (by rw [hc1]; rfl), hsi]
    have h2 : get_tag addr c1 = some tag := by
      rw [get_tag_congr (c := c) (by rw [hc1]; rfl) (by rw [hc1]; rfl), htag]
    have h3 : c1.sets[si]? = some (hit_update set w type) := by
      rw [hc1]
      simp only [hit_result, List.getElem?_set, if_true, hsl]
    rw [hitCondition_iff h1 h2 h3]
    have h4 := getElem?_hit_update hbw type w
    rw [hbw] at h4
    exact ⟨_, List.getElem?_mem h4, hitBlock_matches.mpr hm⟩
  · have hvl := isVictim_lt_length hv
    have hbv : set[v]? = some set[v] := List.getElem?_eq_getElem hvl
    have h1 : get_set addr c1 = some (si : Int) := by
      rw [get_set_congr (c := c) (by rw [hc1]; rfl) (by rw [hc1]; rfl), hsi]
    have h2 : get_tag addr c1 = some tag := by
      rw [get_tag_congr (c := c) (by rw [hc1]; rfl) (by rw [hc1]; rfl), htag]
    have h3 : c1.sets[si]? = some (promote (fill set v tag type) v) := by
      rw [hc1]
      simp only [miss_result, List.getElem?_set, if_true, hsl]
    rw [hitCondition_iff h1 h2 h3]
    have h4 := getElem?_fill_promote hbv tag type v
    rw [hbv] at h4
    exact ⟨_, List.getElem?_mem h4, missBlock_matches_self⟩

theorem access_cache_result {c : Cache} (hs : StorageInv c) {addr : Nat} {type : Char}
    {c1 : Cache} {r : Int} (h : access_cache c addr type = some (c1, r)) :
    r = if HitCondition c addr then 1 else 0 := by
  obtain ⟨si, tag, set, hsi, htag, hset, _, hcase⟩ := access_cache_spec hs h
  have hiff := hitCondition_iff hsi htag hset
  rcases hcase with ⟨w, ⟨⟨bw, hbw, hm⟩, _⟩, _, hr⟩ | ⟨hno, _, _, _, hr⟩
  · rw [if_pos (hiff.mpr ⟨bw, List.getElem?_mem hbw, hm⟩), hr]
  · rw [if_neg (fun hc => by obtain ⟨b, hb, hm⟩ := hiff.mp hc; exact hno b hb hm), hr]

theorem selected_set_mem {c : Cache} {addr : Nat} {set : List CacheBlock}
    (h : selected_set c addr = some set) : set ∈ c.sets := by
  unfold selected_set at h
  split at h
  · cases h
  · split at h
    · cases h
    · exact List.getElem?_mem h

theorem hitCondition_exists_valid {c : Cache} {addr : Nat} (h : HitCondition c addr) :
    ∃ set ∈ c.sets, ∃ b ∈ set, b.valid ≠ 0 := by
  unfold HitCondition at h
  split at h
  · rename_i set tag hsel _
    obtain ⟨b, hb, hm⟩ := h
    exact ⟨set, selected_set_mem hsel, b, hb, hm.1⟩
  · exact absurd h not_false

theorem init_cache_cold {cs bs assoc : Int} {c0 : Cache} (h0 : init_cache cs bs assoc = some c0)
    (addr : Nat) : ¬ HitCondition c0 addr := by
  intro h
  obtain ⟨set, hset, b, hb, hv⟩ := hitCondition_exists_valid h
  obtain ⟨_, _, _, _, hsets, _⟩ := init_cache_inv h0
  rw [hsets] at hset
  rw [List.eq_of_mem_replicate hset] at hb
  unfold init_set at hb
  obtain ⟨j, _, hj⟩ := List.mem_map.mp hb
  rw [← hj] at hv
  exact hv rfl

theorem isPow2_cast {x : Int} (h : IsPow2 x) :
    x = (((2 : Nat) ^ floorLog2 x.toNat : Nat) : Int) := by
  obtain ⟨_, h2⟩ := h
  push_cast
  exact h2

/-- The decoder on a valid geometry, with `b` and `s` the exact logarithms of the
block size and the number of sets. -/
theorem decode_valid {c : Cache} (hg : ValidGeometry c) (addr : Nat) :
    c.block_size = 2 ^ floorLog2 c.block_size.toNat ∧
      c.num_sets = 2 ^ floorLog2 c.num_sets.toNat ∧
      get_set addr c = some (((addr >>> floorLog2 c.block_size.toNat) %
        2 ^ floorLog2 c.num_sets.toNat : Nat) : Int) ∧
      get_tag addr c = some (addr >>> (floorLog2 c.block_size.toNat +
        floorLog2 c.num_sets.toNat)) :=
  ⟨hg.1.2, hg.2.2.1.2, get_set_eq (validGeometry_positive hg) addr,
    get_tag_eq (validGeometry_positive hg) addr⟩

theorem div_mod_pair_eq {q q2 P : Nat} :
    (q2 % P = q % P ∧ q2 / P = q / P) ↔ q2 = q := by
  constructor
  · rintro ⟨h1, h2⟩
    rw [← Nat.mod_add_div q2 P, ← Nat.mod_add_div q P, h1, h2]
  · rintro rfl
    exact ⟨rfl, rfl⟩

theorem roundtrip_arith (addr b s : Nat) :
    ((addr >>> (b + s)) <<< (b + s)) ||| (((addr >>> b) % 2 ^ s) <<< b) =
      addr - addr % 2 ^ b := by
  rw [Nat.shiftRight_add, Nat.shiftLeft_eq, Nat.shiftLeft_eq]
  simp only [Nat.shiftRight_eq_div_pow]
  have hlt : addr / 2 ^ b % 2 ^ s * 2 ^ b < 2 ^ (b + s) := by
    rw [Nat.pow_add, Nat.mul_comm (2 ^ b) (2 ^ s)]
    exact Nat.mul_lt_mul_of_pos_right (Nat.mod_lt _ (Nat.two_pow_pos s)) (Nat.two_pow_pos b)
  rw [Nat.mul_comm (addr / 2 ^ b / 2 ^ s) (2 ^ (b + s)), ← Nat.mul_add_lt_is_or hlt]
  have h1 := Nat.div_add_mod addr (2 ^ b)
  have h2 := Nat.div_add_mod (addr / 2 ^ b) (2 ^ s)
  have h3 : 2 ^ (b + s) * (addr / 2 ^ b / 2 ^ s) + addr / 2 ^ b % 2 ^ s * 2 ^ b =
      2 ^ b * (2 ^ s * (addr / 2 ^ b / 2 ^ s) + addr / 2 ^ b % 2 ^ s) := by
    rw [Nat.pow_add]
    ring
  rw [h3, h2]
  omega

theorem shift_back_le (x k : Nat) : (x >>> k) <<< k ≤ x := by
  rw [Nat.shiftLeft_eq, Nat.shiftRight_eq_div_pow]
  exact Nat.div_mul_le_self x (2 ^ k)

theorem init_cache_some (cs bs assoc : Int) (hd : wrapInt (bs * assoc) ≠ 0)
    (hov : ¬ (cs = INT_MIN ∧ wrapInt (bs * assoc) = -1)) :
    init_cache cs bs assoc =
      some { cache_size := cs
             block_size := bs
             associativity := assoc
             num_sets := Int.tdiv cs (wrapInt (bs * assoc))
             sets := List.replicate (Int.tdiv cs (wrapInt (bs * assoc))).toNat (init_set assoc)
             misses := 0
             hits := 0
             accesses := 0 } := by
  simp only [init_cache, hd, hov, if_false]

/-! ## Dirty lines -/

theorem firstMatch_unique {set : List CacheBlock} {tag w w1 : Nat}
    (h : FirstMatch set tag w) (h1 : FirstMatch set tag w1) : w = w1 := by
  obtain ⟨⟨b, hb, hm⟩, hfirst⟩ := h
  obtain ⟨⟨b1, hb1, hm1⟩, hfirst1⟩ := h1
  by_contra hne
  rcases Nat.lt_or_gt_of_ne hne with hlt | hlt
  · exact hfirst1 w b hlt hb hm
  · exact hfirst w1 b1 hlt hb1 hm1

theorem hitBlock_dirty (old_lru : Int) (w : Nat) (type : Char) (b : CacheBlock) :
    (hitBlock old_lru w type w b).dirty = if type = 'w' then 1 else b.dirty := by
  unfold hitBlock
  by_cases ht : type = 'w'
  · simp only [ht, and_self, if_true]
  · simp only [ht, and_false, if_false, promoteBlock_dirty]

theorem missBlock_dirty (old_lru : Int) (v tag : Nat) (type : Char) (b : CacheBlock) :
    (missBlock old_lru v tag type v b).dirty = if type = 'w' then 1 else 0 := by
  unfold missBlock
  simp only [if_true, promoteBlock_dirty, fillBlock]

theorem firstMatch_hit_update {set : List CacheBlock} {tag w : Nat} (type : Char)
    (h : FirstMatch set tag w) : FirstMatch (hit_update set w type) tag w := by
  obtain ⟨⟨bw, hbw, hm⟩, hfirst⟩ := h
  refine ⟨⟨hitBlock bw.lru w type w bw, ?_, hitBlock_matches.mpr hm⟩, ?_⟩
  · rw [getElem?_hit_update hbw, hbw]
    rfl
  · intro i b hi hb
    rw [getElem?_hit_update hbw] at hb
    obtain ⟨b0, hb0, rfl⟩ := Option.map_eq_some'.mp hb
    rw [hitBlock_matches]
    exact hfirst i b0 hi hb0

theorem firstMatch_fill_promote {set : List CacheBlock} {tag v : Nat} (type : Char)
    (hv : v < set.length) (hno : ∀ b ∈ set, ¬ Matches tag b) :
    FirstMatch (promote (fill set v tag type) v) tag v := by
  have hbv : set[v]? = some set[v] := List.getElem?_eq_getElem hv
  refine ⟨⟨missBlock set[v].lru v tag type v set[v], ?_, missBlock_matches_self⟩, ?_⟩
  · rw [getElem?_fill_promote hbv, hbv]
    rfl
  · intro i b hi hb
    rw [getElem?_fill_promote hbv] at hb
    obtain ⟨b0, hb0, rfl⟩ := Option.map_eq_some'.mp hb
    rw [missBlock_matches_ne (by omega)]
    exact hno b0 (List.getElem?_mem hb0)

/-- The decoding and the selected set after an access, in terms of the state
before. -/
theorem access_cache_selected {c : Cache} (hs : StorageInv c) {addr : Nat} {type : Char}
    {c1 : Cache} {r : Int} (h : access_cache c addr type = some (c1, r)) :
    ∃ (si tag : Nat) (set set1 : List CacheBlock),
      get_set addr c = some (si : Int) ∧ get_tag addr c = some tag ∧ c.sets[si]? = some set ∧
      get_set addr c1 = some (si : Int) ∧ get_tag addr c1 = some tag ∧
      c1.sets[si]? = some set1 ∧
      ((∃ w, FirstMatch set tag w ∧ set1 = hit_update set w type ∧ r = 1) ∨
       ((∀ b ∈ set, ¬ Matches tag b) ∧
          ∃ v, IsVictim set c.associativity v ∧ set1 = promote (fill set v tag type) v ∧
            r = 0)) := by
  obtain ⟨si, tag, set, hsi, htag, hset, hp, hcase⟩ := access_cache_spec hs h
  have hsl := lt_length_of_getElem? hset
  obtain ⟨_, _, e2, _, e4⟩ := access_cache_storageInv hs h
  have h1 : get_set addr c1 = some (si : Int) := by rw [get_set_congr e2 e4, hsi]
  have h2 : get_tag addr c1 = some tag := by rw [get_tag_congr e2 e4, htag]
  rcases hcase with ⟨w, hw, hc1, hr⟩ | ⟨hno, v, hv, hc1, hr⟩
  · refine ⟨si, tag, set, hit_update set w type, hsi, htag, hset, h1, h2, ?_,
      Or.inl ⟨w, hw, rfl, hr⟩⟩
    rw [hc1]
    simp only [hit_result, List.getElem?_set, if_true, hsl]
  · refine ⟨si, tag, set, promote (fill set v tag type) v, hsi, htag, hset, h1, h2, ?_,
      Or.inr ⟨hno, v, hv, rfl, hr⟩⟩
    rw [hc1]
    simp only [miss_result, List.getElem?_set, if_true, hsl]

theorem dirtyLine_after_write {c : Cache} (hs : StorageInv c) {addr : Nat}
    {c1 : Cache} {r : Int} (h : access_cache c addr 'w' = some (c1, r)) :
    DirtyLine c1 addr := by
  obtain ⟨si, tag, set, set1, _, _, _, h1, h2, h3, hcase⟩ := access_cache_selected hs h
  rw [dirtyLine_iff h1 h2 h3]
  rcases hcase with ⟨w, hw, hset1, _⟩ | ⟨hno, v, hv, hset1, _⟩
  · obtain ⟨bw, hbw, _⟩ := hw.1
    refine ⟨w, hitBlock bw.lru w 'w' w bw, by rw [hset1]; exact firstMatch_hit_update 'w' hw,
      ?_, ?_⟩
    · rw [hset1, getElem?_hit_update hbw, hbw]
      rfl
    · rw [hitBlock_dirty, if_pos rfl]
  · have hvl := isVictim_lt_length hv
    have hbv : set[v]? = some set[v] := List.getElem?_eq_getElem hvl
    refine ⟨v, missBlock set[v].lru v tag 'w' v set[v],
      by rw [hset1]; exact firstMatch_fill_promote 'w' hvl hno, ?_, ?_⟩
    · rw [hset1, getElem?_fill_promote hbv, hbv]
      rfl
    · rw [missBlock_dirty, if_pos rfl]

theorem dirtyLine_preserved {c : Cache} (hs : StorageInv c) {addr : Nat} {type : Char}
    (hd : DirtyLine c addr) {c1 : Cache} {r : Int}
    (h : access_cache c addr type = some (c1, r)) : DirtyLine c1 addr ∧ r = 1 := by
  obtain ⟨si, tag, set, set1, h1, h2, h3, k1, k2, k3, hcase⟩ := access_cache_selected hs h
  rw [dirtyLine_iff h1 h2 h3] at hd
  rw [dirtyLine_iff k1 k2 k3]
  obtain ⟨w0, b0, hfm0, hb0, hdirty⟩ := hd
  rcases hcase with ⟨w, hw, hset1, hr⟩ | ⟨hno, _⟩
  · have hww := firstMatch_unique hfm0 hw
    subst hww
    refine ⟨⟨w0, hitBlock b0.lru w0 type w0 b0, by rw [hset1]; exact firstMatch_hit_update type hw,
      ?_, ?_⟩, hr⟩
    · rw [hset1, getElem?_hit_update hb0, hb0]
      rfl
    · rw [hitBlock_dirty, hdirty]
      split_ifs <;> rfl
  · obtain ⟨⟨b, hb, hm⟩, _⟩ := hfm0
    exact absurd hm (hno b (List.getElem?_mem hb))

theorem run_accesses_dirty :
    ∀ (types : List Char) {c : Cache} (addr : Nat), PositiveGeometry c → StorageInv c →
      DirtyLine c addr →
      ∃ c2, run_accesses c (types.map fun t => (addr, t)) =
          some (c2, List.replicate types.length 1) ∧ DirtyLine c2 addr := by
  intro types
  induction types with
  | nil =>
    intro c addr _ _ hd
    exact ⟨c, rfl, hd⟩
  | cons t rest ih =>
    intro c addr hg hs hd
    obtain ⟨c1, r, hacc⟩ := access_cache_total hg hs addr t
    obtain ⟨hs1, _, e2, e3, e4⟩ := access_cache_storageInv hs hacc
    obtain ⟨hd1, hr⟩ := dirtyLine_preserved hs hd hacc
    obtain ⟨c2, hrun, hd2⟩ := ih addr (positiveGeometry_congr hg e2 e3 e4) hs1 hd1
    subst hr
    exact ⟨c2, by simp only [List.map_cons, run_accesses, hacc, hrun, List.length_cons,
      List.replicate_succ], hd2⟩

/-! ## Filling a cold set and evicting from it -/

theorem missBlock_self_fields (old_lru : Int) (v tag : Nat) (type : Char) (b : CacheBlock) :
    (missBlock old_lru v tag type v b).valid = 1 ∧ (missBlock old_lru v tag type v b).tag = tag ∧
      (missBlock old_lru v tag type v b).lru = 0 := by
  unfold missBlock
  simp only [if_true, promoteBlock_valid, promoteBlock_tag, promoteBlock_lru, fillBlock, and_self]

theorem missBlock_ne_fields (old_lru : Int) {v i : Nat} (h : i ≠ v) (tag : Nat) (type : Char)
    (b : CacheBlock) :
    (missBlock old_lru v tag type i b).valid = b.valid ∧
      (missBlock old_lru v tag type i b).tag = b.tag ∧
      (missBlock old_lru v tag type i b).lru = if b.lru < old_lru then b.lru + 1 else b.lru := by
  unfold missBlock
  simp only [h, if_false, promoteBlock_valid, promoteBlock_tag, promoteBlock_lru, and_self]

theorem filled_noMatch {S : List CacheBlock} {tags : List Nat} {tag : Nat} (hF : Filled S tags)
    (hnew : tag ∉ tags) : ∀ b ∈ S, ¬ Matches tag b := by
  intro b hb hm
  obtain ⟨j, hj⟩ := List.getElem?_of_mem hb
  obtain ⟨h1, h2⟩ := hF j b hj
  by_cases hjl : j < tags.length
  · obtain ⟨_, ht, _⟩ := h1 hjl
    rw [hm.2] at ht
    exact hnew (List.getElem?_mem ht)
  · exact hm.1 (h2 (by omega)).1

theorem filled_victim {S : List CacheBlock} {tags : List Nat} {assoc : Int} (hF : Filled S tags)
    (hi : tags.length < S.length) {v : Nat} (hv : IsVictim S assoc v) : v = tags.length := by
  have hbi : S[tags.length]? = some S[tags.length] := List.getElem?_eq_getElem hi
  have hinv := ((hF _ _ hbi).2 (Nat.le_refl _)).1
  rcases hv with ⟨⟨b, hb, hb0⟩, hfirst⟩ | ⟨hall, _⟩
  · by_contra hne
    rcases Nat.lt_or_gt_of_ne hne with hlt | hlt
    · exact ((hF v b hb).1 hlt).1 hb0
    · exact hfirst _ _ hlt hbi hinv
  · exact absurd hinv (hall _ (List.getElem?_mem hbi))

theorem filled_step {S : List CacheBlock} {tags : List Nat} (hF : Filled S tags)
    (hi : tags.length < S.length) (tag : Nat) (type : Char) :
    Filled (promote (fill S tags.length tag type) tags.length) (tags ++ [tag]) := by
  have hbi : S[tags.length]? = some S[tags.length] := List.getElem?_eq_getElem hi
  have hold := ((hF _ _ hbi).2 (Nat.le_refl _)).2
  intro j b1 hb1
  rw [getElem?_fill_promote hbi] at hb1
  obtain ⟨b, hb, rfl⟩ := Option.map_eq_some'.mp hb1
  obtain ⟨h1, h2⟩ := hF j b hb
  simp only [List.length_append, List.length_singleton, Nat.cast_add, Nat.cast_one]
  by_cases hji : j = tags.length
  · subst hji
    obtain ⟨f1, f2, f3⟩ := missBlock_self_fields S[tags.length].lru tags.length tag type b
    refine ⟨fun _ => ⟨by rw [f1]; decide, ?_, by rw [f3]; omega⟩, fun h => by omega⟩
    rw [f2, List.getElem?_append_right (Nat.le_refl _)]
    simp
  · obtain ⟨f1, f2, f3⟩ := missBlock_ne_fields S[tags.length].lru hji tag type b
    rw [f1, f2, f3, hold]
    constructor
    · intro hlt
      obtain ⟨g1, g2, g3⟩ := h1 (by omega)
      refine ⟨g1, ?_, ?_⟩
      · rw [List.getElem?_append_left (by omega)]
        exact g2
      · rw [g3]
        split_ifs <;> omega
    · intro hle
      obtain ⟨g1, g2⟩ := h2 (by omega)
      refine ⟨g1, ?_⟩
      rw [g2]
      split_ifs <;> omega

theorem filled_full_victim {S : List CacheBlock} {tags : List Nat} {assoc : Int}
    (hF : Filled S tags) (hfull : tags.length = S.length) (ha : (assoc : Int) = (S.length : Int))
    {v : Nat} (hv : IsVictim S assoc v) : v = 0 := by
  rcases hv with ⟨⟨b, hb, hb0⟩, _⟩ | ⟨_, b, hb, hbl⟩
  · have hvl := lt_length_of_getElem? hb
    exact absurd hb0 ((hF v b hb).1 (by omega)).1
  · have hvl := lt_length_of_getElem? hb
    have := ((hF v b hb).1 (by omega)).2.2
    rw [hfull] at this
    omega

theorem filled_evict_noMatch {S : List CacheBlock} {tags : List Nat} (hF : Filled S tags)
    (hfull : tags.length = S.length) (hpos : 0 < S.length) (hnd : tags.Nodup)
    {tag tag0 : Nat} (type : Char) (hnew : tag ∉ tags) (h0 : tags[0]? = some tag0) :
    ∀ b ∈ promote (fill S 0 tag type) 0, ¬ Matches tag0 b := by
  have hb0 : S[0]? = some S[0] := List.getElem?_eq_getElem hpos
  intro b1 hmem hm
  obtain ⟨j, hj⟩ := List.getElem?_of_mem hmem
  rw [getElem?_fill_promote hb0] at hj
  obtain ⟨b, hb, rfl⟩ := Option.map_eq_some'.mp hj
  have hjl := lt_length_of_getElem? hb
  by_cases hj0 : j = 0
  · subst hj0
    have htag := (missBlock_self_fields S[0].lru 0 tag type b).2.1
    rw [hm.2] at htag
    rw [htag] at h0
    exact hnew (List.getElem?_mem h0)
  · have htag := (missBlock_ne_fields S[0].lru hj0 tag type b).2.1
    rw [hm.2] at htag
    obtain ⟨_, g2, _⟩ := (hF j b hb).1 (by omega)
    rw [← htag, ← h0] at g2
    rw [List.nodup_iff_getElem?_ne_getElem?] at hnd
    exact hnd 0 j (by omega) (by omega) g2.symm

theorem run_accesses_append :
    ∀ (l1 l2 : List (Nat × Char)) {c c1 c2 : Cache} {rs1 rs2 : List Int},
      run_accesses c l1 = some (c1, rs1) → run_accesses c1 l2 = some (c2, rs2) →
      run_accesses c (l1 ++ l2) = some (c2, rs1 ++ rs2) := by
  intro l1
  induction l1 with
  | nil =>
    intro l2 c c1 c2 rs1 rs2 h1 h2
    simp only [run_accesses, Option.some.injEq, Prod.mk.injEq] at h1
    obtain ⟨e1, e2⟩ := h1
    subst e1 e2
    simpa using h2
  | cons x rest ih =>
    intro l2 c c1 c2 rs1 rs2 h1 h2
    obtain ⟨addr, type⟩ := x
    obtain ⟨c3, r, rs3, hacc, hrun, hrs⟩ := run_accesses_cons_inv h1
    subst hrs
    have := ih l2 hrun h2
    rw [List.cons_append]
    unfold run_accesses
    rw [hacc]
    simp only [this, List.cons_append]

theorem tagOf_congr {c c1 : Cache} (hb : c1.block_size = c.block_size)
    (hn : c1.num_sets = c.num_sets) (addr : Nat) : tagOf addr c1 = tagOf addr c := by
  unfold tagOf
  rw [hb, hn]

/-- An access seen from the set it selects. -/
theorem access_on_set {c : Cache} (hg : PositiveGeometry c) (hs : StorageInv c) {addr si : Nat}
    (type : Char) {S : List CacheBlock} (hsi : get_set addr c = some (si : Int))
    (hS : c.sets[si]? = some S) :
    ∃ (c1 : Cache) (r : Int) (S1 : List CacheBlock),
      access_cache c addr type = some (c1, r) ∧ PositiveGeometry c1 ∧ StorageInv c1 ∧
      c1.block_size = c.block_size ∧ c1.associativity = c.associativity ∧
      c1.num_sets = c.num_sets ∧ c1.sets[si]? = some S1 ∧
      ((∃ w, FirstMatch S (tagOf addr c) w ∧ S1 = hit_update S w type ∧ r = 1) ∨
       ((∀ b ∈ S, ¬ Matches (tagOf addr c) b) ∧
          ∃ v, IsVictim S c.associativity v ∧
            S1 = promote (fill S v (tagOf addr c) type) v ∧ r = 0)) := by
  obtain ⟨c1, r, hacc⟩ := access_cache_total hg hs addr type
  obtain ⟨hs1, _, e2, e3, e4⟩ := access_cache_storageInv hs hacc
  obtain ⟨si1, tag, set, set1, h1, h2, h3, _, _, k3, hcase⟩ := access_cache_selected hs hacc
  rw [hsi] at h1
  simp only [Option.some.injEq, Nat.cast_inj] at h1
  subst h1
  rw [get_tag_eq_tagOf hg] at h2
  simp only [Option.some.injEq] at h2
  subst h2
  rw [hS] at h3
  simp only [Option.some.injEq] at h3
  subst h3
  exact ⟨c1, r, set1, hacc, positiveGeometry_congr hg e2 e3 e4, hs1, e2, e3, e4, k3, hcase⟩

theorem fill_phase (si : Nat) :
    ∀ (tr : List (Nat × Char)) (c : Cache) (tags : List Nat) (S : List CacheBlock),
      PositiveGeometry c → StorageInv c → c.sets[si]? = some S → Filled S tags →
      tags.length + tr.length ≤ S.length →
      (∀ x ∈ tr, get_set x.1 c = some (si : Int)) →
      (tags ++ tr.map (fun x => tagOf x.1 c)).Nodup →
      ∃ (c2 : Cache) (S2 : List CacheBlock),
        run_accesses c tr = some (c2, List.replicate tr.length 0) ∧
        PositiveGeometry c2 ∧ StorageInv c2 ∧ c2.block_size = c.block_size ∧
        c2.associativity = c.associativity ∧ c2.num_sets = c.num_sets ∧
        c2.sets[si]? = some S2 ∧ S2.length = S.length ∧
        Filled S2 (tags ++ tr.map (fun x => tagOf x.1 c)) := by
  intro tr
  induction tr with
  | nil =>
    intro c tags S hg hs hS hF _ _ _
    exact ⟨c, S, rfl, hg, hs, rfl, rfl, rfl, hS, rfl, by simpa using hF⟩
  | cons x rest ih =>
    intro c tags S hg hs hS hF hlen hset hnd
    obtain ⟨addr, type⟩ := x
    simp only [List.length_cons] at hlen
    simp only [List.map_cons] at hnd ⊢
    have hi : tags.length < S.length := by omega
    have hnew : tagOf addr c ∉ tags := by
      intro hmem
      have := (List.nodup_append.mp hnd).2.2
      exact this hmem (List.mem_cons_self _ _)
    obtain ⟨c1, r, S1, hacc, hg1, hs1, e2, e3, e4, hS1, hcase⟩ :=
      access_on_set hg hs type (hset (addr, type) (List.mem_cons_self _ _)) hS
    rcases hcase with ⟨w, ⟨⟨b, hb, hm⟩, _⟩, _, _⟩ | ⟨_, v, hv, hS1eq, hr⟩
    · exact absurd hm (filled_noMatch hF hnew b (List.getElem?_mem hb))
    · have hvi := filled_victim hF hi hv
      subst hvi
      have hF1 := filled_step hF hi (tagOf addr c) type
      rw [← hS1eq] at hF1
      have hlen1 : S1.length = S.length := by rw [hS1eq, length_promote, length_fill]
      have hmap : rest.map (fun x => tagOf x.1 c1) = rest.map (fun x => tagOf x.1 c) := by
        apply List.map_congr_left
        intro x _
        exact tagOf_congr e2 e4 x.1
      obtain ⟨c2, S2, hrun, hg2, hs2, f2, f3, f4, hS2, hlen2, hF2⟩ :=
        ih c1 (tags ++ [tagOf addr c]) S1 hg1 hs1 hS1 hF1
          (by simp only [List.length_append, List.length_singleton]; omega)
          (by
            intro x hx
            rw [get_set_congr e2 e4]
            exact hset x (List.mem_cons_of_mem _ hx))
          (by
            rw [hmap, List.append_assoc]
            exact hnd)
      rw [hmap, List.append_assoc] at hF2
      refine ⟨c2, S2, ?_, hg2, hs2, by rw [f2, e2], by rw [f3, e3], by rw [f4, e4], hS2,
        by rw [hlen2, hlen1], hF2⟩
      subst hr
      simp only [run_accesses, hacc, hrun, List.length_cons, List.replicate_succ]

theorem init_set_filled (assoc : Int) : Filled (init_set assoc) [] := by
  intro j b hb
  refine ⟨fun h => absurd h (Nat.not_lt_zero j), fun _ => ?_⟩
  unfold init_set at hb
  rw [List.getElem?_map] at hb
  obtain ⟨i, hi, rfl⟩ := Option.map_eq_some'.mp hb
  have hjl : j < assoc.toNat := by
    have := lt_length_of_getElem? hi
    simpa using this
  rw [List.getElem?_range hjl] at hi
  simp only [Option.some.injEq] at hi
  subst hi
  exact ⟨rfl, rfl⟩

/-! ## Bounds of the indices -/

theorem get_set_eq_general {c : Cache} (hb1 : 1 ≤ c.block_size) (hn1 : 1 ≤ c.num_sets)
    (hn2 : c.num_sets ≤ INT_MAX) (addr : Nat) :
    get_set addr c =
      some (((addr >>> floorLog2 c.block_size.toNat) &&&
        (2 ^ floorLog2 c.num_sets.toNat - 1) : Nat) : Int) ∧
    (addr >>> floorLog2 c.block_size.toNat) &&& (2 ^ floorLog2 c.num_sets.toNat - 1) <
      c.num_sets.toNat := by
  have hk := floorLog2_lt_31 hn1 hn2
  have hP := two_pow_le_of_lt_31 hk
  have hpos : 0 < (2 : Nat) ^ floorLog2 c.num_sets.toNat := Nat.two_pow_pos _
  have hmod := Nat.mod_lt (addr >>> floorLog2 c.block_size.toNat) hpos
  have hle := two_pow_floorLog2_le (n := c.num_sets.toNat) (by omega)
  constructor
  · simp only [get_set, ilog2, hb1, hn1, if_true, Option.bind_eq_bind, Option.some_bind,
      toU64_mask hk]
    rw [Nat.and_pow_two_sub_one_eq_mod, wrapInt_of_range (by omega) (by omega)]
  · rw [Nat.and_pow_two_sub_one_eq_mod]
    omega

theorem oddCache_init : init_cache 8192 100 4 = some oddCache := by decide

/-- The effect of an access on the whole cache: only the selected set is
replaced. -/
theorem access_cache_effect {c : Cache} (hs : StorageInv c) {addr : Nat} {type : Char}
    {c1 : Cache} {r : Int} (h : access_cache c addr type = some (c1, r)) :
    ∃ (si tag : Nat) (set set1 : List CacheBlock),
      get_set addr c = some (si : Int) ∧ get_tag addr c = some tag ∧ c.sets[si]? = some set ∧
      LruPerm set c.associativity ∧ c1.sets = c.sets.set si set1 ∧
      (c1.cache_size = c.cache_size ∧ c1.block_size = c.block_size ∧
        c1.associativity = c.associativity ∧ c1.num_sets = c.num_sets) ∧
      ((∃ w, FirstMatch set tag w ∧ set1 = hit_update set w type ∧ r = 1) ∨
       ((∀ b ∈ set, ¬ Matches tag b) ∧
          ∃ v, IsVictim set c.associativity v ∧ set1 = promote (fill set v tag type) v ∧
            r = 0)) := by
  obtain ⟨si, tag, set, hsi, htag, hset, hp, hcase⟩ := access_cache_spec hs h
  rcases hcase with ⟨w, hw, hc1, hr⟩ | ⟨hno, v, hv, hc1, hr⟩
  · exact ⟨si, tag, set, hit_update set w type, hsi, htag, hset, hp, by rw [hc1]; rfl,
      ⟨by rw [hc1]; rfl, by rw [hc1]; rfl, by rw [hc1]; rfl, by rw [hc1]; rfl⟩,
      Or.inl ⟨w, hw, rfl, hr⟩⟩
  · exact ⟨si, tag, set, promote (fill set v tag type) v, hsi, htag, hset, hp,
      by rw [hc1]; rfl,
      ⟨by rw [hc1]; rfl, by rw [hc1]; rfl, by rw [hc1]; rfl, by rw [hc1]; rfl⟩,
      Or.inr ⟨hno, v, hv, rfl, hr⟩⟩

theorem select_victim_bounds {set : List CacheBlock} {assoc : Int} (hp : LruPerm set assoc)
    (ha : 1 ≤ assoc) :
    (∃ v : Int, select_victim set assoc = some v ∧ 0 ≤ v ∧ v < assoc) ∧
    (∃ v : Int, find_lru set assoc = some v ∧ 0 ≤ v ∧ v < assoc) := by
  have hlen := lruPerm_length_eq hp
  constructor
  · obtain ⟨v, hv, hsel⟩ := victim_select hp ha
    have := isVictim_lt_length hv
    exact ⟨v, hsel, by omega, by omega⟩
  · obtain ⟨v, b, hfind, hb, _⟩ := find_lru_of_lruPerm hp ha
    have := lt_length_of_getElem? hb
    exact ⟨v, hfind, by omega, by omega⟩

/-! ## Fields after a hit and after a miss -/

theorem hitBlock_fields (old_lru : Int) (w : Nat) (type : Char) (i : Nat) (b : CacheBlock) :
    (hitBlock old_lru w type i b).valid = b.valid ∧ (hitBlock old_lru w type i b).tag = b.tag ∧
      (hitBlock old_lru w type i b).lru =
        (if i = w then 0 else if b.lru < old_lru then b.lru + 1 else b.lru) ∧
      (hitBlock old_lru w type i b).dirty = (if i = w ∧ type = 'w' then 1 else b.dirty) := by
  unfold hitBlock
  by_cases h : i = w ∧ type = 'w'
  · simp only [h, and_self, if_true, promoteBlock_valid, promoteBlock_tag, promoteBlock_lru]
  · simp only [h, if_false, promoteBlock_valid, promoteBlock_tag, promoteBlock_lru,
      promoteBlock_dirty, and_self]

theorem missBlock_ne_dirty (old_lru : Int) {v i : Nat} (h : i ≠ v) (tag : Nat) (type : Char)
    (b : CacheBlock) : (missBlock old_lru v tag type i b).dirty = b.dirty := by
  unfold missBlock
  simp only [h, if_false, promoteBlock_dirty]

theorem selected_set_hit_result {c : Cache} (hg : PositiveGeometry c) {addr : Nat}
    {set : List CacheBlock} (hset : c.sets[setIndex addr c]? = some set) (w : Nat)
    (type : Char) :
    selected_set (hit_result c (setIndex addr c) w type set) addr =
      some (hit_update set w type) := by
  have hsl := lt_length_of_getElem? hset
  have hsi : get_set addr (hit_result c (setIndex addr c) w type set) =
      some (setIndex addr c : Int) := by
    rw [@get_set_congr c (hit_result c (setIndex addr c) w type set) rfl rfl addr]
    exact get_set_eq_setIndex hg addr
  rw [selected_set_of_get_set hsi]
  simp only [hit_result, List.getElem?_set, if_true, hsl]

theorem selected_set_miss_result {c : Cache} (hg : PositiveGeometry c) {addr : Nat}
    {set : List CacheBlock} (hset : c.sets[setIndex addr c]? = some set) (v tag : Nat)
    (type : Char) :
    selected_set (miss_result c (setIndex addr c) v tag type set) addr =
      some (promote (fill set v tag type) v) := by
  have hsl := lt_length_of_getElem? hset
  have hsi : get_set addr (miss_result c (setIndex addr c) v tag type set) =
      some (setIndex addr c : Int) := by
    rw [@get_set_congr c (miss_result c (setIndex addr c) v tag type set) rfl rfl addr]
    exact get_set_eq_setIndex hg addr
  rw [selected_set_of_get_set hsi]
  simp only [miss_result, List.getElem?_set, if_true, hsl]

theorem length_hit_update (set : List CacheBlock) (w : Nat) (type : Char) :
    (hit_update set w type).length = set.length := by
  unfold hit_update
  cases (promote set w)[w]? with
  | none => exact length_promote set w
  | some b =>
    simp only
    split_ifs
    · rw [List.length_set, length_promote]
    · exact length_promote set w

theorem lruPerm_unique {set : List CacheBlock} {assoc : Int} (hp : LruPerm set assoc)
    {i j : Nat} {bi bj : CacheBlock} (hi : set[i]? = some bi) (hj : set[j]? = some bj)
    (h : bi.lru = bj.lru) : i = j :=
  ((lruPerm_iff set assoc).mp hp).2.2 i j bi bj hi hj h

/-- The victim of a miss, in the words of the victim selection. -/
theorem victim_select_spec {set : List CacheBlock} {assoc : Int} (hp : LruPerm set assoc)
    (ha : 1 ≤ assoc) {v : Nat} (hv : IsVictim set assoc v) :
    select_victim set assoc = some (v : Int) ∧
    ((∃ b ∈ set, b.valid = 0) →
      (∃ b, set[v]? = some b ∧ b.valid = 0) ∧
        ∀ (i : Nat) (b : CacheBlock), i < v → set[i]? = some b → b.valid ≠ 0) ∧
    ((∀ b ∈ set, b.valid ≠ 0) →
      find_lru set assoc = some (v : Int) ∧ (∃ b, set[v]? = some b ∧ b.lru = assoc - 1) ∧
        ∀ (j : Nat) (b : CacheBlock), set[j]? = some b → b.lru = assoc - 1 → j = v) := by
  obtain ⟨v1, hv1, hsel⟩ := victim_select hp ha
  have hvv : v1 = v := by
    rcases hv with ⟨⟨b, hb, hb0⟩, hfirst⟩ | ⟨hall, b, hb, hbl⟩
    · rcases hv1 with ⟨⟨b1, hb1, hb10⟩, hfirst1⟩ | ⟨hall1, _⟩
      · by_contra hne
        rcases Nat.lt_or_gt_of_ne hne with hlt | hlt
        · exact hfirst v1 b1 hlt hb1 hb10
        · exact hfirst1 v b hlt hb hb0
      · exact absurd hb0 (hall1 b (List.getElem?_mem hb))
    · rcases hv1 with ⟨⟨b1, hb1, hb10⟩, _⟩ | ⟨_, b1, hb1, hbl1⟩
      · exact absurd hb10 (hall b1 (List.getElem?_mem hb1))
      · exact lruPerm_unique hp hb1 hb (by rw [hbl1, hbl])
  subst hvv
  refine ⟨hsel, ?_, ?_⟩
  · rintro ⟨b0, hb0, hb00⟩
    rcases hv with ⟨h1, h2⟩ | ⟨hall, _⟩
    · exact ⟨h1, h2⟩
    · exact absurd hb00 (hall b0 hb0)
  · intro hall
    rcases hv with ⟨⟨b, hb, hb0⟩, _⟩ | ⟨_, b, hb, hbl⟩
    · exact absurd hb0 (hall b (List.getElem?_mem hb))
    · obtain ⟨v2, b2, hfind, hb2, hbl2⟩ := find_lru_of_lruPerm hp ha
      have : v2 = v1 := lruPerm_unique hp hb2 hb (by rw [hbl2, hbl])
      subst this
      exact ⟨hfind, ⟨b, hb, hbl⟩, fun j bj hj hjl => lruPerm_unique hp hj hb (by rw [hjl, hbl])⟩

/-! ## Invariants of the sets along a run -/

/-- A property of sets that every hit and every miss preserves holds in all sets
after an access. -/
theorem access_cache_setInv (P : List CacheBlock → Prop)
    (hhit : ∀ (S : List CacheBlock) (tag w : Nat) (type : Char),
      P S → FirstMatch S tag w → P (hit_update S w type))
    (hmiss : ∀ (S : List CacheBlock) (assoc : Int) (tag v : Nat) (type : Char),
      P S → (∀ b ∈ S, ¬ Matches tag b) → IsVictim S assoc v →
      P (promote (fill S v tag type) v))
    {c : Cache} (hs : StorageInv c) (hP : ∀ S ∈ c.sets, P S) {addr : Nat} {type : Char}
    {c1 : Cache} {r : Int} (h : access_cache c addr type = some (c1, r)) :
    ∀ S ∈ c1.sets, P S := by
  obtain ⟨si, tag, set, set1, _, _, hset, _, hsets, _, hcase⟩ := access_cache_effect hs h
  have hPset := hP set (List.getElem?_mem hset)
  intro S hS
  rw [hsets] at hS
  rcases List.mem_or_eq_of_mem_set hS with hm | hm
  · exact hP S hm
  · rw [hm]
    rcases hcase with ⟨w, hw, hset1, _⟩ | ⟨hno, v, hv, hset1, _⟩
    · rw [hset1]
      exact hhit set tag w type hPset hw
    · rw [hset1]
      exact hmiss set c.associativity tag v type hPset hno hv

theorem run_accesses_setInv (P : List CacheBlock → Prop)
    (hhit : ∀ (S : List CacheBlock) (tag w : Nat) (type : Char),
      P S → FirstMatch S tag w → P (hit_update S w type))
    (hmiss : ∀ (S : List CacheBlock) (assoc : Int) (tag v : Nat) (type : Char),
      P S → (∀ b ∈ S, ¬ Matches tag b) → IsVictim S assoc v →
      P (promote (fill S v tag type) v)) :
    ∀ (trace : List (Nat × Char)) {c c2 : Cache} {rs : List Int}, StorageInv c →
      (∀ S ∈ c.sets, P S) → run_accesses c trace = some (c2, rs) → ∀ S ∈ c2.sets, P S := by
  intro trace
  induction trace with
  | nil =>
    intro c c2 rs _ hP h
    simp only [run_accesses, Option.some.injEq, Prod.mk.injEq] at h
    rw [← h.1]
    exact hP
  | cons x rest ih =>
    intro c c2 rs hs hP h
    obtain ⟨addr, type⟩ := x
    obtain ⟨c1, r, rs1, hacc, hrun, _⟩ := run_accesses_cons_inv h
    exact ih (access_cache_storageInv hs hacc).1
      (access_cache_setInv P hhit hmiss hs hP hacc) hrun

theorem init_set_invalid {assoc : Int} {b : CacheBlock} (hb : b ∈ init_set assoc) :
    b.valid = 0 ∧ b.dirty = 0 := by
  unfold init_set at hb
  obtain ⟨j, _, hj⟩ := List.mem_map.mp hb
  rw [← hj]
  exact ⟨rfl, rfl⟩

theorem init_cache_invalid {cs bs assoc : Int} {c0 : Cache}
    (h0 : init_cache cs bs assoc = some c0) :
    ∀ S ∈ c0.sets, ∀ b ∈ S, b.valid = 0 ∧ b.dirty = 0 := by
  obtain ⟨_, _, _, _, hsets, _⟩ := init_cache_inv h0
  intro S hS b hb
  rw [hsets] at hS
  rw [List.eq_of_mem_replicate hS] at hb
  exact init_set_invalid hb

theorem noDupTags_hit_update (S : List CacheBlock) (tag w : Nat) (type : Char)
    (hP : NoDupTags S) (hw : FirstMatch S tag w) : NoDupTags (hit_update S w type) := by
  obtain ⟨bw, hbw, _⟩ := hw.1
  intro i j bi bj hi hj hvi hvj htag
  rw [getElem?_hit_update hbw] at hi hj
  obtain ⟨b0, hb0, rfl⟩ := Option.map_eq_some'.mp hi
  obtain ⟨b1, hb1, rfl⟩ := Option.map_eq_some'.mp hj
  obtain ⟨f1, f2, _⟩ := hitBlock_fields bw.lru w type i b0
  obtain ⟨g1, g2, _⟩ := hitBlock_fields bw.lru w type j b1
  rw [f1] at hvi
  rw [g1] at hvj
  rw [f2, g2] at htag
  exact hP i j b0 b1 hb0 hb1 hvi hvj htag

theorem noDupTags_fill_promote (S : List CacheBlock) (assoc : Int) (tag v : Nat) (type : Char)
    (hP : NoDupTags S) (hno : ∀ b ∈ S, ¬ Matches tag b) (hv : IsVictim S assoc v) :
    NoDupTags (promote (fill S v tag type) v) := by
  have hvl := isVictim_lt_length hv
  have hbv : S[v]? = some S[v] := List.getElem?_eq_getElem hvl
  intro i j bi bj hi hj hvi hvj htag
  rw [getElem?_fill_promote hbv] at hi hj
  obtain ⟨b0, hb0, rfl⟩ := Option.map_eq_some'.mp hi
  obtain ⟨b1, hb1, rfl⟩ := Option.map_eq_some'.mp hj
  by_cases hiv : i = v
  · by_cases hjv : j = v
    · rw [hiv, hjv]
    · exfalso
      subst hiv
      obtain ⟨_, f2, _⟩ := missBlock_self_fields S[i].lru i tag type b0
      obtain ⟨g1, g2, _⟩ := missBlock_ne_fields S[i].lru hjv tag type b1
      rw [g1] at hvj
      rw [f2, g2] at htag
      exact hno b1 (List.getElem?_mem hb1) ⟨hvj, htag.symm⟩
  · by_cases hjv : j = v
    · exfalso
      subst hjv
      obtain ⟨_, f2, _⟩ := missBlock_self_fields S[j].lru j tag type b1
      obtain ⟨g1, g2, _⟩ := missBlock_ne_fields S[j].lru hiv tag type b0
      rw [g1] at hvi
      rw [f2, g2] at htag
      exact hno b0 (List.getElem?_mem hb0) ⟨hvi, htag⟩
    · obtain ⟨f1, f2, _⟩ := missBlock_ne_fields S[v].lru hiv tag type b0
      obtain ⟨g1, g2, _⟩ := missBlock_ne_fields S[v].lru hjv tag type b1
      rw [f1] at hvi
      rw [g1] at hvj
      rw [f2, g2] at htag
      exact hP i j b0 b1 hb0 hb1 hvi hvj htag

theorem validPrefix_hit_update (S : List CacheBlock) (tag w : Nat) (type : Char)
    (hP : ValidPrefix S) (hw : FirstMatch S tag w) : ValidPrefix (hit_update S w type) := by
  obtain ⟨bw, hbw, _⟩ := hw.1
  intro i j bi bj hij hi hj hvj
  rw [getElem?_hit_update hbw] at hi hj
  obtain ⟨b0, hb0, rfl⟩ := Option.map_eq_some'.mp hi
  obtain ⟨b1, hb1, rfl⟩ := Option.map_eq_some'.mp hj
  rw [(hitBlock_fields bw.lru w type i b0).1]
  rw [(hitBlock_fields bw.lru w type j b1).1] at hvj
  exact hP i j b0 b1 hij hb0 hb1 hvj

theorem missBlock_valid_iff (old_lru : Int) (v tag : Nat) (type : Char) (i : Nat)
    (b : CacheBlock) : (missBlock old_lru v tag type i b).valid ≠ 0 ↔ (i = v ∨ b.valid ≠ 0) := by
  by_cases hiv : i = v
  · subst hiv
    rw [(missBlock_self_fields old_lru i tag type b).1]
    simp
  · rw [(missBlock_ne_fields old_lru hiv tag type b).1]
    simp [hiv]

theorem validPrefix_fill_promote (S : List CacheBlock) (assoc : Int) (tag v : Nat) (type : Char)
    (hP : ValidPrefix S) (_hno : ∀ b ∈ S, ¬ Matches tag b) (hv : IsVictim S assoc v) :
    ValidPrefix (promote (fill S v tag type) v) := by
  have hvl := isVictim_lt_length hv
  have hbv : S[v]? = some S[v] := List.getElem?_eq_getElem hvl
  intro i j bi bj hij hi hj hvj
  rw [getElem?_fill_promote hbv] at hi hj
  obtain ⟨b0, hb0, rfl⟩ := Option.map_eq_some'.mp hi
  obtain ⟨b1, hb1, rfl⟩ := Option.map_eq_some'.mp hj
  rw [missBlock_valid_iff] at hvj ⊢
  by_cases hiv : i = v
  · exact Or.inl hiv
  · right
    rcases hv with ⟨_, hfirst⟩ | ⟨hall, _⟩
    · rcases hvj with hjv | hvj
      · exact hfirst i b0 (by omega) hb0
      · exact hP i j b0 b1 hij hb0 hb1 hvj
    · exact hall b0 (List.getElem?_mem hb0)

theorem dirtyValid_hit_update (S : List CacheBlock) (tag w : Nat) (type : Char)
    (hP : DirtyValid S) (hw : FirstMatch S tag w) : DirtyValid (hit_update S w type) := by
  obtain ⟨bw, hbw, hm⟩ := hw.1
  intro b hb hd
  obtain ⟨i, hi⟩ := List.getElem?_of_mem hb
  rw [getElem?_hit_update hbw] at hi
  obtain ⟨b0, hb0, rfl⟩ := Option.map_eq_some'.mp hi
  obtain ⟨f1, _, _, f4⟩ := hitBlock_fields bw.lru w type i b0
  rw [f1]
  by_cases hiw : i = w
  · subst hiw
    rw [hbw] at hb0
    cases hb0
    exact hm.1
  · rw [f4] at hd
    simp only [hiw, false_and, if_false] at hd
    exact hP b0 (List.getElem?_mem hb0) hd

theorem dirtyValid_fill_promote (S : List CacheBlock) (assoc : Int) (tag v : Nat) (type : Char)
    (hP : DirtyValid S) (_hno : ∀ b ∈ S, ¬ Matches tag b) (hv : IsVictim S assoc v) :
    DirtyValid (promote (fill S v tag type) v) := by
  have hvl := isVictim_lt_length hv
  have hbv : S[v]? = some S[v] := List.getElem?_eq_getElem hvl
  intro b hb hd
  obtain ⟨i, hi⟩ := List.getElem?_of_mem hb
  rw [getElem?_fill_promote hbv] at hi
  obtain ⟨b0, hb0, rfl⟩ := Option.map_eq_some'.mp hi
  rw [missBlock_valid_iff]
  by_cases hiv : i = v
  · exact Or.inl hiv
  · right
    rw [missBlock_ne_dirty _ hiv] at hd
    exact hP b0 (List.getElem?_mem hb0) hd

/-- A valid way stays valid across one access. -/
theorem access_cache_valid_mono {c : Cache} (hs : StorageInv c) {addr : Nat} {type : Char}
    {c1 : Cache} {r : Int} (h : access_cache c addr type = some (c1, r))
    {s j : Nat} {S : List CacheBlock} {b : CacheBlock} (hS : c.sets[s]? = some S)
    (hb : S[j]? = some b) (hvalid : b.valid ≠ 0) :
    ∃ (S1 : List CacheBlock) (b1 : CacheBlock),
      c1.sets[s]? = some S1 ∧ S1[j]? = some b1 ∧ b1.valid ≠ 0 := by
  obtain ⟨si, tag, set, set1, _, _, hset, _, hsets, _, hcase⟩ := access_cache_effect hs h
  have hsl := lt_length_of_getElem? hset
  by_cases hsi : si = s
  · subst hsi
    rw [hset] at hS
    simp only [Option.some.injEq] at hS
    subst hS
    refine ⟨set1, ?_⟩
    have h1 : c1.sets[si]? = some set1 := by
      rw [hsets]
      simp only [List.getElem?_set, if_true, hsl]
    rcases hcase with ⟨w, hw, hset1, _⟩ | ⟨_, v, hv, hset1, _⟩
    · obtain ⟨bw, hbw, _⟩ := hw.1
      refine ⟨hitBlock bw.lru w type j b, h1, ?_, ?_⟩
      · rw [hset1, getElem?_hit_update hbw, hb]
        rfl
      · rw [(hitBlock_fields bw.lru w type j b).1]
        exact hvalid
    · have hvl := isVictim_lt_length hv
      have hbv : set[v]? = some set[v] := List.getElem?_eq_getElem hvl
      refine ⟨missBlock set[v].lru v tag type j b, h1, ?_, ?_⟩
      · rw [hset1, getElem?_fill_promote hbv, hb]
        rfl
      · rw [missBlock_valid_iff]
        exact Or.inr hvalid
  · refine ⟨S, b, ?_, hb, hvalid⟩
    rw [hsets, List.getElem?_set]
    simp only [hsi, if_false]
    exact hS

theorem run_accesses_valid_mono :
    ∀ (trace : List (Nat × Char)) {c c2 : Cache} {rs : List Int}, StorageInv c →
      run_accesses c trace = some (c2, rs) →
      ∀ {s j : Nat} {S : List CacheBlock} {b : CacheBlock}, c.sets[s]? = some S →
        S[j]? = some b → b.valid ≠ 0 →
        ∃ (S2 : List CacheBlock) (b2 : CacheBlock),
          c2.sets[s]? = some S2 ∧ S2[j]? = some b2 ∧ b2.valid ≠ 0 := by
  intro trace
  induction trace with
  | nil =>
    intro c c2 rs _ h s j S b hS hb hvalid
    simp only [run_accesses, Option.some.injEq, Prod.mk.injEq] at h
    rw [← h.1]
    exact ⟨S, b, hS, hb, hvalid⟩
  | cons x rest ih =>
    intro c c2 rs hs h s j S b hS hb hvalid
    obtain ⟨addr, type⟩ := x
    obtain ⟨c1, r, rs1, hacc, hrun, _⟩ := run_accesses_cons_inv h
    obtain ⟨S1, b1, hS1, hb1, hv1⟩ := access_cache_valid_mono hs hacc hS hb hvalid
    exact ih (access_cache_storageInv hs hacc).1 hrun hS1 hb1 hv1

/-! ## The ideal LRU list -/

theorem lruList_snoc (k : Nat) (seq : List Nat) (t : Nat) :
    lruList k (seq ++ [t]) = lruTouch k (lruList k seq) t := by
  simp only [lruList, List.foldl_append, List.foldl_cons, List.foldl_nil]

theorem recency_snoc (seq : List Nat) (t : Nat) :
    recency (seq ++ [t]) = t :: (recency seq).erase t := by
  simp only [recency, List.foldl_append, List.foldl_cons, List.foldl_nil]

theorem take_erase_take (t : Nat) :
    ∀ (R : List Nat) (n : Nat), ((R.take (n + 1)).erase t).take n = (R.erase t).take n := by
  intro R
  induction R with
  | nil => intro n; simp
  | cons x xs ih =>
    intro n
    rw [List.take_succ_cons]
    by_cases hx : x = t
    · subst hx
      rw [List.erase_cons_head, List.erase_cons_head, List.take_take, Nat.min_self]
    · have hne : ¬ (x == t) = true := by simpa using hx
      rw [List.erase_cons_tail hne, List.erase_cons_tail hne]
      cases n with
      | zero => rfl
      | succ m => rw [List.take_succ_cons, List.take_succ_cons, ih m]

theorem recency_nodup (seq : List Nat) : (recency seq).Nodup := by
  induction seq using List.reverseRecOn with
  | nil => exact List.nodup_nil
  | append_singleton seq t ih =>
    rw [recency_snoc, List.nodup_cons]
    exact ⟨fun h => (ih.mem_erase_iff.mp h).1 rfl, ih.erase t⟩

theorem mem_recency (seq : List Nat) (x : Nat) : x ∈ recency seq ↔ x ∈ seq := by
  induction seq using List.reverseRecOn with
  | nil => simp [recency]
  | append_singleton seq t ih =>
    rw [recency_snoc, List.mem_cons, (recency_nodup seq).mem_erase_iff, ih, List.mem_append,
      List.mem_singleton]
    constructor
    · rintro (h | ⟨_, h⟩)
      · exact Or.inr h
      · exact Or.inl h
    · rintro (h | h)
      · by_cases hx : x = t
        · exact Or.inl hx
        · exact Or.inr ⟨hx, h⟩
      · exact Or.inl h

theorem lruList_eq_take (k : Nat) (seq : List Nat) : lruList k seq = (recency seq).take k := by
  induction seq using List.reverseRecOn with
  | nil => simp [lruList, recency]
  | append_singleton seq t ih =>
    rw [lruList_snoc, recency_snoc, ih, lruTouch]
    cases k with
    | zero => rfl
    | succ n => rw [List.take_succ_cons, List.take_succ_cons, take_erase_take]

theorem length_recency (seq : List Nat) : (recency seq).length = seq.toFinset.card := by
  rw [← List.toFinset_card_of_nodup (recency_nodup seq)]
  congr 1
  ext x
  simp only [List.mem_toFinset, mem_recency]

theorem recency_split (p : List Nat) (t : Nat) :
    ∀ q : List Nat, t ∉ q → ∃ Y, recency (p ++ t :: q) = recency q ++ t :: Y := by
  intro q
  induction q using List.reverseRecOn with
  | nil =>
    intro _
    exact ⟨(recency p).erase t, by rw [recency_snoc]; rfl⟩
  | append_singleton q u ih =>
    intro hnot
    have htq : t ∉ q := fun h => hnot (List.mem_append_left _ h)
    have hut : u ≠ t := fun h => hnot (by rw [h]; simp)
    obtain ⟨Y, hY⟩ := ih htq
    have hassoc : p ++ t :: (q ++ [u]) = (p ++ t :: q) ++ [u] := by simp
    rw [hassoc, recency_snoc, recency_snoc, hY]
    by_cases hu : u ∈ recency q
    · exact ⟨Y, by rw [List.erase_append_left _ hu]; rfl⟩
    · refine ⟨Y.erase u, ?_⟩
      have hne : ¬ (t == u) = true := by simpa using fun h : t = u => hut h.symm
      rw [List.erase_append_right _ hu, List.erase_cons_tail hne, List.erase_of_not_mem hu]
      rfl

theorem mem_take_middle {X : List Nat} {t : Nat} (hX : t ∉ X) (Y : List Nat) (k : Nat) :
    t ∈ (X ++ t :: Y).take k ↔ X.length < k := by
  rw [List.take_append_eq_append_take]
  constructor
  · intro h
    by_contra hk
    have hz : k - X.length = 0 := by omega
    rw [hz, List.take_zero, List.append_nil] at h
    exact hX (List.mem_of_mem_take h)
  · intro hk
    obtain ⟨m, hm⟩ : ∃ m, k - X.length = m + 1 := ⟨k - X.length - 1, by omega⟩
    rw [hm, List.take_succ_cons]
    simp

theorem exists_last_occurrence {t : Nat} :
    ∀ {seq : List Nat}, t ∈ seq → ∃ p q, seq = p ++ t :: q ∧ t ∉ q := by
  intro seq
  induction seq with
  | nil => intro h; cases h
  | cons x xs ih =>
    intro h
    by_cases hxs : t ∈ xs
    · obtain ⟨p, q, hpq, hq⟩ := ih hxs
      exact ⟨x :: p, q, by rw [hpq]; rfl, hq⟩
    · have hx : t = x := by
        rcases List.mem_cons.mp h with h1 | h1
        · exact h1
        · exact absurd h1 hxs
      exact ⟨[], xs, by rw [hx]; rfl, hxs⟩

/-- The ideal LRU list holds a tag exactly when the tag was accessed and fewer
than `k` distinct tags were accessed since its most recent access. -/
theorem mem_lruList_iff (k : Nat) (seq : List Nat) (t : Nat) :
    t ∈ lruList k seq ↔ ∃ p q, seq = p ++ t :: q ∧ t ∉ q ∧ q.toFinset.card < k := by
  rw [lruList_eq_take]
  constructor
  · intro h
    have hmem : t ∈ seq := (mem_recency seq t).mp (List.mem_of_mem_take h)
    obtain ⟨p, q, hpq, hq⟩ := exists_last_occurrence hmem
    obtain ⟨Y, hY⟩ := recency_split p t q hq
    rw [hpq, hY] at h
    have hX : t ∉ recency q := fun hc => hq ((mem_recency q t).mp hc)
    rw [mem_take_middle hX Y, length_recency] at h
    exact ⟨p, q, hpq, hq, h⟩
  · rintro ⟨p, q, hpq, hq, hcard⟩
    obtain ⟨Y, hY⟩ := recency_split p t q hq
    rw [hpq, hY]
    have hX : t ∉ recency q := fun hc => hq ((mem_recency q t).mp hc)
    rw [mem_take_middle hX Y, length_recency]
    exact hcard

theorem lruList_nodup (k : Nat) (seq : List Nat) : (lruList k seq).Nodup := by
  rw [lruList_eq_take]
  exact (List.take_sublist k _).nodup (recency_nodup seq)

theorem length_lruList_le (k : Nat) (seq : List Nat) : (lruList k seq).length ≤ k := by
  rw [lruList_eq_take, List.length_take]
  exact Nat.min_le_left _ _



/-! ## A set represents an ideal LRU list -/

theorem erase_eq_eraseIdx_of_getElem? (t : Nat) :
    ∀ (L : List Nat) (r : Nat), L.Nodup → L[r]? = some t → L.erase t = L.eraseIdx r := by
  intro L
  induction L with
  | nil => intro r _ h; simp at h
  | cons x xs ih =>
    intro r hnd h
    cases r with
    | zero =>
      simp only [List.getElem?_cons_zero, Option.some.injEq] at h
      subst h
      rw [List.erase_cons_head]
      rfl
    | succ r1 =>
      rw [List.getElem?_cons_succ] at h
      obtain ⟨hx, hxs⟩ := List.nodup_cons.mp hnd
      have hne : ¬ (x == t) = true := by
        simp only [beq_iff_eq]
        intro hxt
        subst hxt
        exact hx (List.getElem?_mem h)
      rw [List.erase_cons_tail hne, ih r1 hxs h]
      rfl

theorem lruPerm_exists_rank {set : List CacheBlock} {assoc : Int} (hp : LruPerm set assoc)
    {r : Nat} (hr : r < set.length) :
    ∃ (j : Nat) (b : CacheBlock), set[j]? = some b ∧ b.lru = (r : Int) := by
  have hlen := lruPerm_length_eq hp
  have hmem : (r : Int) ∈ (List.range assoc.toNat).map (fun j : Nat => (j : Int)) := by
    refine List.mem_map.mpr ⟨r, ?_, rfl⟩
    rw [List.mem_range]
    omega
  unfold LruPerm at hp
  rw [← hp.mem_iff] at hmem
  obtain ⟨b, hb, hbl⟩ := List.mem_map.mp hmem
  obtain ⟨j, hj⟩ := List.getElem?_of_mem hb
  exact ⟨j, b, hj, hbl⟩

theorem represents_matches_iff {S : List CacheBlock} {L : List Nat} {assoc : Int}
    (hR : Represents S L) (hp : LruPerm S assoc) (t : Nat) :
    (∃ b ∈ S, Matches t b) ↔ t ∈ L := by
  obtain ⟨_, hlen, hpt⟩ := hR
  constructor
  · rintro ⟨b, hb, hm⟩
    obtain ⟨j, hj⟩ := List.getElem?_of_mem hb
    obtain ⟨h1, h2⟩ := hpt j b hj
    by_cases hjm : j < L.length
    · obtain ⟨_, _, hL⟩ := h1 hjm
      rw [hm.2] at hL
      exact List.getElem?_mem hL
    · exact absurd (h2 (by omega)).1 hm.1
  · intro ht
    obtain ⟨r, hr⟩ := List.getElem?_of_mem ht
    have hrl := lt_length_of_getElem? hr
    obtain ⟨j, b, hj, hbl⟩ := lruPerm_exists_rank hp (r := r) (by omega)
    obtain ⟨h1, h2⟩ := hpt j b hj
    by_cases hjm : j < L.length
    · obtain ⟨hv, _, hL⟩ := h1 hjm
      have hidx : b.lru.toNat = r := by omega
      rw [hidx, hr] at hL
      simp only [Option.some.injEq] at hL
      exact ⟨b, List.getElem?_mem hj, hv, hL.symm⟩
    · have := (h2 (by omega)).2
      omega

theorem represents_hit {S : List CacheBlock} {L : List Nat} {assoc : Int}
    (hR : Represents S L) (hp : LruPerm S assoc) {t w : Nat} (type : Char)
    (hw : FirstMatch S t w) :
    Represents (hit_update S w type) (lruTouch S.length L t) := by
  obtain ⟨hnd, hlen, hpt⟩ := hR
  obtain ⟨bw, hbw, hmw⟩ := hw.1
  -- the hit way is valid, so it is one of the first `L.length` ways
  have hwm : w < L.length := by
    by_contra hc
    exact hmw.1 ((hpt w bw hbw).2 (by omega)).1
  obtain ⟨_, hw0, hLw⟩ := (hpt w bw hbw).1 hwm
  rw [hmw.2] at hLw
  have hrl := lt_length_of_getElem? hLw
  have htL : t ∈ L := List.getElem?_mem hLw
  have hlen1 : (t :: L.erase t).length = L.length := by
    rw [List.length_cons, List.length_erase_of_mem htL]
    have : 0 < L.length := by omega
    omega
  have htouch : lruTouch S.length L t = t :: L.eraseIdx bw.lru.toNat := by
    unfold lruTouch
    rw [List.take_of_length_le (by omega), erase_eq_eraseIdx_of_getElem? t L _ hnd hLw]
  have hlen2 : (t :: L.eraseIdx bw.lru.toNat).length = L.length := by
    rw [← erase_eq_eraseIdx_of_getElem? t L _ hnd hLw]
    exact hlen1
  rw [htouch]
  refine ⟨?_, by rw [hlen2, length_hit_update]; exact hlen, ?_⟩
  · rw [← erase_eq_eraseIdx_of_getElem? t L _ hnd hLw, List.nodup_cons]
    exact ⟨fun h => (hnd.mem_erase_iff.mp h).1 rfl, hnd.erase t⟩
  · intro j b1 hb1
    rw [getElem?_hit_update hbw] at hb1
    obtain ⟨b, hb, rfl⟩ := Option.map_eq_some'.mp hb1
    obtain ⟨f1, f2, f3, _⟩ := hitBlock_fields bw.lru w type j b
    obtain ⟨h1, h2⟩ := hpt j b hb
    rw [hlen2, f1, f2, f3]
    constructor
    · intro hjm
      obtain ⟨hv, hb0, hL⟩ := h1 hjm
      by_cases hjw : j = w
      · subst hjw
        rw [hbw] at hb
        cases hb
        simp only [if_true]
        exact ⟨hv, le_refl 0, by rw [hmw.2]; simp⟩
      · have hne : b.lru ≠ bw.lru := fun h => hjw (lruPerm_unique hp hb hbw h)
        simp only [hjw, if_false]
        by_cases hlt : b.lru < bw.lru
        · simp only [hlt, if_true]
          have hidx : (b.lru + 1).toNat = b.lru.toNat + 1 := by omega
          refine ⟨hv, by omega, ?_⟩
          rw [hidx, List.getElem?_cons_succ, List.getElem?_eraseIdx]
          have : b.lru.toNat < bw.lru.toNat := by omega
          simp only [this, if_true]
          exact hL
        · simp only [hlt, if_false]
          obtain ⟨x, hx⟩ : ∃ x, b.lru.toNat = x + 1 := ⟨b.lru.toNat - 1, by omega⟩
          refine ⟨hv, hb0, ?_⟩
          rw [hx, List.getElem?_cons_succ, List.getElem?_eraseIdx]
          have : ¬ x < bw.lru.toNat := by omega
          simp only [this, if_false]
          rw [← hx]
          exact hL
    · intro hjm
      obtain ⟨hv, hl⟩ := h2 hjm
      have hjw : ¬ j = w := by omega
      have hlt : ¬ b.lru < bw.lru := by omega
      simp only [hjw, if_false, hlt]
      exact ⟨hv, hl⟩



theorem represents_victim {S : List CacheBlock} {L : List Nat} {assoc : Int}
    (hR : Represents S L) (hp : LruPerm S assoc) (ha : 1 ≤ assoc) {v : Nat}
    (hv : IsVictim S assoc v) {bv : CacheBlock} (hbv : S[v]? = some bv) :
    (v = L.length ∧ L.length < S.length ∧ bv.lru = (L.length : Int)) ∨
    (L.length = S.length ∧ bv.lru = (S.length : Int) - 1) := by
  obtain ⟨_, hlen, hpt⟩ := hR
  have hk := lruPerm_length_eq hp
  have hvl := lt_length_of_getElem? hbv
  rcases hv with ⟨⟨b, hb, hb0⟩, hfirst⟩ | ⟨hall, b, hb, hbl⟩
  · left
    rw [hbv] at hb
    cases hb
    have hvm : ¬ v < L.length := fun h => ((hpt v bv hbv).1 h).1 hb0
    have hmv : ¬ L.length < v := by
      intro h
      have hml : L.length < S.length := by omega
      have hbm : S[L.length]? = some S[L.length] := List.getElem?_eq_getElem hml
      exact hfirst _ _ h hbm ((hpt _ _ hbm).2 (Nat.le_refl _)).1
    have hveq : v = L.length := by omega
    refine ⟨hveq, by omega, ?_⟩
    have := ((hpt v bv hbv).2 (by omega)).2
    rw [this, hveq]
  · right
    rw [hbv] at hb
    cases hb
    have hfull : L.length = S.length := by
      by_contra hne
      have hml : L.length < S.length := by omega
      have hbm : S[L.length]? = some S[L.length] := List.getElem?_eq_getElem hml
      exact hall _ (List.getElem?_mem hbm) ((hpt _ _ hbm).2 (Nat.le_refl _)).1
    refine ⟨hfull, ?_⟩
    rw [hbl]
    omega

theorem represents_miss {S : List CacheBlock} {L : List Nat} {assoc : Int}
    (hR : Represents S L) (hp : LruPerm S assoc) (ha : 1 ≤ assoc) {t v : Nat} (type : Char)
    (hno : ∀ b ∈ S, ¬ Matches t b) (hv : IsVictim S assoc v) :
    Represents (promote (fill S v t type) v) (lruTouch S.length L t) := by
  have hvl := isVictim_lt_length hv
  have hbv : S[v]? = some S[v] := List.getElem?_eq_getElem hvl
  have hcases := represents_victim hR hp ha hv hbv
  have htL : t ∉ L := fun h => by
    obtain ⟨b, hb, hm⟩ := (represents_matches_iff hR hp t).mpr h
    exact hno b hb hm
  obtain ⟨hnd, hlen, hpt⟩ := hR
  obtain ⟨k1, hk1⟩ : ∃ k1, S.length = k1 + 1 := ⟨S.length - 1, by omega⟩
  have htouch : lruTouch S.length L t = t :: L.take k1 := by
    unfold lruTouch
    rw [List.erase_of_not_mem htL, hk1, List.take_succ_cons]
  have hlen2 : (t :: L.take k1).length = min k1 L.length + 1 := by
    rw [List.length_cons, List.length_take]
  rw [htouch]
  refine ⟨?_, by rw [hlen2, length_promote, length_fill]; omega, ?_⟩
  · rw [List.nodup_cons]
    exact ⟨fun h => htL (List.mem_of_mem_take h), (List.take_sublist k1 L).nodup hnd⟩
  · intro j b1 hb1
    rw [getElem?_fill_promote hbv] at hb1
    obtain ⟨b, hb, rfl⟩ := Option.map_eq_some'.mp hb1
    obtain ⟨h1, h2⟩ := hpt j b hb
    have hjl := lt_length_of_getElem? hb
    rw [hlen2]
    by_cases hjv : j = v
    · subst hjv
      obtain ⟨f1, f2, f3⟩ := missBlock_self_fields S[j].lru j t type b
      rw [f1, f2, f3]
      constructor
      · intro _
        exact ⟨by decide, le_refl 0, by simp⟩
      · intro hle
        rcases hcases with ⟨c1, c2, _⟩ | ⟨c1, _⟩ <;> omega
    · obtain ⟨f1, f2, f3⟩ := missBlock_ne_fields S[v].lru hjv t type b
      rw [f1, f2, f3]
      have hne : b.lru ≠ S[v].lru := fun h => hjv (lruPerm_unique hp hb hbv h)
      have hrange := ((lruPerm_iff S assoc).mp hp).2.1 j b hb
      have hk := lruPerm_length_eq hp
      constructor
      · intro hjm
        have hjm2 : j < L.length := by
          rcases hcases with ⟨c1, c2, _⟩ | ⟨c1, _⟩ <;> omega
        obtain ⟨hvalid, hb0, hL⟩ := h1 hjm2
        have hbl := lt_length_of_getElem? hL
        have hlt : b.lru < S[v].lru := by
          rcases hcases with ⟨_, _, c3⟩ | ⟨_, c3⟩ <;> omega
        have hle : S[v].lru ≤ (k1 : Int) := by
          rcases hcases with ⟨_, c2, c3⟩ | ⟨_, c3⟩ <;> omega
        simp only [hlt, if_true]
        have hidx : (b.lru + 1).toNat = b.lru.toNat + 1 := by omega
        refine ⟨hvalid, by omega, ?_⟩
        rw [hidx, List.getElem?_cons_succ, List.getElem?_take_of_lt (by omega)]
        exact hL
      · intro hle
        have hcA : v = L.length ∧ L.length < S.length ∧ S[v].lru = (L.length : Int) := by
          rcases hcases with c | ⟨c1, _⟩
          · exact c
          · omega
        obtain ⟨c1, c2, c3⟩ := hcA
        obtain ⟨hinv, hl⟩ := h2 (by omega)
        have hlt : ¬ b.lru < S[v].lru := by omega
        simp only [hlt, if_false]
        exact ⟨hinv, hl⟩



/-! ## The cache refines the ideal LRU lists -/

theorem setIndex_congr {c c1 : Cache} (hb : c1.block_size = c.block_size)
    (hn : c1.num_sets = c.num_sets) (addr : Nat) : setIndex addr c1 = setIndex addr c := by
  unfold setIndex
  rw [hb, hn]

theorem tagsOfSet_congr {c c1 : Cache} (hb : c1.block_size = c.block_size)
    (hn : c1.num_sets = c.num_sets) (s : Nat) (trace : List (Nat × Char)) :
    tagsOfSet c1 s trace = tagsOfSet c s trace := by
  unfold tagsOfSet
  have h1 : (fun x : Nat × Char => decide (setIndex x.1 c1 = s)) =
      fun x => decide (setIndex x.1 c = s) := by
    funext x
    rw [setIndex_congr hb hn]
  have h2 : (fun x : Nat × Char => tagOf x.1 c1) = fun x => tagOf x.1 c := by
    funext x
    rw [tagOf_congr hb hn]
  rw [h1, h2]

theorem tagsOfSet_snoc (c : Cache) (s : Nat) (hist : List (Nat × Char)) (addr : Nat)
    (type : Char) :
    tagsOfSet c s (hist ++ [(addr, type)]) =
      if setIndex addr c = s then tagsOfSet c s hist ++ [tagOf addr c]
      else tagsOfSet c s hist := by
  unfold tagsOfSet
  rw [List.filter_append]
  by_cases h : setIndex addr c = s
  · simp [h]
  · simp [h]

theorem init_cache_rep {cs bs assoc : Int} {c0 : Cache} (h0 : init_cache cs bs assoc = some c0) :
    CacheRep c0 [] := by
  obtain ⟨_, _, _, _, hsets, _⟩ := init_cache_inv h0
  intro s S hS
  have hmem := List.getElem?_mem hS
  rw [hsets] at hmem
  have hSeq := List.eq_of_mem_replicate hmem
  refine ⟨List.nodup_nil, Nat.zero_le _, ?_⟩
  intro j b hb
  rw [hSeq] at hb
  have := init_set_filled assoc j b hb
  exact ⟨fun h => absurd h (Nat.not_lt_zero j), fun _ => this.2 (Nat.zero_le j)⟩

theorem access_cache_rep {c : Cache} (hg : PositiveGeometry c) (hs : StorageInv c)
    {hist : List (Nat × Char)} (hR : CacheRep c hist) {addr : Nat} {type : Char}
    {c1 : Cache} {r : Int} (h : access_cache c addr type = some (c1, r)) :
    CacheRep c1 (hist ++ [(addr, type)]) ∧
      (r = 1 ↔ tagOf addr c ∈
        lruList c.associativity.toNat (tagsOfSet c (setIndex addr c) hist)) ∧
      (r = 0 ∨ r = 1) := by
  obtain ⟨si, tag, set, set1, hsi, htag, hset, hp, hsets, ⟨_, e2, _, e4⟩, hcase⟩ :=
    access_cache_effect hs h
  rw [get_set_eq_setIndex hg] at hsi
  simp only [Option.some.injEq, Nat.cast_inj] at hsi
  subst hsi
  rw [get_tag_eq_tagOf hg] at htag
  simp only [Option.some.injEq] at htag
  subst htag
  have hk := lruPerm_length_eq hp
  have hRset := hR _ set hset
  have hsl := lt_length_of_getElem? hset
  have hiff := represents_matches_iff hRset hp (tagOf addr c)
  have hset1 : Represents set1 (lruTouch set.length
      (lruList set.length (tagsOfSet c (setIndex addr c) hist)) (tagOf addr c)) ∧
      set1.length = set.length := by
    rcases hcase with ⟨w, hw, hs1, _⟩ | ⟨hno, v, hv, hs1, _⟩
    · rw [hs1]
      exact ⟨represents_hit hRset hp type hw, length_hit_update set w type⟩
    · rw [hs1]
      exact ⟨represents_miss hRset hp hg.2.1.1 type hno hv,
        by rw [length_promote, length_fill]⟩
  refine ⟨?_, ?_, ?_⟩
  · intro s S hS
    rw [tagsOfSet_congr e2 e4, tagsOfSet_snoc]
    rw [hsets, List.getElem?_set] at hS
    by_cases hss : setIndex addr c = s
    · subst hss
      simp only [if_true, hsl, Option.some.injEq] at hS
      subst hS
      simp only [if_true]
      rw [lruList_snoc, hset1.2]
      exact hset1.1
    · simp only [hss, if_false] at hS ⊢
      exact hR s S hS
  · rw [hk, ← hiff]
    rcases hcase with ⟨w, hw, _, hr⟩ | ⟨hno, _, _, _, hr⟩
    · obtain ⟨bw, hbw, hmw⟩ := hw.1
      exact ⟨fun _ => ⟨bw, List.getElem?_mem hbw, hmw⟩, fun _ => hr⟩
    · constructor
      · intro h1
        rw [hr] at h1
        exact absurd h1 (by decide)
      · rintro ⟨b, hb, hm⟩
        exact absurd hm (hno b hb)
  · rcases hcase with ⟨_, _, _, hr⟩ | ⟨_, _, _, _, hr⟩
    · exact Or.inr hr
    · exact Or.inl hr

theorem run_accesses_rep :
    ∀ (trace : List (Nat × Char)) {c c2 : Cache} {rs : List Int} (hist : List (Nat × Char)),
      PositiveGeometry c → StorageInv c → CacheRep c hist →
      run_accesses c trace = some (c2, rs) → CacheRep c2 (hist ++ trace) := by
  intro trace
  induction trace with
  | nil =>
    intro c c2 rs hist _ _ hR h
    simp only [run_accesses, Option.some.injEq, Prod.mk.injEq] at h
    rw [← h.1, List.append_nil]
    exact hR
  | cons x rest ih =>
    intro c c2 rs hist hg hs hR h
    obtain ⟨addr, type⟩ := x
    obtain ⟨c1, r, rs1, hacc, hrun, _⟩ := run_accesses_cons_inv h
    obtain ⟨hs1, _, e2, e3, e4⟩ := access_cache_storageInv hs hacc
    have := ih (hist ++ [(addr, type)]) (positiveGeometry_congr hg e2 e3 e4) hs1
      (access_cache_rep hg hs hR hacc).1 hrun
    rw [List.append_assoc] at this
    exact this



theorem tagsOfSet_split (c : Cache) (s : Nat) :
    ∀ (l : List (Nat × Char)) (a b : List Nat) (t : Nat), tagsOfSet c s l = a ++ t :: b →
      ∃ (l1 l2 : List (Nat × Char)) (y : Nat × Char), l = l1 ++ y :: l2 ∧
        setIndex y.1 c = s ∧ tagOf y.1 c = t ∧ tagsOfSet c s l1 = a ∧ tagsOfSet c s l2 = b := by
  intro l
  induction l with
  | nil =>
    intro a b t h
    simp [tagsOfSet] at h
  | cons x xs ih =>
    intro a b t h
    by_cases hx : setIndex x.1 c = s
    · have hcons : tagsOfSet c s (x :: xs) = tagOf x.1 c :: tagsOfSet c s xs := by
        simp [tagsOfSet, hx]
      rw [hcons] at h
      cases a with
      | nil =>
        simp only [List.nil_append, List.cons.injEq] at h
        exact ⟨[], xs, x, rfl, hx, h.1, rfl, h.2⟩
      | cons a0 a1 =>
        simp only [List.cons_append, List.cons.injEq] at h
        obtain ⟨l1, l2, y, hl, hy1, hy2, h1, h2⟩ := ih a1 b t h.2
        refine ⟨x :: l1, l2, y, by rw [hl]; rfl, hy1, hy2, ?_, h2⟩
        have : tagsOfSet c s (x :: l1) = tagOf x.1 c :: tagsOfSet c s l1 := by
          simp [tagsOfSet, hx]
        rw [this, h1, h.1]
    · have hcons : tagsOfSet c s (x :: xs) = tagsOfSet c s xs := by
        simp [tagsOfSet, hx]
      rw [hcons] at h
      obtain ⟨l1, l2, y, hl, hy1, hy2, h1, h2⟩ := ih a b t h
      refine ⟨x :: l1, l2, y, by rw [hl]; rfl, hy1, hy2, ?_, h2⟩
      have : tagsOfSet c s (x :: l1) = tagsOfSet c s l1 := by
        simp [tagsOfSet, hx]
      rw [this, h1]

theorem tagsOfSet_append (c : Cache) (s : Nat) (l1 l2 : List (Nat × Char)) :
    tagsOfSet c s (l1 ++ l2) = tagsOfSet c s l1 ++ tagsOfSet c s l2 := by
  simp [tagsOfSet, List.filter_append]

theorem mem_tagsOfSet {c : Cache} {s t : Nat} {l : List (Nat × Char)} :
    t ∈ tagsOfSet c s l ↔ ∃ z ∈ l, setIndex z.1 c = s ∧ tagOf z.1 c = t := by
  simp [tagsOfSet, List.mem_map, List.mem_filter, and_assoc]

theorem get_set_eq_iff {c : Cache} (hg : PositiveGeometry c) (a b : Nat) :
    get_set a c = get_set b c ↔ setIndex a c = setIndex b c := by
  rw [get_set_eq_setIndex hg, get_set_eq_setIndex hg]
  simp only [Option.some.injEq, Nat.cast_inj]

theorem get_tag_eq_iff {c : Cache} (hg : PositiveGeometry c) (a b : Nat) :
    get_tag a c = get_tag b c ↔ tagOf a c = tagOf b c := by
  rw [get_tag_eq_tagOf hg, get_tag_eq_tagOf hg]
  simp only [Option.some.injEq]

theorem decoded_tags_card {c : Cache} (hg : PositiveGeometry c) (addr : Nat)
    (q : List (Nat × Char)) :
    ((q.filter fun z => decide (get_set z.1 c = get_set addr c)).map
      fun z => get_tag z.1 c).toFinset.card =
    (tagsOfSet c (setIndex addr c) q).toFinset.card := by
  have h1 : (fun z : Nat × Char => decide (get_set z.1 c = get_set addr c)) =
      fun z => decide (setIndex z.1 c = setIndex addr c) := by
    funext z
    exact decide_eq_decide.mpr (get_set_eq_iff hg z.1 addr)
  have h2 : (fun z : Nat × Char => get_tag z.1 c) = some ∘ fun z => tagOf z.1 c := by
    funext z
    exact get_tag_eq_tagOf hg z.1
  rw [h1, h2, ← List.map_map]
  unfold tagsOfSet
  rw [List.card_toFinset, List.card_toFinset,
    List.dedup_map_of_injective (Option.some_injective _), List.length_map]

/-- The words of the specification and membership in the ideal LRU list agree. -/
theorem recentlyUsed_iff {c : Cache} (hg : PositiveGeometry c) (pre : List (Nat × Char))
    (addr : Nat) :
    RecentlyUsed c pre addr ↔
      tagOf addr c ∈ lruList c.associativity.toNat (tagsOfSet c (setIndex addr c) pre) := by
  rw [mem_lruList_iff]
  constructor
  · rintro ⟨p, q, y, hpre, ⟨hy1, hy2⟩, hq, hcard⟩
    rw [get_set_eq_iff hg] at hy1
    rw [get_tag_eq_iff hg] at hy2
    rw [decoded_tags_card hg] at hcard
    refine ⟨tagsOfSet c (setIndex addr c) p, tagsOfSet c (setIndex addr c) q, ?_, ?_, hcard⟩
    · rw [hpre, tagsOfSet_append]
      congr 1
      simp [tagsOfSet, hy1, hy2]
    · intro hmem
      obtain ⟨z, hz, hz1, hz2⟩ := mem_tagsOfSet.mp hmem
      exact hq z hz ⟨(get_set_eq_iff hg _ _).mpr hz1, (get_tag_eq_iff hg _ _).mpr hz2⟩
  · rintro ⟨a, b, hsplit, hnot, hcard⟩
    obtain ⟨l1, l2, y, hl, hy1, hy2, _, h2⟩ := tagsOfSet_split c _ pre a b _ hsplit
    refine ⟨l1, l2, y, hl, ⟨(get_set_eq_iff hg _ _).mpr hy1, (get_tag_eq_iff hg _ _).mpr hy2⟩,
      ?_, ?_⟩
    · rintro z hz ⟨hz1, hz2⟩
      rw [get_set_eq_iff hg] at hz1
      rw [get_tag_eq_iff hg] at hz2
      apply hnot
      rw [← h2]
      exact mem_tagsOfSet.mpr ⟨z, hz, hz1, hz2⟩
    · rw [decoded_tags_card hg, h2]
      exact hcard

/-! ## The statistics printed by `main` -/

/-- After the loop of `main`, of `num_accesses = 20000` iterations with one call
of `access_cache` each, the counters printed are `accesses = 20000` and hits and
misses that are not negative and add up to 20000, whatever addresses and types
the loop drew. -/
theorem main_counters_after_loop (trace : List (Nat × Char)) (hlen : trace.length = 20000) :
    ∃ h m : Int, main_counters trace = some (20000, h, m) ∧ h + m = 20000 ∧ 0 ≤ h ∧ 0 ≤ m := by
  have h0 := init_cache_some 8192 64 4 (by decide) (by decide)
  have hs0 := init_cache_storageInv h0
  have hp0 : PositiveGeometry _ := validGeometry_positive
    (c := { cache_size := 8192, block_size := 64, associativity := 4,
            num_sets := Int.tdiv 8192 (wrapInt (64 * 4)),
            sets := List.replicate (Int.tdiv 8192 (wrapInt (64 * 4))).toNat (init_set 4),
            misses := 0, hits := 0, accesses := 0 }) (by decide)
  obtain ⟨c, rs, hrun⟩ := run_accesses_total trace hp0 hs0
  obtain ⟨i1, i2, i3, i4⟩ := run_accesses_counters trace hrun (le_refl 0) (le_refl 0) rfl
    (by rw [hlen]; decide)
  simp only [hlen, Nat.cast_ofNat, zero_add] at i1 i3 i4
  refine ⟨c.hits, c.misses, ?_, by rw [← i2, i1], by rw [i3]; exact Int.ofNat_nonneg _,
    by rw [i4]; exact Int.ofNat_nonneg _⟩
  simp only [main_counters, h0, hrun, i1]

/-! ## Claims -/

theorem smallCache_init : init_cache 256 64 2 = some smallCache := by decide

theorem smallCache_positive : PositiveGeometry smallCache := by decide

/-- C1, as stated, fails: the counters are of type `int`.  On the cache of
`init_cache(256, 64, 2)`, after 2147483647 calls `accesses` is `INT_MAX`, and the
next call does not increase it by one (the incremented value is not an `int`; it
wraps to `INT_MIN`). -/
theorem counter_conservation_counterexample :
    ∃ c0 c rs c1 r, init_cache 256 64 2 = some c0 ∧
      run_accesses c0 (List.replicate 2147483647 (0, 'r')) = some (c, rs) ∧
      access_cache c 0 'r' = some (c1, r) ∧
      c.accesses = 2147483647 ∧ c1.accesses = -2147483648 ∧ c1.accesses ≠ c.accesses + 1 := by
  have hs0 := init_cache_storageInv smallCache_init
  obtain ⟨c, rs, hrun⟩ :=
    run_accesses_total (List.replicate 2147483647 (0, 'r')) smallCache_positive hs0
  obtain ⟨hs, _, e2, e3, e4⟩ := run_accesses_storageInv _ hs0 hrun
  obtain ⟨c1, r, hacc⟩ :=
    access_cache_total (positiveGeometry_congr smallCache_positive e2 e3 e4) hs 0 'r'
  have hcnt := run_accesses_counters _ hrun (by decide) (by decide) (by decide)
    (by rw [List.length_replicate]; decide)
  have hc : c.accesses = 2147483647 := by
    rw [hcnt.1, List.length_replicate]
    rfl
  have hc1 : c1.accesses = -2147483648 := by
    rw [(access_cache_counters hacc).1, hc]
    decide
  exact ⟨smallCache, c, rs, c1, r, smallCache_init, hrun, hacc, hc, hc1, by rw [hc, hc1]; decide⟩

/-- C1 (amended): counter conservation.  Starting from the cache returned by
`init_cache`, after every sequence of fewer than `INT_MAX` calls of
`access_cache` the counters satisfy `accesses == hits + misses`, and one more
call, with any address and type, increases `accesses` by exactly one and exactly
one of `hits` (when it returns 1) and `misses` (when it returns 0) by exactly
one, so that the equation holds again.  For a positive geometry all these calls
return. -/
theorem counter_conservation (cs bs assoc : Int) (c0 : Cache)
    (h0 : init_cache cs bs assoc = some c0) (trace : List (Nat × Char)) (addr : Nat)
    (type : Char) (hlen : trace.length < 2147483647) :
    (∀ c rs c1 r, run_accesses c0 trace = some (c, rs) →
        access_cache c addr type = some (c1, r) →
        c.accesses = c.hits + c.misses ∧ c1.accesses = c.accesses + 1 ∧
        ((r = 1 ∧ c1.hits = c.hits + 1 ∧ c1.misses = c.misses) ∨
         (r = 0 ∧ c1.hits = c.hits ∧ c1.misses = c.misses + 1)) ∧
        c1.accesses = c1.hits + c1.misses) ∧
    (PositiveGeometry c0 →
      ∃ c rs c1 r, run_accesses c0 trace = some (c, rs) ∧
        access_cache c addr type = some (c1, r)) := by
  obtain ⟨_, _, _, _, _, hm0, hh0, ha0⟩ := init_cache_inv h0
  have hs0 := init_cache_storageInv h0
  constructor
  · intro c rs c1 r hrun hacc
    obtain ⟨i3, hsum, i5, i6⟩ := run_accesses_counters trace hrun (by omega) (by omega)
      (by omega) (by rw [ha0]; unfold INT_MAX; omega)
    obtain ⟨ha, hcase⟩ := access_cache_counters hacc
    have hc0 : (0 : Int) ≤ (rs.count 1 : Int) := Int.ofNat_nonneg _
    have hc00 : (0 : Int) ≤ (rs.count 0 : Int) := Int.ofNat_nonneg _
    rw [wrapInt_of_range (by omega) (by omega)] at ha
    refine ⟨hsum, ha, ?_, ?_⟩
    · rcases hcase with ⟨hr, h1, h2⟩ | ⟨hr, h1, h2⟩
      · rw [wrapInt_of_range (by omega) (by omega)] at h1
        exact Or.inl ⟨hr, h1, h2⟩
      · rw [wrapInt_of_range (by omega) (by omega)] at h2
        exact Or.inr ⟨hr, h1, h2⟩
    · rcases hcase with ⟨hr, h1, h2⟩ | ⟨hr, h1, h2⟩
      · rw [wrapInt_of_range (by omega) (by omega)] at h1
        omega
      · rw [wrapInt_of_range (by omega) (by omega)] at h2
        omega
  · intro hg
    obtain ⟨c, rs, hrun⟩ := run_accesses_total trace hg hs0
    obtain ⟨hs, _, e2, e3, e4⟩ := run_accesses_storageInv _ hs0 hrun
    obtain ⟨c1, r, hacc⟩ := access_cache_total (positiveGeometry_congr hg e2 e3 e4) hs addr type
    exact ⟨c, rs, c1, r, hrun, hacc⟩

/-- Witness for C1 (amended) on the cache of `init_cache(256, 64, 2)`. -/
theorem counter_conservation_witness :
    init_cache 256 64 2 = some smallCache ∧
      ∃ c rs c1 r, run_accesses smallCache [(0, 'r'), (64, 'w')] = some (c, rs) ∧
        access_cache c 0 'r' = some (c1, r) ∧ c1.accesses = c.accesses + 1 ∧
        c1.accesses = c1.hits + c1.misses := by
  obtain ⟨hpart, htot⟩ :=
    counter_conservation 256 64 2 smallCache (by decide) [(0, 'r'), (64, 'w')] 0 'r' (by decide)
  obtain ⟨c, rs, c1, r, hrun, hacc⟩ := htot (by decide)
  have h := hpart c rs c1 r hrun hacc
  exact ⟨by decide, c, rs, c1, r, hrun, hacc, h.2.1, h.2.2.2⟩

/-- C2: recency permutation invariant.  In the cache returned by `init_cache`
and after every sequence of `access_cache` calls on it, the cache has its
`num_sets` sets and the lru values of the ways of every set form a permutation
of `0 .. associativity - 1`.  For a positive geometry (in particular for
`associativity ≥ 1`, `num_sets ≥ 1` and a positive block size) every such
sequence of calls returns. -/
theorem lru_permutation_invariant (cs bs assoc : Int) (c0 : Cache)
    (h0 : init_cache cs bs assoc = some c0) (trace : List (Nat × Char)) :
    (∀ c rs, run_accesses c0 trace = some (c, rs) →
        c.associativity = assoc ∧ c.sets.length = c0.num_sets.toNat ∧
        ∀ s ∈ c.sets, LruPerm s assoc) ∧
    (PositiveGeometry c0 → ∃ c rs, run_accesses c0 trace = some (c, rs)) := by
  obtain ⟨_, _, hassoc, _⟩ := init_cache_inv h0
  have hs0 := init_cache_storageInv h0
  constructor
  · intro c rs hrun
    obtain ⟨hs, _, _, e3, e4⟩ := run_accesses_storageInv trace hs0 hrun
    refine ⟨by rw [e3, hassoc], by rw [hs.1, e4], ?_⟩
    intro s hmem
    have := hs.2 s hmem
    rw [e3, hassoc] at this
    exact this
  · intro hg
    exact run_accesses_total trace hg hs0

/-- Witness for C2 on the cache of `init_cache(256, 64, 2)`. -/
theorem lru_permutation_invariant_witness :
    init_cache 256 64 2 = some smallCache ∧
      ∃ c rs, run_accesses smallCache [(0, 'r'), (128, 'w'), (256, 'r'), (0, 'w')] = some (c, rs) ∧
        ∀ s ∈ c.sets, LruPerm s 2 := by
  obtain ⟨hpart, htot⟩ := lru_permutation_invariant 256 64 2 smallCache (by decide)
    [(0, 'r'), (128, 'w'), (256, 'r'), (0, 'w')]
  obtain ⟨c, rs, hrun⟩ := htot (by decide)
  exact ⟨by decide, c, rs, hrun, (hpart c rs hrun).2.2⟩

/-- C3: hit/miss result correctness.  For every cache state of the data model
(valid geometry, `num_sets` sets whose lru values are permutations) and every
address and type, `access_cache` returns, and the value returned is 1 if, before
the call, some way of the set selected by `get_set(addr)` has `valid != 0` and
`tag == get_tag(addr)`, and 0 otherwise. -/
theorem hit_miss_result (c : Cache) (hv : ValidState c) (addr : Nat) (type : Char) :
    ∃ c1, access_cache c addr type = some (c1, if HitCondition c addr then 1 else 0) := by
  obtain ⟨c1, r, h⟩ := access_cache_total (validGeometry_positive hv.1) hv.2 addr type
  rw [access_cache_result hv.2 h] at h
  exact ⟨c1, h⟩

/-- Witness for C3: a miss on the cold cache of `init_cache(256, 64, 2)`. -/
theorem hit_miss_result_witness :
    ValidState smallCache ∧ ¬ HitCondition smallCache 192 ∧
      ∃ c1, access_cache smallCache 192 'w' = some (c1, 0) := by
  obtain ⟨c1, h⟩ := hit_miss_result smallCache (by decide) 192 'w'
  have hc : ¬ HitCondition smallCache 192 := by decide
  rw [if_neg hc] at h
  exact ⟨by decide, hc, c1, h⟩

/-- C4: capacity/LRU eviction.  For every valid geometry with associativity `k`
and every `k + 1` addresses `a0, ..., ak` (here `a0`, the `k - 1` addresses of
`rest`, and `ak`) that decode to the same set index and have pairwise distinct
tags, accessed in order on the cache returned by `init_cache`, with any access
types:

* the accesses to `a0, ..., a(k-1)` all return miss (0); in the cache `ck` they
  leave, every way of the common set `set` is valid, way 0 holds the block of
  `a0`, each of `a0, ..., a(k-1)` is resident (`HitCondition`) and `ak` is not;
* the access to `ak` returns miss and evicts the block of `a0`: the victim of
  `set`, found by `find_lru`, is way 0; in the cache `ck1` it leaves, way 0 of the
  set holds the block of `ak`, every other way keeps its valid bit and tag, each
  of `a1, ..., ak` is resident and `a0` is not;
* the access to `a0` that follows returns miss, so the `k + 2` accesses return
  0 each. -/
theorem capacity_eviction (cs bs assoc : Int) (c0 : Cache)
    (h0 : init_cache cs bs assoc = some c0) (hg : ValidGeometry c0)
    (a0 : Nat) (t0 : Char) (rest : List (Nat × Char)) (ak : Nat) (tk : Char) (t : Char)
    (hlen : rest.length + 1 = assoc.toNat)
    (hset : ∀ x ∈ rest ++ [(ak, tk)], get_set x.1 c0 = get_set a0 c0)
    (htag : (((a0, t0) :: rest ++ [(ak, tk)]).map fun x => get_tag x.1 c0).Nodup) :
    ∃ (ck ck1 c : Cache) (set set1 : List CacheBlock) (b0 b1 : CacheBlock),
      run_accesses c0 ((a0, t0) :: rest) = some (ck, List.replicate assoc.toNat 0) ∧
      selected_set ck a0 = some set ∧ (∀ b ∈ set, b.valid ≠ 0) ∧
      set[0]? = some b0 ∧ get_tag a0 c0 = some b0.tag ∧
      (∀ x ∈ (a0, t0) :: rest, HitCondition ck x.1) ∧ ¬ HitCondition ck ak ∧
      select_victim set assoc = some 0 ∧ find_lru set assoc = some 0 ∧
      access_cache ck ak tk = some (ck1, 0) ∧
      selected_set ck1 a0 = some set1 ∧
      set1[0]? = some b1 ∧ b1.valid = 1 ∧ get_tag ak c0 = some b1.tag ∧
      (∀ (i : Nat) (b : CacheBlock), i ≠ 0 → set[i]? = some b →
        ∃ b2, set1[i]? = some b2 ∧ b2.valid = b.valid ∧ b2.tag = b.tag) ∧
      (∀ x ∈ rest ++ [(ak, tk)], HitCondition ck1 x.1) ∧ ¬ HitCondition ck1 a0 ∧
      access_cache ck1 a0 t = some (c, 0) ∧
      run_accesses c0 ((a0, t0) :: rest ++ [(ak, tk), (a0, t)]) =
        some (c, List.replicate (assoc.toNat + 2) 0) := by
  have hp0 := validGeometry_positive hg
  have hs0 := init_cache_storageInv h0
  obtain ⟨_, _, hassoc, _, hsets, _⟩ := init_cache_inv h0
  -- the common set
  obtain ⟨S0, hS0, hperm0⟩ := selected_set_exists hp0 hs0 a0
  have hS0eq : S0 = init_set assoc := by
    have hmem := List.getElem?_mem hS0
    rw [hsets] at hmem
    exact List.eq_of_mem_replicate hmem
  have hS0len : S0.length = assoc.toNat := by
    rw [← lruPerm_length_eq hperm0, hassoc]
  have hsi0 := get_set_eq_setIndex hp0 a0
  -- the tags, as numbers
  have htags : (((a0, t0) :: rest ++ [(ak, tk)]).map fun x => tagOf x.1 c0).Nodup := by
    have hmap : (((a0, t0) :: rest ++ [(ak, tk)]).map fun x => get_tag x.1 c0) =
        (((a0, t0) :: rest ++ [(ak, tk)]).map fun x => tagOf x.1 c0).map some := by
      rw [List.map_map]
      apply List.map_congr_left
      intro x _
      exact get_tag_eq_tagOf hp0 x.1
    rw [hmap] at htag
    exact List.Nodup.of_map _ htag
  rw [List.map_append, List.nodup_append] at htags
  obtain ⟨hnd1, _, hdisj⟩ := htags
  have hknew : tagOf ak c0 ∉ ((a0, t0) :: rest).map (fun x => tagOf x.1 c0) := by
    intro hmem
    exact hdisj hmem (by simp)
  have h0new : tagOf a0 c0 ∉ rest.map (fun x => tagOf x.1 c0) := by
    rw [List.map_cons, List.nodup_cons] at hnd1
    exact hnd1.1
  -- the first k accesses fill the set
  obtain ⟨c2, S2, hrun2, hg2, hs2, e2, e3, e4, hS2, hlen2, hF2⟩ :=
    fill_phase (setIndex a0 c0) ((a0, t0) :: rest) c0 [] S0 hp0 hs0 hS0
      (by rw [hS0eq]; exact init_set_filled assoc)
      (by simp only [List.length_nil, List.length_cons]; omega)
      (by
        intro x hx
        rcases List.mem_cons.mp hx with h | h
        · rw [h]; exact hsi0
        · rw [hset x (List.mem_append_left _ h)]; exact hsi0)
      (by rw [List.nil_append]; exact hnd1)
  rw [List.nil_append] at hF2
  have hk : ((a0, t0) :: rest).length = assoc.toNat := by
    simp only [List.length_cons]; omega
  rw [hk] at hrun2
  have htl : (((a0, t0) :: rest).map (fun x => tagOf x.1 c0)).length = S2.length := by
    simp only [List.length_map, List.length_cons]
    omega
  have hpos2 : 0 < S2.length := by omega
  have hassoc2 : (c2.associativity : Int) = (S2.length : Int) := by
    have h1 := hp0.2.1.1
    rw [e3]
    omega
  -- decoding in the later caches
  have hsi_all : ∀ x ∈ (a0, t0) :: rest ++ [(ak, tk)],
      get_set x.1 c0 = some (setIndex a0 c0 : Int) := by
    intro x hx
    rcases List.mem_cons.mp hx with h | h
    · rw [h]; exact hsi0
    · rw [hset x h]; exact hsi0
  -- the ways of the full set
  have hway : ∀ (j : Nat) (b : CacheBlock), S2[j]? = some b →
      b.valid ≠ 0 ∧ (((a0, t0) :: rest).map (fun x => tagOf x.1 c0))[j]? = some b.tag := by
    intro j b hb
    have hj : j < S2.length := (List.getElem?_eq_some.mp hb).1
    have := (hF2 j b hb).1 (by rw [htl]; exact hj)
    exact ⟨this.1, this.2.1⟩
  have hres : ∀ x ∈ (a0, t0) :: rest, ∃ (j : Nat) (b : CacheBlock), S2[j]? = some b ∧
      Matches (tagOf x.1 c0) b ∧ (x ∈ rest → j ≠ 0) := by
    intro x hx
    have hmem : tagOf x.1 c0 ∈ ((a0, t0) :: rest).map (fun x => tagOf x.1 c0) :=
      List.mem_map_of_mem (fun x => tagOf x.1 c0) hx
    obtain ⟨j, hj⟩ := List.mem_iff_getElem?.mp hmem
    have hjlt : j < S2.length := by
      rw [← htl]
      exact (List.getElem?_eq_some.mp hj).1
    refine ⟨j, S2[j], List.getElem?_eq_getElem hjlt, ?_, ?_⟩
    · have hw := hway j S2[j] (List.getElem?_eq_getElem hjlt)
      refine ⟨hw.1, ?_⟩
      have := hw.2
      rw [hj] at this
      exact (Option.some.inj this).symm
    · intro hxr hj0
      subst hj0
      rw [List.map_cons, List.getElem?_cons_zero] at hj
      have : tagOf a0 c0 = tagOf x.1 c0 := Option.some.inj hj
      apply h0new
      rw [this]
      exact List.mem_map_of_mem (fun x => tagOf x.1 c0) hxr
  have hb0 : S2[0]? = some S2[0] := List.getElem?_eq_getElem hpos2
  have hb0tag : (S2[0]).tag = tagOf a0 c0 := by
    have := (hway 0 S2[0] hb0).2
    rw [List.map_cons, List.getElem?_cons_zero] at this
    exact (Option.some.inj this).symm
  have hfull : ∀ b ∈ S2, b.valid ≠ 0 := by
    intro b hb
    obtain ⟨j, hj⟩ := List.mem_iff_getElem?.mp hb
    exact (hway j b hj).1
  have hhit2 : ∀ x ∈ (a0, t0) :: rest, HitCondition c2 x.1 := by
    intro x hx
    obtain ⟨j, b, hb, hm, _⟩ := hres x hx
    have hsx : get_set x.1 c2 = some (setIndex a0 c0 : Int) := by
      rw [get_set_congr e2 e4]
      exact hsi_all x (by
        rw [List.cons_append]
        rcases List.mem_cons.mp hx with h | h
        · rw [h]; exact List.mem_cons_self _ _
        · exact List.mem_cons_of_mem _ (List.mem_append_left _ h))
    have htx : get_tag x.1 c2 = some (tagOf x.1 c0) := by
      rw [get_tag_congr e2 e4]
      exact get_tag_eq_tagOf hp0 x.1
    exact (hitCondition_iff hsx htx hS2).mpr ⟨b, List.getElem?_mem hb, hm⟩
  -- the access to ak evicts way 0
  have hsik : get_set ak c2 = some (setIndex a0 c0 : Int) := by
    rw [get_set_congr e2 e4, hset (ak, tk) (by simp)]
    exact hsi0
  have htagk2 : get_tag ak c2 = some (tagOf ak c0) := by
    rw [get_tag_congr e2 e4]
    exact get_tag_eq_tagOf hp0 ak
  have hnohit2 : ¬ HitCondition c2 ak := by
    intro hh
    obtain ⟨b, hb, hm⟩ := (hitCondition_iff hsik htagk2 hS2).mp hh
    exact filled_noMatch hF2 hknew b hb hm
  obtain ⟨c3, r3, S3, hacc3, hg3, hs3, f2, f3, f4, hS3, hcase3⟩ :=
    access_on_set hg2 hs2 tk hsik hS2
  rw [tagOf_congr e2 e4] at hcase3
  rcases hcase3 with ⟨w, ⟨⟨b, hb, hm⟩, _⟩, _, _⟩ | ⟨_, v, hv, hS3eq, hr3⟩
  · exact absurd hm (filled_noMatch hF2 hknew b (List.getElem?_mem hb))
  · have hv0 := filled_full_victim hF2 htl hassoc2 hv
    subst hv0
    have hperm2 : LruPerm S2 c2.associativity := hs2.2 S2 (List.getElem?_mem hS2)
    have hvs := victim_select_spec hperm2 hg2.2.1.1 hv
    have hassoc' : c2.associativity = assoc := by rw [e3, hassoc]
    rw [hassoc'] at hvs
    -- the set after the eviction
    have hS3get : ∀ i : Nat, S3[i]? =
        (S2[i]?).map (missBlock (S2[0]).lru 0 (tagOf ak c0) tk i) := by
      intro i
      rw [hS3eq]
      exact getElem?_fill_promote hb0 (tagOf ak c0) tk i
    have hS3zero : S3[0]? = some (missBlock (S2[0]).lru 0 (tagOf ak c0) tk 0 S2[0]) := by
      rw [hS3get 0, hb0]
      rfl
    have hself := missBlock_self_fields (S2[0]).lru 0 (tagOf ak c0) tk S2[0]
    have hother : ∀ (i : Nat) (b : CacheBlock), i ≠ 0 → S2[i]? = some b →
        ∃ b2, S3[i]? = some b2 ∧ b2.valid = b.valid ∧ b2.tag = b.tag := by
      intro i b hi hb
      have hf := missBlock_ne_fields (S2[0]).lru hi (tagOf ak c0) tk b
      refine ⟨missBlock (S2[0]).lru 0 (tagOf ak c0) tk i b, ?_, hf.1, hf.2.1⟩
      rw [hS3get i, hb]
      rfl
    -- decoding after the eviction
    have hsi3 : ∀ x ∈ (a0, t0) :: rest ++ [(ak, tk)],
        get_set x.1 c3 = some (setIndex a0 c0 : Int) := by
      intro x hx
      rw [get_set_congr f2 f4, get_set_congr e2 e4]
      exact hsi_all x hx
    have htag3 : ∀ a : Nat, get_tag a c3 = some (tagOf a c0) := by
      intro a
      rw [get_tag_congr f2 f4, get_tag_congr e2 e4]
      exact get_tag_eq_tagOf hp0 a
    have hsi4 : get_set a0 c3 = some (setIndex a0 c0 : Int) :=
      hsi3 (a0, t0) (by rw [List.cons_append]; exact List.mem_cons_self _ _)
    have hhit3 : ∀ x ∈ rest ++ [(ak, tk)], HitCondition c3 x.1 := by
      intro x hx
      have hx3 := hsi3 x (by rw [List.cons_append]; exact List.mem_cons_of_mem _ hx)
      rcases List.mem_append.mp hx with h | h
      · obtain ⟨j, b, hb, hm, hj⟩ := hres x (List.mem_cons_of_mem _ h)
        obtain ⟨b2, hb2, hv2, ht2⟩ := hother j b (hj h) hb
        refine (hitCondition_iff hx3 (htag3 x.1) hS3).mpr ⟨b2, List.getElem?_mem hb2, ?_⟩
        exact ⟨by rw [hv2]; exact hm.1, by rw [ht2]; exact hm.2⟩
      · have hxe : x = (ak, tk) := List.mem_singleton.mp h
        subst hxe
        refine (hitCondition_iff hx3 (htag3 ak) hS3).mpr ⟨_, List.getElem?_mem hS3zero, ?_⟩
        exact ⟨by rw [hself.1]; decide, hself.2.1⟩
    -- the second access to a0 misses
    obtain ⟨c4, r4, S4, hacc4, _, _, _, _, _, _, hcase4⟩ := access_on_set hg3 hs3 t hsi4 hS3
    rw [tagOf_congr f2 f4, tagOf_congr e2 e4] at hcase4
    have hno4 : ∀ b ∈ promote (fill S2 0 (tagOf ak c0) tk) 0, ¬ Matches (tagOf a0 c0) b :=
      filled_evict_noMatch hF2 htl (by omega) hnd1 tk hknew (by simp)
    rw [← hS3eq] at hno4
    have hnohit3 : ¬ HitCondition c3 a0 := by
      intro hh
      obtain ⟨b, hb, hm⟩ := (hitCondition_iff hsi4 (htag3 a0) hS3).mp hh
      exact hno4 b hb hm
    rcases hcase4 with ⟨w, ⟨⟨b, hb, hm⟩, _⟩, _, _⟩ | ⟨_, _, _, _, hr4⟩
    · exact absurd hm (hno4 b (List.getElem?_mem hb))
    · subst hr3 hr4
      have hrun34 : run_accesses c2 [(ak, tk), (a0, t)] = some (c4, [0, 0]) := by
        simp only [run_accesses, hacc3, hacc4]
      have hsi2 : get_set a0 c2 = some (setIndex a0 c0 : Int) := by
        rw [get_set_congr e2 e4]
        exact hsi0
      have hsel2 : selected_set c2 a0 = some S2 := by
        rw [selected_set_of_get_set hsi2]
        exact hS2
      have hsel3 : selected_set c3 a0 = some S3 := by
        rw [selected_set_of_get_set hsi4]
        exact hS3
      refine ⟨c2, c3, c4, S2, S3, S2[0], _, hrun2, hsel2, hfull, hb0, ?_, hhit2, hnohit2,
        hvs.1, (hvs.2.2 hfull).1, hacc3, hsel3, hS3zero, hself.1, ?_, hother, hhit3, hnohit3,
        hacc4, ?_⟩
      · rw [hb0tag]
        exact get_tag_eq_tagOf hp0 a0
      · rw [hself.2.1]
        exact get_tag_eq_tagOf hp0 ak
      · rw [run_accesses_append _ _ hrun2 hrun34]
        have : List.replicate (assoc.toNat + 2) (0 : Int) =
            List.replicate assoc.toNat 0 ++ [0, 0] := by
          rw [List.replicate_add]
          rfl
        rw [this]

/-- Witness for C4: associativity 2, addresses 0, 128, 256 of set 0 with tags 0, 1
and 2, on the cache of `init_cache(256, 64, 2)`: after the misses on 0 and 128
both are resident; the miss on 256 evicts the block of 0 and keeps that of 128;
the access to 0 that follows misses. -/
theorem capacity_eviction_witness :
    init_cache 256 64 2 = some smallCache ∧ ValidGeometry smallCache ∧
      ∃ ck ck1 c set, run_accesses smallCache [(0, 'r'), (128, 'w')] = some (ck, [0, 0]) ∧
        HitCondition ck 0 ∧ HitCondition ck 128 ∧
        selected_set ck 0 = some set ∧ select_victim set 2 = some 0 ∧
        access_cache ck 256 'r' = some (ck1, 0) ∧
        ¬ HitCondition ck1 0 ∧ HitCondition ck1 128 ∧ HitCondition ck1 256 ∧
        access_cache ck1 0 'r' = some (c, 0) ∧
        run_accesses smallCache [(0, 'r'), (128, 'w'), (256, 'r'), (0, 'r')] =
          some (c, [0, 0, 0, 0]) := by
  obtain ⟨ck, ck1, c, set, _, _, _, h1, h2, _, _, _, h3, _, h4, _, h5, _, _, _, _, _, h6, h7,
      h8, h9⟩ :=
    capacity_eviction 256 64 2 smallCache (by decide) (by decide) 0 'r' [(128, 'w')] 256 'r' 'r'
      (by decide) (by decide) (by decide)
  exact ⟨by decide, by decide, ck, ck1, c, set, h1, h3 (0, 'r') (by simp),
    h3 (128, 'w') (by simp), h2, h4, h5, h7, h6 (128, 'w') (by simp), h6 (256, 'r') (by simp),
    h8, h9⟩

/-- C5: repeated access.  For every valid geometry, every address and every
choice of access types, three consecutive `access_cache` calls on the same
address applied to the cache returned by `init_cache` return miss, hit, hit
(0, 1, 1) in that order. -/
theorem repeated_access (cs bs assoc : Int) (c0 : Cache)
    (h0 : init_cache cs bs assoc = some c0) (hg : ValidGeometry c0) (addr : Nat)
    (t1 t2 t3 : Char) :
    ∃ c3, run_accesses c0 [(addr, t1), (addr, t2), (addr, t3)] = some (c3, [0, 1, 1]) := by
  have hp0 := validGeometry_positive hg
  have hs0 := init_cache_storageInv h0
  obtain ⟨c1, r1, h1⟩ := access_cache_total hp0 hs0 addr t1
  obtain ⟨hs1, _, e2, e3, e4⟩ := access_cache_storageInv hs0 h1
  have hp1 := positiveGeometry_congr hp0 e2 e3 e4
  obtain ⟨c2, r2, h2⟩ := access_cache_total hp1 hs1 addr t2
  obtain ⟨hs2, _, f2, f3, f4⟩ := access_cache_storageInv hs1 h2
  have hp2 := positiveGeometry_congr hp1 f2 f3 f4
  obtain ⟨c3, r3, h3⟩ := access_cache_total hp2 hs2 addr t3
  have hr1 := access_cache_result hs0 h1
  have hr2 := access_cache_result hs1 h2
  have hr3 := access_cache_result hs2 h3
  rw [if_neg (init_cache_cold h0 addr)] at hr1
  rw [if_pos (hitCondition_after_access hs0 h1)] at hr2
  rw [if_pos (hitCondition_after_access hs1 h2)] at hr3
  subst hr1 hr2 hr3
  exact ⟨c3, by simp only [run_accesses, h1, h2, h3]⟩

/-- Witness for C5 on the geometry `(256, 64, 2)`. -/
theorem repeated_access_witness :
    init_cache 256 64 2 = some smallCache ∧ ValidGeometry smallCache ∧
      ∃ c3, run_accesses smallCache [(4660, 'r'), (4660, 'w'), (4660, 'r')] =
        some (c3, [0, 1, 1]) :=
  ⟨by decide, by decide,
    repeated_access 256 64 2 smallCache (by decide) (by decide) 4660 'r' 'w' 'r'⟩

/-- C7: decoder formulas.  For every valid geometry and every address, with `b`
and `s` the base-2 logarithms of `block_size` and `num_sets`, `get_set` returns
`(address >> b) & (num_sets - 1)`, the 64-bit value unchanged by its conversion
to `int`, and `get_tag` returns `address >> (b + s)`. -/
theorem decoder_formulas (c : Cache) (hg : ValidGeometry c) (addr : Nat) :
    ∃ b s : Nat, c.block_size = 2 ^ b ∧ c.num_sets = 2 ^ s ∧
      get_set addr c = some (((addr >>> b) &&& (c.num_sets - 1).toNat : Nat) : Int) ∧
      get_tag addr c = some (addr >>> (b + s)) := by
  obtain ⟨hb, hs, hset, htag⟩ := decode_valid hg addr
  refine ⟨floorLog2 c.block_size.toNat, floorLog2 c.num_sets.toNat, hb, hs, ?_, htag⟩
  have hn : (c.num_sets - 1).toNat = 2 ^ floorLog2 c.num_sets.toNat - 1 := by
    have h1 := isPow2_cast hg.2.2.1
    have hpos : 1 ≤ (2 : Nat) ^ floorLog2 c.num_sets.toNat := Nat.one_le_two_pow
    generalize (2 : Nat) ^ floorLog2 c.num_sets.toNat = P at h1 hpos
    omega
  rw [hn, Nat.and_pow_two_sub_one_eq_mod]
  exact hset

/-- Witness for C7 on the geometry `(256, 64, 2)`. -/
theorem decoder_formulas_witness :
    ValidGeometry smallCache ∧
      ∃ b s : Nat, smallCache.block_size = 2 ^ b ∧ smallCache.num_sets = 2 ^ s ∧
        get_set 4660 smallCache =
          some (((4660 >>> b) &&& (smallCache.num_sets - 1).toNat : Nat) : Int) ∧
        get_tag 4660 smallCache = some (4660 >>> (b + s)) :=
  ⟨by decide, decoder_formulas smallCache (by decide) 4660⟩

/-- C6: address decomposition round-trip.  For every valid geometry and every
64-bit address, with `b` and `s` the base-2 logarithms of `block_size` and
`num_sets`, `(get_tag(addr) << (b + s)) | (get_set(addr) << b)`, computed on
64-bit values without loss, is the address with its low `b` bits cleared; and
another address decodes to the same set index and tag exactly when it agrees
with the address above the low `b` bits. -/
theorem address_roundtrip (c : Cache) (hg : ValidGeometry c) (addr : Nat)
    (haddr : addr < 2 ^ 64) :
    ∃ b s si tag : Nat, c.block_size = 2 ^ b ∧ c.num_sets = 2 ^ s ∧
      get_set addr c = some (si : Int) ∧ get_tag addr c = some tag ∧
      (tag <<< (b + s)) ||| (si <<< b) = addr - addr % 2 ^ b ∧
      tag <<< (b + s) < 2 ^ 64 ∧ si <<< b < 2 ^ 64 ∧
      ∀ addr2 : Nat, (get_set addr2 c = some (si : Int) ∧ get_tag addr2 c = some tag) ↔
        addr2 >>> b = addr >>> b := by
  obtain ⟨hb, hs, hset, htag⟩ := decode_valid hg addr
  refine ⟨floorLog2 c.block_size.toNat, floorLog2 c.num_sets.toNat, _, _, hb, hs, hset, htag,
    ?_, ?_, ?_, ?_⟩
  · exact roundtrip_arith addr _ _
  · exact Nat.lt_of_le_of_lt (shift_back_le addr _) haddr
  · refine Nat.lt_of_le_of_lt ?_ haddr
    refine Nat.le_trans ?_ (shift_back_le addr (floorLog2 c.block_size.toNat))
    rw [Nat.shiftLeft_eq, Nat.shiftLeft_eq]
    exact Nat.mul_le_mul_right _ (Nat.mod_le _ _)
  · intro addr2
    obtain ⟨_, _, hset2, htag2⟩ := decode_valid hg addr2
    rw [hset2, htag2, Nat.shiftRight_add, Nat.shiftRight_add]
    simp only [Option.some.injEq, Nat.cast_inj]
    rw [Nat.shiftRight_eq_div_pow (addr2 >>> _), Nat.shiftRight_eq_div_pow (addr >>> _)]
    exact div_mod_pair_eq

/-- Witness for C6 on the geometry `(256, 64, 2)`. -/
theorem address_roundtrip_witness :
    ValidGeometry smallCache ∧ (4660 : Nat) < 2 ^ 64 ∧
      ∃ b s si tag : Nat, smallCache.block_size = 2 ^ b ∧ smallCache.num_sets = 2 ^ s ∧
        get_set 4660 smallCache = some (si : Int) ∧ get_tag 4660 smallCache = some tag ∧
        (tag <<< (b + s)) ||| (si <<< b) = 4660 - 4660 % 2 ^ b ∧
        tag <<< (b + s) < 2 ^ 64 ∧ si <<< b < 2 ^ 64 ∧
        ∀ addr2 : Nat, (get_set addr2 smallCache = some (si : Int) ∧
          get_tag addr2 smallCache = some tag) ↔ addr2 >>> b = 4660 >>> b :=
  ⟨by decide, by norm_num, address_roundtrip smallCache (by decide) 4660 (by norm_num)⟩

/-- C8, as stated, fails: `init_cache` validates nothing.  `init_cache(8192, 100, 4)`
returns a cache, with `num_sets = 20` although `100 * 4 * 20` is 8000 and not
8192, and with a block size that is not a power of two. -/
theorem construction_rejection_counterexample :
    ∃ c, init_cache 8192 100 4 = some c ∧ c.num_sets = 20 ∧ c.sets.length = 20 ∧
      c.block_size * c.associativity * c.num_sets ≠ c.cache_size ∧ ¬ IsPow2 c.block_size ∧
      ¬ ValidGeometry c :=
  ⟨_, init_cache_some 8192 100 4 (by decide) (by decide), by decide, by decide, by decide,
    by decide, by decide⟩

/-- C8 (amended): construction without validation.  `init_cache` checks nothing:
whenever `block_size * associativity` is a non-zero `int` and the quotient is an
`int`, it returns a cache that stores the three arguments as given, with
`num_sets = cache_size / (block_size * associativity)` truncated toward zero
(for a non-negative capacity and a positive product, the largest `n` with
`block_size * associativity * n ≤ cache_size`), `num_sets` sets of invalid
blocks and counters 0; the cache has a valid geometry exactly when these
arguments and this quotient satisfy the geometry invariant. -/
theorem construction_unvalidated (cs bs assoc : Int) (hd : wrapInt (bs * assoc) ≠ 0)
    (hov : ¬ (cs = INT_MIN ∧ wrapInt (bs * assoc) = -1)) :
    ∃ c, init_cache cs bs assoc = some c ∧
      c.cache_size = cs ∧ c.block_size = bs ∧ c.associativity = assoc ∧
      c.num_sets = Int.tdiv cs (wrapInt (bs * assoc)) ∧
      (0 ≤ cs → 0 < wrapInt (bs * assoc) →
        wrapInt (bs * assoc) * c.num_sets ≤ cs ∧ cs < wrapInt (bs * assoc) * (c.num_sets + 1)) ∧
      StorageInv c ∧ (∀ s ∈ c.sets, ∀ b ∈ s, b.valid = 0 ∧ b.dirty = 0 ∧ b.tag = 0) ∧
      c.hits = 0 ∧ c.misses = 0 ∧ c.accesses = 0 ∧
      (ValidGeometry c ↔
        IsPow2 bs ∧ IsPow2 assoc ∧ IsPow2 (Int.tdiv cs (wrapInt (bs * assoc))) ∧
          cs = bs * assoc * Int.tdiv cs (wrapInt (bs * assoc)) ∧ cs ≤ INT_MAX) := by
  have h0 := init_cache_some cs bs assoc hd hov
  refine ⟨_, h0, rfl, rfl, rfl, rfl, ?_, init_cache_storageInv h0, ?_, rfl, rfl, rfl, Iff.rfl⟩
  · intro hcs hpos
    simp only
    rw [Int.tdiv_eq_ediv hcs (Int.le_of_lt hpos)]
    have h1 := Int.emod_nonneg cs (Int.ne_of_gt hpos)
    have h2 := Int.emod_lt_of_pos cs hpos
    have h3 := Int.emod_add_ediv cs (wrapInt (bs * assoc))
    rw [Int.mul_add, Int.mul_one]
    omega
  · intro s hs b hb
    simp only at hs
    rw [List.eq_of_mem_replicate hs] at hb
    unfold init_set at hb
    obtain ⟨j, _, hj⟩ := List.mem_map.mp hb
    rw [← hj]
    exact ⟨rfl, rfl, rfl⟩

/-- Witness for C8 (amended): `init_cache(8192, 100, 4)`. -/
theorem construction_unvalidated_witness :
    wrapInt (100 * 4) ≠ 0 ∧ ¬ ((8192 : Int) = INT_MIN ∧ wrapInt (100 * 4) = -1) ∧
      ∃ c, init_cache 8192 100 4 = some c ∧ c.num_sets = Int.tdiv 8192 (wrapInt (100 * 4)) := by
  obtain ⟨c, h0, _, _, _, hn, _⟩ := construction_unvalidated 8192 100 4 (by decide) (by decide)
  exact ⟨by decide, by decide, c, h0, hn⟩

/-- C9: concrete end-to-end scenario.  `init_cache(8192, 64, 4)` yields
`num_sets = 32`; on that cache `access_cache(0x10000000)` returns 0 (miss), an
immediately following `access_cache(0x10000000)` returns 1 (hit), whatever the
access types, and afterwards `hits = 1`, `misses = 1`, `accesses = 2`, so the
ratio `hits / accesses` is exactly 1/2. -/
theorem end_to_end_scenario (t1 t2 : Char) :
    ∃ c0 c1 c2, init_cache 8192 64 4 = some c0 ∧ c0.num_sets = 32 ∧
      access_cache c0 0x10000000 t1 = some (c1, 0) ∧
      access_cache c1 0x10000000 t2 = some (c2, 1) ∧
      c2.hits = 1 ∧ c2.misses = 1 ∧ c2.accesses = 2 ∧
      (c2.hits : ℚ) / (c2.accesses : ℚ) = 1 / 2 := by
  have h0 := init_cache_some 8192 64 4 (by decide) (by decide)
  have hs0 := init_cache_storageInv h0
  have hp0 : PositiveGeometry _ := validGeometry_positive
    (c := { cache_size := 8192, block_size := 64, associativity := 4,
            num_sets := Int.tdiv 8192 (wrapInt (64 * 4)),
            sets := List.replicate (Int.tdiv 8192 (wrapInt (64 * 4))).toNat (init_set 4),
            misses := 0, hits := 0, accesses := 0 }) (by decide)
  obtain ⟨c1, r1, h1⟩ := access_cache_total hp0 hs0 0x10000000 t1
  obtain ⟨hs1, _, e2, e3, e4⟩ := access_cache_storageInv hs0 h1
  obtain ⟨c2, r2, h2⟩ := access_cache_total (positiveGeometry_congr hp0 e2 e3 e4) hs1
    0x10000000 t2
  have hr1 := access_cache_result hs0 h1
  have hr2 := access_cache_result hs1 h2
  rw [if_neg (init_cache_cold h0 _)] at hr1
  rw [if_pos (hitCondition_after_access hs0 h1)] at hr2
  subst hr1 hr2
  obtain ⟨a1, k1⟩ := access_cache_counters h1
  obtain ⟨a2, k2⟩ := access_cache_counters h2
  have hh1 : c1.hits = 0 ∧ c1.misses = 1 := by
    rcases k1 with ⟨hr, _⟩ | ⟨_, k11, k12⟩
    · exact absurd hr (by decide)
    · rw [k11, k12]; exact ⟨rfl, by decide⟩
  have hh2 : c2.hits = 1 ∧ c2.misses = 1 := by
    rcases k2 with ⟨_, k21, k22⟩ | ⟨hr, _⟩
    · rw [k21, k22, hh1.1, hh1.2]; exact ⟨by decide, rfl⟩
    · exact absurd hr (by decide)
  have ha2 : c2.accesses = 2 := by
    rw [a2, a1]
    decide
  refine ⟨_, c1, c2, h0, by decide, h1, h2, hh2.1, hh2.2, ha2, ?_⟩
  rw [hh2.1, ha2]
  norm_num

/-- C10: dirty propagation.  For every cache state of the data model and every
address, after `access_cache(a, 'w')` the block of `a`'s set that holds `a`'s
tag (the one the lookup finds) has `dirty = 1`; any further number of accesses to
`a`, of any types, all return 1 (hit), and afterwards that block still has
`dirty = 1`. -/
theorem dirty_propagation (c : Cache) (hv : ValidState c) (addr : Nat) (types : List Char) :
    ∃ c1 r c2, access_cache c addr 'w' = some (c1, r) ∧ DirtyLine c1 addr ∧
      run_accesses c1 (types.map fun t => (addr, t)) =
        some (c2, List.replicate types.length 1) ∧
      DirtyLine c2 addr := by
  have hg := validGeometry_positive hv.1
  obtain ⟨c1, r, hacc⟩ := access_cache_total hg hv.2 addr 'w'
  obtain ⟨hs1, _, e2, e3, e4⟩ := access_cache_storageInv hv.2 hacc
  have hd1 := dirtyLine_after_write hv.2 hacc
  obtain ⟨c2, hrun, hd2⟩ := run_accesses_dirty types addr (positiveGeometry_congr hg e2 e3 e4)
    hs1 hd1
  exact ⟨c1, r, c2, hacc, hd1, hrun, hd2⟩

/-- Witness for C10 on the cache of `init_cache(256, 64, 2)`: a write followed by
a read, a write and a read of the same address. -/
theorem dirty_propagation_witness :
    ValidState smallCache ∧
      ∃ c1 r c2, access_cache smallCache 4660 'w' = some (c1, r) ∧ DirtyLine c1 4660 ∧
        run_accesses c1 (['r', 'w', 'r'].map fun t => (4660, t)) =
          some (c2, List.replicate 3 1) ∧
        DirtyLine c2 4660 :=
  ⟨by decide, dirty_propagation smallCache (by decide) 4660 ['r', 'w', 'r']⟩

/-- C11: access never fails.  For every cache reached from `init_cache` with a
valid geometry by `access_cache` calls (which all return) and every address and
type: the set index decoded by `get_set` satisfies `0 <= set_index < num_sets`,
so the selected set exists; on it the victim selection of the miss path and
`find_lru` return a way `v` with `0 <= v < associativity` (never -1); and
`access_cache` returns, with result 0 or 1. -/
theorem access_never_fails (cs bs assoc : Int) (c0 : Cache)
    (h0 : init_cache cs bs assoc = some c0) (hg : ValidGeometry c0)
    (trace : List (Nat × Char)) (addr : Nat) (type : Char) :
    ∃ c rs, run_accesses c0 trace = some (c, rs) ∧
      (∃ (si : Int) (set : List CacheBlock), get_set addr c = some si ∧ 0 ≤ si ∧
        si < c.num_sets ∧ c.sets[si.toNat]? = some set ∧
        (∃ v : Int, select_victim set c.associativity = some v ∧ 0 ≤ v ∧
          v < c.associativity) ∧
        (∃ v : Int, find_lru set c.associativity = some v ∧ 0 ≤ v ∧ v < c.associativity)) ∧
      ∃ c1 r, access_cache c addr type = some (c1, r) ∧ (r = 0 ∨ r = 1) := by
  have hp0 := validGeometry_positive hg
  have hs0 := init_cache_storageInv h0
  obtain ⟨c, rs, hrun⟩ := run_accesses_total trace hp0 hs0
  obtain ⟨hs, _, e2, e3, e4⟩ := run_accesses_storageInv trace hs0 hrun
  have hp := positiveGeometry_congr hp0 e2 e3 e4
  obtain ⟨set, hset, hperm⟩ := selected_set_exists hp hs addr
  have hlt := setIndex_lt hp addr
  obtain ⟨c1, r, hacc⟩ := access_cache_total hp hs addr type
  refine ⟨c, rs, hrun, ⟨(setIndex addr c : Int), set, get_set_eq_setIndex hp addr, by omega,
    ?_, by rw [Int.toNat_ofNat]; exact hset, select_victim_bounds hperm hp.2.1.1⟩,
    c1, r, hacc, ?_⟩
  · have := hp.2.2.1
    omega
  · rcases (access_cache_counters hacc).2 with ⟨hr, _⟩ | ⟨hr, _⟩
    · exact Or.inr hr
    · exact Or.inl hr

/-- Witness for C11 on the cache of `init_cache(256, 64, 2)` after three
accesses, for an address far above the cache size. -/
theorem access_never_fails_witness :
    init_cache 256 64 2 = some smallCache ∧ ValidGeometry smallCache ∧
      ∃ c rs, run_accesses smallCache [(0, 'r'), (128, 'w'), (256, 'r')] = some (c, rs) ∧
        ∃ c1 r, access_cache c 18446744073709551615 'w' = some (c1, r) ∧ (r = 0 ∨ r = 1) := by
  obtain ⟨c, rs, hrun, _, hacc⟩ := access_never_fails 256 64 2 smallCache (by decide)
    (by decide) [(0, 'r'), (128, 'w'), (256, 'r')] 18446744073709551615 'w'
  exact ⟨by decide, by decide, c, rs, hrun, hacc⟩

/-- C12: frame of access.  For every cache state of the data model and every
address and type, `access_cache` returns a cache that differs from the old one
at most in the set selected by `get_set(addr)` and in the three counters: every
other set is unchanged (all fields of all its blocks), the number of sets is
unchanged, and `cache_size`, `block_size`, `associativity` and `num_sets` are
unchanged. -/
theorem access_frame (c : Cache) (hv : ValidState c) (addr : Nat) (type : Char) :
    ∃ (c1 : Cache) (r : Int) (si : Nat) (set1 : List CacheBlock),
      access_cache c addr type = some (c1, r) ∧ get_set addr c = some (si : Int) ∧
      c1 = { c with sets := c.sets.set si set1, misses := c1.misses, hits := c1.hits,
                    accesses := c1.accesses } ∧
      c1.sets.length = c.sets.length ∧ (∀ i : Nat, i ≠ si → c1.sets[i]? = c.sets[i]?) ∧
      c1.cache_size = c.cache_size ∧ c1.block_size = c.block_size ∧
      c1.associativity = c.associativity ∧ c1.num_sets = c.num_sets := by
  obtain ⟨c1, r, hacc⟩ := access_cache_total (validGeometry_positive hv.1) hv.2 addr type
  obtain ⟨si, tag, set, set1, hsi, _, _, _, hsets, ⟨e1, e2, e3, e4⟩, _⟩ :=
    access_cache_effect hv.2 hacc
  refine ⟨c1, r, si, set1, hacc, hsi, ?_, by rw [hsets, List.length_set], ?_, e1, e2, e3, e4⟩
  · cases c1
    cases c
    simp only at hsets e1 e2 e3 e4
    subst hsets e1 e2 e3 e4
    rfl
  · intro i hi
    rw [hsets, List.getElem?_set]
    have : ¬ si = i := fun h => hi h.symm
    simp only [this, if_false]

/-- Witness for C12 on the cache of `init_cache(256, 64, 2)`. -/
theorem access_frame_witness :
    ValidState smallCache ∧
      ∃ (c1 : Cache) (r : Int) (si : Nat), access_cache smallCache 64 'w' = some (c1, r) ∧
        get_set 64 smallCache = some (si : Int) ∧
        ∀ i : Nat, i ≠ si → c1.sets[i]? = smallCache.sets[i]? := by
  obtain ⟨c1, r, si, _, hacc, hsi, _, _, hframe, _⟩ :=
    access_frame smallCache (by decide) 64 'w'
  exact ⟨by decide, c1, r, si, hacc, hsi, hframe⟩

/-- C20: set index in range without geometry validation.  For every `int`
`num_sets >= 1`, power of two or not, every `block_size >= 1` and every address,
`get_set` returns `(addr >> b) & ((1 << s) - 1)` with `b` and `s` the integer
parts of the logarithms of `block_size` and `num_sets`, and this value lies in
`0 .. num_sets - 1` (because `2 ^ s <= num_sets`). -/
theorem set_index_in_range (c : Cache) (hb : 1 ≤ c.block_size) (hn : 1 ≤ c.num_sets)
    (hmax : c.num_sets ≤ INT_MAX) (addr : Nat) :
    ∃ si : Int, get_set addr c = some si ∧ 0 ≤ si ∧ si < c.num_sets ∧
      si = (((addr >>> floorLog2 c.block_size.toNat) &&&
        (2 ^ floorLog2 c.num_sets.toNat - 1) : Nat) : Int) ∧
      2 ^ floorLog2 c.num_sets.toNat ≤ c.num_sets.toNat := by
  obtain ⟨h1, h2⟩ := get_set_eq_general hb hn hmax addr
  exact ⟨_, h1, by omega, by omega, rfl, two_pow_floorLog2_le (by omega)⟩

/-- Witness for C20: the cache of `init_cache(8192, 100, 4)`, with 20 sets. -/
theorem set_index_in_range_witness :
    init_cache 8192 100 4 = some oddCache ∧ oddCache.num_sets = 20 ∧
      ∃ si : Int, get_set 305419896 oddCache = some si ∧ 0 ≤ si ∧ si < 20 := by
  obtain ⟨si, h1, h2, h3, _⟩ :=
    set_index_in_range oddCache (by decide) (by decide) (by decide) 305419896
  exact ⟨by decide, rfl, si, h1, h2, h3⟩

/-- C14: promotion on hit.  When `access_cache` hits way `h` (the first way of
the selected set that is valid and carries the tag) of a set whose lru values
form a permutation of `0 .. associativity - 1`, it returns 1 and afterwards, in
that set: way `h` has lru 0; every way whose old lru was less than `h`'s old lru
has its lru increased by exactly one; every way whose old lru was greater keeps
its lru; the valid and tag fields of all ways and the dirty fields of all ways
other than `h` are unchanged (the dirty field of `h` becomes 1 for a write and is
unchanged otherwise). -/
theorem promotion_on_hit (c : Cache) (hg : ValidGeometry c) (addr : Nat) (type : Char)
    (set : List CacheBlock) (tag h : Nat) (bh : CacheBlock)
    (hset : selected_set c addr = some set) (htag : get_tag addr c = some tag)
    (hperm : LruPerm set c.associativity) (hh : FirstMatch set tag h)
    (hbh : set[h]? = some bh) :
    ∃ (c1 : Cache) (set1 : List CacheBlock),
      access_cache c addr type = some (c1, 1) ∧ selected_set c1 addr = some set1 ∧
      set1.length = set.length ∧
      ∀ (i : Nat) (b : CacheBlock), set[i]? = some b →
        ∃ b1, set1[i]? = some b1 ∧ b1.valid = b.valid ∧ b1.tag = b.tag ∧
          (i = h → b1.lru = 0 ∧ b1.dirty = if type = 'w' then 1 else b.dirty) ∧
          (i ≠ h → b1.dirty = b.dirty) ∧
          (b.lru < bh.lru → b1.lru = b.lru + 1) ∧
          (bh.lru < b.lru → b1.lru = b.lru) := by
  have hp := validGeometry_positive hg
  rw [selected_set_eq hp] at hset
  rw [get_tag_eq_tagOf hp] at htag
  simp only [Option.some.injEq] at htag
  subst htag
  refine ⟨_, hit_update set h type, access_cache_hit hp type hset (lruPerm_length_eq hperm) hh,
    selected_set_hit_result hp hset h type, length_hit_update set h type, ?_⟩
  intro i b hb
  obtain ⟨f1, f2, f3, f4⟩ := hitBlock_fields bh.lru h type i b
  refine ⟨hitBlock bh.lru h type i b, by rw [getElem?_hit_update hbh, hb]; rfl, f1, f2, ?_, ?_,
    ?_, ?_⟩
  · intro hih
    rw [f3, f4]
    simp only [hih, if_true, true_and]
  · intro hih
    rw [f4]
    simp only [hih, false_and, if_false]
  · intro hlt
    have hih : i ≠ h := by
      intro hih
      subst hih
      rw [hbh] at hb
      cases hb
      omega
    rw [f3]
    simp only [hih, if_false, hlt, if_true]
  · intro hlt
    have hih : i ≠ h := by
      intro hih
      subst hih
      rw [hbh] at hb
      cases hb
      omega
    have hnlt : ¬ b.lru < bh.lru := by omega
    rw [f3]
    simp only [hih, if_false, hnlt]

/-- Witness for C14: on the warm cache a read of address 0 hits way 0 of set 0,
whose rank is 1; way 1, of rank 0, moves to rank 1. -/
theorem promotion_on_hit_witness :
    run_accesses smallCache [(0, 'w'), (128, 'w')] = some (warmCache, [0, 0]) ∧
      ValidGeometry warmCache ∧
      ∃ (c1 : Cache) (set1 : List CacheBlock),
        access_cache warmCache 0 'r' = some (c1, 1) ∧ selected_set c1 0 = some set1 ∧
        ∃ b1, set1[1]? = some b1 ∧ b1.lru = 1 := by
  obtain ⟨c1, set1, hacc, hsel, _, hall⟩ := promotion_on_hit warmCache (by decide) 0 'r'
    [{ valid := 1, dirty := 1, tag := 0, lru := 1 }, { valid := 1, dirty := 1, tag := 1, lru := 0 }]
    0 0 { valid := 1, dirty := 1, tag := 0, lru := 1 } (by decide) (by decide) (by decide)
    ⟨⟨_, rfl, by decide⟩, fun i _ hi => absurd hi (Nat.not_lt_zero i)⟩ rfl
  obtain ⟨b1, hb1, _, _, _, _, hlt, _⟩ :=
    hall 1 { valid := 1, dirty := 1, tag := 1, lru := 0 } rfl
  exact ⟨by decide, by decide, c1, set1, hacc, hsel, b1, hb1, hlt (by decide)⟩

/-- C15: victim selection on miss.  On a miss in a set whose lru values form a
permutation of `0 .. associativity - 1`, `access_cache` returns 0 and overwrites
the way `v` chosen by its victim selection: if some way of the set is invalid,
`v` is the lowest-indexed way with `valid == 0`; otherwise `v` is the way
returned by `find_lru`, which is the unique way whose lru equals
`associativity - 1`. -/
theorem victim_selection (c : Cache) (hg : ValidGeometry c) (addr : Nat) (type : Char)
    (set : List CacheBlock) (tag : Nat)
    (hset : selected_set c addr = some set) (htag : get_tag addr c = some tag)
    (hperm : LruPerm set c.associativity) (hmiss : ∀ b ∈ set, ¬ Matches tag b) :
    ∃ (v : Nat) (c1 : Cache),
      access_cache c addr type = some (c1, 0) ∧
      selected_set c1 addr = some (promote (fill set v tag type) v) ∧
      select_victim set c.associativity = some (v : Int) ∧ v < set.length ∧
      ((∃ b ∈ set, b.valid = 0) →
        (∃ b, set[v]? = some b ∧ b.valid = 0) ∧
          ∀ (i : Nat) (b : CacheBlock), i < v → set[i]? = some b → b.valid ≠ 0) ∧
      ((∀ b ∈ set, b.valid ≠ 0) →
        find_lru set c.associativity = some (v : Int) ∧
          (∃ b, set[v]? = some b ∧ b.lru = c.associativity - 1) ∧
          ∀ (j : Nat) (b : CacheBlock), set[j]? = some b → b.lru = c.associativity - 1 →
            j = v) := by
  have hp := validGeometry_positive hg
  rw [selected_set_eq hp] at hset
  rw [get_tag_eq_tagOf hp] at htag
  simp only [Option.some.injEq] at htag
  subst htag
  obtain ⟨v, hv, hacc⟩ := access_cache_miss hp type hset hperm hmiss
  obtain ⟨h1, h2, h3⟩ := victim_select_spec hperm hp.2.1.1 hv
  exact ⟨v, _, hacc, selected_set_miss_result hp hset v _ type, h1, isVictim_lt_length hv,
    h2, h3⟩

/-- Witness for C15: on the warm cache address 256 (set 0, tag 2) misses in a full
set and the victim is way 0, whose rank is 1. -/
theorem victim_selection_witness :
    ValidGeometry warmCache ∧
      ∃ (v : Nat) (c1 : Cache), access_cache warmCache 256 'r' = some (c1, 0) ∧
        select_victim
          [{ valid := 1, dirty := 1, tag := 0, lru := 1 },
           { valid := 1, dirty := 1, tag := 1, lru := 0 }] 2 = some (v : Int) ∧
        v = 0 := by
  obtain ⟨v, c1, hacc, _, hsel, _⟩ := victim_selection warmCache (by decide) 256 'r'
    [{ valid := 1, dirty := 1, tag := 0, lru := 1 }, { valid := 1, dirty := 1, tag := 1, lru := 0 }]
    2 (by decide) (by decide) (by decide) (by decide)
  have hsel2 := hsel
  rw [show select_victim
      [{ valid := 1, dirty := 1, tag := 0, lru := 1 },
       { valid := 1, dirty := 1, tag := 1, lru := 0 }] warmCache.associativity =
      some ((0 : Nat) : Int) by decide] at hsel2
  simp only [Option.some.injEq, Nat.cast_inj] at hsel2
  exact ⟨by decide, v, c1, hacc, hsel, hsel2.symm⟩

/-- C16: block fill on miss.  For every cache state of the data model, after an
access that misses (no way of the selected set is valid with the decoded tag)
the victim way has `valid = 1`, `tag = get_tag(addr)`, `dirty = 1` if the type is
`'w'` and 0 otherwise, whatever the victim's dirty bit was, and `lru = 0`; the
valid, tag and dirty fields of every other way of the set are unchanged. -/
theorem block_fill_on_miss (c : Cache) (hv : ValidState c) (addr : Nat) (type : Char)
    (hmiss : ¬ HitCondition c addr) :
    ∃ (c1 : Cache) (set set1 : List CacheBlock) (tag v : Nat),
      access_cache c addr type = some (c1, 0) ∧
      selected_set c addr = some set ∧ get_tag addr c = some tag ∧
      select_victim set c.associativity = some (v : Int) ∧
      selected_set c1 addr = some set1 ∧ set1.length = set.length ∧
      (∃ b1, set1[v]? = some b1 ∧ b1.valid = 1 ∧ b1.tag = tag ∧
        b1.dirty = (if type = 'w' then 1 else 0) ∧ b1.lru = 0) ∧
      ∀ (i : Nat) (b : CacheBlock), i ≠ v → set[i]? = some b →
        ∃ b1, set1[i]? = some b1 ∧ b1.valid = b.valid ∧ b1.tag = b.tag ∧
          b1.dirty = b.dirty := by
  have hp := validGeometry_positive hv.1
  obtain ⟨set, hset, hperm⟩ := selected_set_exists hp hv.2 addr
  have hsi := get_set_eq_setIndex hp addr
  have htag := get_tag_eq_tagOf hp addr
  have hno : ∀ b ∈ set, ¬ Matches (tagOf addr c) b := by
    intro b hb hm
    exact hmiss ((hitCondition_iff hsi htag hset).mpr ⟨b, hb, hm⟩)
  obtain ⟨v, hvic, hacc⟩ := access_cache_miss hp type hset hperm hno
  obtain ⟨hsel, _, _⟩ := victim_select_spec hperm hp.2.1.1 hvic
  have hvl := isVictim_lt_length hvic
  have hbv : set[v]? = some set[v] := List.getElem?_eq_getElem hvl
  refine ⟨_, set, promote (fill set v (tagOf addr c) type) v, tagOf addr c, v, hacc,
    by rw [selected_set_eq hp]; exact hset, htag, hsel,
    selected_set_miss_result hp hset v _ type, by rw [length_promote, length_fill], ?_, ?_⟩
  · obtain ⟨f1, f2, f3⟩ := missBlock_self_fields set[v].lru v (tagOf addr c) type set[v]
    exact ⟨_, by rw [getElem?_fill_promote hbv, hbv]; rfl, f1, f2,
      missBlock_dirty set[v].lru v (tagOf addr c) type set[v], f3⟩
  · intro i b hi hb
    obtain ⟨f1, f2, _⟩ := missBlock_ne_fields set[v].lru hi (tagOf addr c) type b
    exact ⟨_, by rw [getElem?_fill_promote hbv, hb]; rfl, f1, f2,
      missBlock_ne_dirty set[v].lru hi (tagOf addr c) type b⟩

/-- Witness for C16: on the warm cache a read of address 256 misses; the victim,
way 0, was dirty and is filled with `dirty = 0`. -/
theorem block_fill_on_miss_witness :
    ValidState warmCache ∧ ¬ HitCondition warmCache 256 ∧
      ∃ (c1 : Cache) (set1 : List CacheBlock),
        access_cache warmCache 256 'r' = some (c1, 0) ∧ selected_set c1 256 = some set1 ∧
        ∃ b1, set1[0]? = some b1 ∧ b1.valid = 1 ∧ b1.tag = 2 ∧ b1.dirty = 0 ∧ b1.lru = 0 := by
  obtain ⟨c1, set, set1, tag, v, hacc, hset, htag, hsel, hsel1, _, ⟨b1, hb1, g1, g2, g3, g4⟩, _⟩ :=
    block_fill_on_miss warmCache (by decide) 256 'r' (by decide)
  rw [show selected_set warmCache 256 =
      some [{ valid := 1, dirty := 1, tag := 0, lru := 1 },
            { valid := 1, dirty := 1, tag := 1, lru := 0 }] by decide] at hset
  simp only [Option.some.injEq] at hset
  subst hset
  rw [show get_tag 256 warmCache = some 2 by decide] at htag
  simp only [Option.some.injEq] at htag
  subst htag
  rw [show select_victim
      [{ valid := 1, dirty := 1, tag := 0, lru := 1 },
       { valid := 1, dirty := 1, tag := 1, lru := 0 }] warmCache.associativity =
      some ((0 : Nat) : Int) by decide] at hsel
  simp only [Option.some.injEq, Nat.cast_inj] at hsel
  subst hsel
  exact ⟨by decide, by decide, c1, set1, hacc, hsel1, b1, hb1, g1, g2, g3, g4⟩

/-- C18: no duplicate lines.  In every cache state reached from `init_cache` by
`access_cache` calls, no set contains two distinct valid ways with the same tag;
so at most one way of a set is valid with a given tag, and the way matched by the
hit scan is the only one.  For a positive geometry every sequence of calls
returns. -/
theorem no_duplicate_lines (cs bs assoc : Int) (c0 : Cache)
    (h0 : init_cache cs bs assoc = some c0) (trace : List (Nat × Char)) :
    (∀ c rs, run_accesses c0 trace = some (c, rs) →
      ∀ S ∈ c.sets,
        (∀ (i j : Nat) (bi bj : CacheBlock), S[i]? = some bi → S[j]? = some bj →
          bi.valid ≠ 0 → bj.valid ≠ 0 → bi.tag = bj.tag → i = j) ∧
        (∀ (tag w i : Nat) (b : CacheBlock), FirstMatch S tag w → S[i]? = some b →
          Matches tag b → i = w)) ∧
    (PositiveGeometry c0 → ∃ c rs, run_accesses c0 trace = some (c, rs)) := by
  have hs0 := init_cache_storageInv h0
  have hinit : ∀ S ∈ c0.sets, NoDupTags S := by
    intro S hS i j bi bj hi _ hvi _ _
    exact absurd (init_cache_invalid h0 S hS bi (List.getElem?_mem hi)).1 hvi
  refine ⟨?_, fun hg => run_accesses_total trace hg hs0⟩
  intro c rs hrun S hS
  have hnd : NoDupTags S :=
    run_accesses_setInv NoDupTags noDupTags_hit_update noDupTags_fill_promote trace hs0 hinit
      hrun S hS
  refine ⟨hnd, ?_⟩
  intro tag w i b hw hi hm
  obtain ⟨bw, hbw, hmw⟩ := hw.1
  exact hnd i w b bw hi hbw hm.1 hmw.1 (by rw [hm.2, hmw.2])

/-- Witness for C18 on the cache of `init_cache(256, 64, 2)`. -/
theorem no_duplicate_lines_witness :
    init_cache 256 64 2 = some smallCache ∧
      ∃ c rs, run_accesses smallCache [(0, 'r'), (128, 'w'), (0, 'w'), (256, 'r')] =
          some (c, rs) ∧
        ∀ S ∈ c.sets, ∀ (i j : Nat) (bi bj : CacheBlock), S[i]? = some bi → S[j]? = some bj →
          bi.valid ≠ 0 → bj.valid ≠ 0 → bi.tag = bj.tag → i = j := by
  obtain ⟨hpart, htot⟩ := no_duplicate_lines 256 64 2 smallCache (by decide)
    [(0, 'r'), (128, 'w'), (0, 'w'), (256, 'r')]
  obtain ⟨c, rs, hrun⟩ := htot (by decide)
  exact ⟨by decide, c, rs, hrun, fun S hS => (hpart c rs hrun S hS).1⟩

/-- C19: valid ways fill in order and are never invalidated.  In every cache state
reached from `init_cache` by `access_cache` calls, in each set the valid ways
form a prefix of the way order (if way `j` is valid, every way `i < j` is valid)
and every way whose dirty bit is set is valid; and a way that is valid in such a
state is still valid after any further sequence of accesses.  For a positive
geometry all these calls return. -/
theorem valid_ways_prefix (cs bs assoc : Int) (c0 : Cache)
    (h0 : init_cache cs bs assoc = some c0) (trace more : List (Nat × Char)) :
    (∀ c rs c2 rs2, run_accesses c0 trace = some (c, rs) →
      run_accesses c more = some (c2, rs2) →
      (∀ S ∈ c.sets,
        (∀ (i j : Nat) (bi bj : CacheBlock), i < j → S[i]? = some bi → S[j]? = some bj →
          bj.valid ≠ 0 → bi.valid ≠ 0) ∧
        (∀ b ∈ S, b.dirty ≠ 0 → b.valid ≠ 0)) ∧
      (∀ (s j : Nat) (S : List CacheBlock) (b : CacheBlock), c.sets[s]? = some S →
        S[j]? = some b → b.valid ≠ 0 →
        ∃ (S2 : List CacheBlock) (b2 : CacheBlock),
          c2.sets[s]? = some S2 ∧ S2[j]? = some b2 ∧ b2.valid ≠ 0)) ∧
    (PositiveGeometry c0 →
      ∃ c rs c2 rs2, run_accesses c0 trace = some (c, rs) ∧
        run_accesses c more = some (c2, rs2)) := by
  have hs0 := init_cache_storageInv h0
  have hinit1 : ∀ S ∈ c0.sets, ValidPrefix S := by
    intro S hS i j bi bj _ _ hj hvj
    exact absurd (init_cache_invalid h0 S hS bj (List.getElem?_mem hj)).1 hvj
  have hinit2 : ∀ S ∈ c0.sets, DirtyValid S := by
    intro S hS b hb hd
    exact absurd (init_cache_invalid h0 S hS b hb).2 hd
  constructor
  · intro c rs c2 rs2 hrun hmore
    have hs := (run_accesses_storageInv trace hs0 hrun).1
    refine ⟨fun S hS => ⟨?_, ?_⟩, ?_⟩
    · exact run_accesses_setInv ValidPrefix validPrefix_hit_update validPrefix_fill_promote
        trace hs0 hinit1 hrun S hS
    · exact run_accesses_setInv DirtyValid dirtyValid_hit_update dirtyValid_fill_promote
        trace hs0 hinit2 hrun S hS
    · intro s j S b hS hb hvalid
      exact run_accesses_valid_mono more hs hmore hS hb hvalid
  · intro hg
    obtain ⟨c, rs, hrun⟩ := run_accesses_total trace hg hs0
    obtain ⟨hs, _, e2, e3, e4⟩ := run_accesses_storageInv trace hs0 hrun
    obtain ⟨c2, rs2, hmore⟩ := run_accesses_total more (positiveGeometry_congr hg e2 e3 e4) hs
    exact ⟨c, rs, c2, rs2, hrun, hmore⟩

/-- Witness for C19 on the cache of `init_cache(256, 64, 2)`. -/
theorem valid_ways_prefix_witness :
    init_cache 256 64 2 = some smallCache ∧
      ∃ c rs c2 rs2, run_accesses smallCache [(0, 'w'), (64, 'r')] = some (c, rs) ∧
        run_accesses c [(128, 'r'), (256, 'w')] = some (c2, rs2) ∧
        ∀ S ∈ c.sets, ∀ b ∈ S, b.dirty ≠ 0 → b.valid ≠ 0 := by
  obtain ⟨hpart, htot⟩ := valid_ways_prefix 256 64 2 smallCache (by decide)
    [(0, 'w'), (64, 'r')] [(128, 'r'), (256, 'w')]
  obtain ⟨c, rs, c2, rs2, hrun, hmore⟩ := htot (by decide)
  exact ⟨by decide, c, rs, c2, rs2, hrun, hmore,
    fun S hS => ((hpart c rs c2 rs2 hrun hmore).1 S hS).2⟩

/-- C17: true-LRU reference model.  For every valid geometry and every sequence
of accesses `pre` applied to the cache returned by `init_cache`, the next access
(to `addr`, of any type) returns hit (1) if and only if its (set index, tag)
pair was accessed earlier in the sequence and strictly fewer than
`associativity` distinct tags of the same set have been accessed since the most
recent earlier access to that pair, and miss (0) otherwise; equivalently, if and
only if its tag is in the ideal LRU list of capacity `associativity` of the
accesses that fell into its set. -/
theorem true_lru_refinement (cs bs assoc : Int) (c0 : Cache)
    (h0 : init_cache cs bs assoc = some c0) (hg : ValidGeometry c0)
    (pre : List (Nat × Char)) (addr : Nat) (type : Char) :
    ∃ c rs c1 r, run_accesses c0 pre = some (c, rs) ∧
      access_cache c addr type = some (c1, r) ∧
      (r = 1 ↔ RecentlyUsed c0 pre addr) ∧ (r = 0 ↔ ¬ RecentlyUsed c0 pre addr) ∧
      (r = 1 ↔ tagOf addr c0 ∈
        lruList assoc.toNat (tagsOfSet c0 (setIndex addr c0) pre)) := by
  have hp0 := validGeometry_positive hg
  have hs0 := init_cache_storageInv h0
  obtain ⟨_, _, hassoc, _⟩ := init_cache_inv h0
  obtain ⟨c, rs, hrun⟩ := run_accesses_total pre hp0 hs0
  obtain ⟨hs, _, e2, e3, e4⟩ := run_accesses_storageInv pre hs0 hrun
  have hp := positiveGeometry_congr hp0 e2 e3 e4
  have hR := run_accesses_rep pre [] hp0 hs0 (init_cache_rep h0) hrun
  rw [List.nil_append] at hR
  obtain ⟨c1, r, hacc⟩ := access_cache_total hp hs addr type
  obtain ⟨_, hiff, h01⟩ := access_cache_rep hp hs hR hacc
  rw [tagOf_congr e2 e4, setIndex_congr e2 e4, tagsOfSet_congr e2 e4, e3] at hiff
  have hwords := recentlyUsed_iff hp0 pre addr
  refine ⟨c, rs, c1, r, hrun, hacc, hiff.trans hwords.symm, ?_, by rw [← hassoc]; exact hiff⟩
  constructor
  · intro hr0 hru
    have := (hiff.trans hwords.symm).mpr hru
    omega
  · intro hnot
    rcases h01 with h | h
    · exact h
    · exact absurd ((hiff.trans hwords.symm).mp h) hnot

/-- Witness for C17 on the geometry `(256, 64, 2)`: after accesses to the tags 0,
1, 0 of set 0, the tag 1 is still in the two-entry LRU list. -/
theorem true_lru_refinement_witness :
    init_cache 256 64 2 = some smallCache ∧ ValidGeometry smallCache ∧
      ∃ c rs c1, run_accesses smallCache [(0, 'r'), (128, 'w'), (0, 'r')] = some (c, rs) ∧
        access_cache c 128 'r' = some (c1, 1) ∧ RecentlyUsed smallCache
          [(0, 'r'), (128, 'w'), (0, 'r')] 128 := by
  obtain ⟨c, rs, c1, r, hrun, hacc, _, _, hideal⟩ := true_lru_refinement 256 64 2 smallCache
    (by decide) (by decide) [(0, 'r'), (128, 'w'), (0, 'r')] 128 'r'
  have hr : r = 1 := hideal.mpr (by decide)
  subst hr
  exact ⟨by decide, by decide, c, rs, c1, hrun, hacc,
    (recentlyUsed_iff (by decide) _ _).mpr (by decide)⟩

end CacheSim
